import Mathlib

/-!
# Course outline builder: content index and reorder resolution

A shallow embedding of `src/utils/dataStructures.js`, of `handleDragEnd` in
`src/hooks/useDragAndDrop.js` and of the save, edit and delete handlers of
`src/hooks/useCourseBuilder.js`, followed by the properties proved about them.

Modelling conventions.

* JavaScript strings are Lean `String`s; the string primitives used by the
  source are defined below on the character lists. `toLowerCase` lowers the
  ASCII letters `A`..`Z` and leaves every other character as it is.
* `null` is `none`; an item's `moduleId` is an `Option String`.
* `Array.prototype.findIndex` returns an `Int`, `-1` when nothing matches.
* The relational `<` on strings compares the sequences of code points, which is
  the order of JavaScript on strings without astral characters.
* Methods that mutate an object return the object afterwards, paired with the
  returned value where there is one; a returned value is a `JsValue` (`null`,
  `undefined` or a stored value).
* Queue priorities and `maxSize` are integers.
* The validators see each property of their argument as a `JsField`: absent,
  `null`, a string, or any other value with its truthiness.
* React state setters are modelled by returning the new state: `handleDragEnd`
  maps the current `(modules, items)` to the next `(modules, items)`; the
  `prevModules` / `prevItems` handed to the updater callbacks are the current
  state.
* The handlers of `useCourseBuilder` map a `BuilderState` (the state variables
  and the objects behind the three refs) to the state afterwards. The module
  and item records they receive have string `id`, `name` and `type`; each read
  of `Date.now()` is a parameter. The `Map` of an `ItemHashMap` is the list of
  its entries in insertion order, and the arrays stored in it are values.
-/

namespace CourseOutline

/-! ## JavaScript primitives -/

/-- JavaScript `s.startsWith(pre)`. -/
def startsWith (s pre : String) : Bool :=
  pre.data.isPrefixOf s.data

/-- Character-list worker of `removeFirst`. -/
def removeFirstAux (pat : List Char) : List Char → List Char
  | [] => []
  | c :: cs =>
    if pat.isPrefixOf (c :: cs) then (c :: cs).drop pat.length
    else c :: removeFirstAux pat cs

/-- JavaScript `s.replace(pat, '')`: the first occurrence of `pat` is removed. -/
def removeFirst (s pat : String) : String :=
  String.mk (removeFirstAux pat.data s.data)

/-- White space and line terminators stripped by `String.prototype.trim`. -/
def isJsWhitespace (c : Char) : Bool :=
  let n := c.toNat
  n == 9 || n == 10 || n == 11 || n == 12 || n == 13 || n == 32 || n == 160 ||
  n == 5760 || (8192 ≤ n && n ≤ 8202) || n == 8232 || n == 8233 || n == 8239 ||
  n == 8287 || n == 12288 || n == 65279

/-- JavaScript `s.trim()`. -/
def trim (s : String) : String :=
  String.mk (((s.data.dropWhile isJsWhitespace).reverse.dropWhile isJsWhitespace).reverse)

/-- Lower-casing of one character (ASCII letters). -/
def lowerChar (c : Char) : Char :=
  if 65 ≤ c.toNat ∧ c.toNat ≤ 90 then Char.ofNat (c.toNat + 32) else c

/-- JavaScript `s.toLowerCase()`. -/
def toLowerCase (s : String) : String :=
  String.mk (s.data.map lowerChar)

/-- Character-list worker of `includes`. -/
def includesAux (t : List Char) : List Char → Bool
  | [] => t.isEmpty
  | c :: cs => t.isPrefixOf (c :: cs) || includesAux t cs

/-- JavaScript `s.includes(t)`: `t` occurs in `s` as a contiguous substring. -/
def includes (s t : String) : Bool :=
  includesAux t.data s.data

/-- Lexicographic `<` on code sequences. -/
def ltCodes : List Nat → List Nat → Bool
  | _, [] => false
  | [], _ :: _ => true
  | a :: as, b :: bs => a < b || (a == b && ltCodes as bs)

/-- The relational `<` of JavaScript on two strings. -/
def jsLt (s t : String) : Bool :=
  ltCodes (s.data.map Char.toNat) (t.data.map Char.toNat)

/-- JavaScript `arr.findIndex(p)`, `-1` when no element satisfies `p`. -/
def findIndex {α : Type} (p : α → Bool) (l : List α) : Int :=
  match l.findIdx? p with
  | some i => (i : Int)
  | none => -1

/-- Modelled from the spec: `arrayMove` of the drag-and-drop library is not
under `src/`. It is the single-element reposition of §4.6 step 1: the element at
index `src` is removed and inserted at index `dst` of the list after removal
(an insertion index past the end appends, as `splice` does; the library
writes it `copy.splice(to, 0, copy.splice(from, 1)[0])`). Both call sites pass
indices that `findIndex` or `length` produced, so `src` is in range; out of
range the list is returned as it is. -/
def arrayMove {α : Type} (l : List α) (src dst : Nat) : List α :=
  match l.get? src with
  | none => l
  | some x => (l.eraseIdx src).take dst ++ x :: (l.eraseIdx src).drop dst

/-! ## Data model -/

/-- A module of the course (`{ id, name, createdAt }`). -/
structure Module where
  id : String
  name : String
  createdAt : Nat
  deriving DecidableEq, Repr

/-- An item: a link or an uploaded file, inside a module or at root level
(`moduleId = none`). -/
structure Item where
  id : String
  moduleId : Option String
  type : String
  name : String
  url : Option String
  fileName : Option String
  fileSize : Option Nat
  fileType : Option String
  fileUrl : Option String
  createdAt : Nat
  deriving DecidableEq, Repr

/-- Truthiness of a value that is `null` or a string. -/
def truthy : Option String → Bool
  | none => false
  | some s => s != ""

/-! ## `dataUtils` -/

/-- Source function `dataUtils.checkDuplicateItemInModule(items, moduleId, itemName,
excludeItemId)`; an omitted `excludeItemId` is `none`. -/
def checkDuplicateItemInModule (items : List Item) (moduleId : Option String)
    (itemName : String) (excludeItemId : Option String) : Bool :=
  let moduleItems := items.filter (fun item => item.moduleId == moduleId)
  let normalizedName := toLowerCase (trim itemName)
  moduleItems.any (fun item =>
    if truthy excludeItemId && (some item.id == excludeItemId) then false
    else toLowerCase (trim item.name) == normalizedName)

/-- Source function `dataUtils.canMoveItemToModule(items, itemId, targetModuleId)`. -/
def canMoveItemToModule (items : List Item) (itemId : String)
    (targetModuleId : Option String) : Bool :=
  match items.find? (fun i => i.id == itemId) with
  | none => false
  | some item =>
    if item.moduleId = targetModuleId then true
    else !checkDuplicateItemInModule items targetModuleId item.name (some itemId)

/-! ## `handleDragEnd` -/

/-- The drag event: `active.id` and, when the pointer is over a droppable,
`over.id`. -/
structure DragEvent where
  active : String
  over : Option String
  deriving DecidableEq, Repr

/-- Lines 98-115 of `useDragAndDrop.js`: the target container and target index
an item drag resolves to, `none` where the source returns early. -/
def resolveTarget (items : List Item) (overId : String) : Option (Option String × Int) :=
  if startsWith overId "item-" then
    match items.find? (fun item => "item-" ++ item.id == overId) with
    | none => none
    | some overItem =>
      let targetModuleId := overItem.moduleId
      let moduleItems := items.filter (fun item => item.moduleId == targetModuleId)
      some (targetModuleId, findIndex (fun item => "item-" ++ item.id == overId) moduleItems)
  else if startsWith overId "module-" then
    let targetModuleId := some (removeFirst overId "module-")
    some (targetModuleId,
      ((items.filter (fun item => item.moduleId == targetModuleId)).length : Int))
  else if overId = "root-drop-zone" then
    some (none, ((items.filter (fun item => !truthy item.moduleId)).length : Int))
  else none

/-- Lines 122-137: the updater passed to `setItems`. -/
def moveItem (prevItems : List Item) (activeItemId : String)
    (targetModuleId : Option String) (targetIndex : Int) : List Item :=
  let updatedItems := prevItems.map (fun item =>
    if item.id = activeItemId then { item with moduleId := targetModuleId } else item)
  let moduleItems := updatedItems.filter (fun item => item.moduleId == targetModuleId)
  let otherItems := updatedItems.filter (fun item => item.moduleId != targetModuleId)
  let currentIndex := findIndex (fun item => item.id == activeItemId) moduleItems
  if currentIndex ≠ -1 ∧ targetIndex ≠ -1 ∧ currentIndex ≠ targetIndex then
    otherItems ++ arrayMove moduleItems currentIndex.toNat targetIndex.toNat
  else updatedItems

/-- Source function `handleDragEnd(event, modules, items, setModules, setItems)`: the module
sequence and item collection after the gesture. -/
def handleDragEnd (event : DragEvent) (modules : List Module) (items : List Item) :
    List Module × List Item :=
  match event.over with
  | none => (modules, items)
  | some overId =>
    let activeId := event.active
    if activeId = overId then (modules, items)
    else if startsWith activeId "module-" && startsWith overId "module-" then
      let activeIndex := findIndex (fun m => "module-" ++ m.id == activeId) modules
      let overIndex := findIndex (fun m => "module-" ++ m.id == overId) modules
      if activeIndex ≠ -1 ∧ overIndex ≠ -1 ∧ activeIndex ≠ overIndex then
        (arrayMove modules activeIndex.toNat overIndex.toNat, items)
      else (modules, items)
    else if startsWith activeId "item-" then
      match items.find? (fun item => "item-" ++ item.id == activeId) with
      | none => (modules, items)
      | some activeItem =>
        match resolveTarget items overId with
        | none => (modules, items)
        | some (targetModuleId, targetIndex) =>
          if canMoveItemToModule items activeItem.id targetModuleId then
            (modules, moveItem items activeItem.id targetModuleId targetIndex)
          else (modules, items)
    else (modules, items)

/-! ## Derived notions used in the statements -/

/-- The item list of container `c`: the items whose `moduleId` is `c`, in
collection order. -/
def containerItems (items : List Item) (c : Option String) : List Item :=
  items.filter (fun item => item.moduleId == c)

/-- The normalised form under which names are compared (`name.trim().toLowerCase()`). -/
def normalizedName (name : String) : String :=
  toLowerCase (trim name)

/-- The item after the move: the same record with `moduleId` replaced. -/
def reassign (item : Item) (c : Option String) : Item :=
  { item with moduleId := c }

/-- Sample item used in the worked scenarios. -/
def mkItem (id : String) (m : Option String) (name : String) : Item :=
  { id := id, moduleId := m, type := "link", name := name, url := some "https://x",
    fileName := none, fileSize := none, fileType := none, fileUrl := none, createdAt := 0 }

/-- Sample module used in the worked scenarios. -/
def mkModule (id name : String) : Module :=
  { id := id, name := name, createdAt := 0 }

/-- Invariant I1: no two items of one container have equal normalised names. -/
def nameUnique (items : List Item) : Prop :=
  items.Pairwise (fun x y =>
    x.moduleId = y.moduleId → normalizedName x.name ≠ normalizedName y.name)

instance (items : List Item) : Decidable (nameUnique items) := by
  unfold nameUnique; infer_instance

/-! ## `ModuleSearchTree` -/

/-- A tree node `{ module, left, right }`; `null` is the absent child. -/
inductive TreeNode where
  | null : TreeNode
  | node (module : Module) (left right : TreeNode) : TreeNode
  deriving DecidableEq, Repr

/-- The tree object: its `root` field. -/
structure ModuleSearchTree where
  root : TreeNode
  deriving DecidableEq, Repr

/-- Constructor `new ModuleSearchTree()`. -/
def ModuleSearchTree.empty : ModuleSearchTree :=
  { root := TreeNode.null }

/-- Source method `_insertNode(node, newNode)`: the subtree at `node` after the in-place
insertion; a `null` child is replaced by the new leaf. -/
def _insertNode : TreeNode → Module → TreeNode
  | TreeNode.null, m => TreeNode.node m TreeNode.null TreeNode.null
  | TreeNode.node nm l r, m =>
    if jsLt (toLowerCase m.name) (toLowerCase nm.name) then
      TreeNode.node nm (_insertNode l m) r
    else
      TreeNode.node nm l (_insertNode r m)

/-- Source method `tree.insert(module)`. -/
def ModuleSearchTree.insert (tree : ModuleSearchTree) (m : Module) : ModuleSearchTree :=
  match tree.root with
  | TreeNode.null => { root := TreeNode.node m TreeNode.null TreeNode.null }
  | TreeNode.node nm l r => { root := _insertNode (TreeNode.node nm l r) m }

/-- Source method `_searchNode(node, searchTerm, results)`: the `results` array after the call. -/
def _searchNode : TreeNode → String → List Module → List Module
  | TreeNode.null, _, results => results
  | TreeNode.node nm l r, searchTerm, results =>
    let results₁ :=
      if includes (toLowerCase nm.name) searchTerm then results ++ [nm] else results
    let results₂ :=
      if jsLt searchTerm (toLowerCase nm.name) then _searchNode l searchTerm results₁
      else results₁
    _searchNode r searchTerm results₂

/-- Source method `tree.search(searchTerm)`. -/
def ModuleSearchTree.search (tree : ModuleSearchTree) (searchTerm : String) : List Module :=
  _searchNode tree.root (toLowerCase searchTerm) []

/-- Result of `modules.forEach(module => tree.insert(module))` on a new tree. -/
def buildTree (modules : List Module) : ModuleSearchTree :=
  modules.foldl ModuleSearchTree.insert ModuleSearchTree.empty

/-- The modules of a subtree in pre-order: node, left subtree, right subtree. -/
def preorder : TreeNode → List Module
  | TreeNode.null => []
  | TreeNode.node nm l r => nm :: (preorder l ++ preorder r)

/-- The key a node is ordered by: `module.name.toLowerCase()`. -/
def nodeKey (m : Module) : String :=
  toLowerCase m.name

/-- The search-tree ordering: at every node the keys of the left subtree are
strictly less than the node's key and the keys of the right subtree are equal
to it or greater. -/
def ordered : TreeNode → Prop
  | TreeNode.null => True
  | TreeNode.node nm l r =>
    (∀ x ∈ preorder l, jsLt (nodeKey x) (nodeKey nm) = true) ∧
    (∀ x ∈ preorder r, nodeKey x = nodeKey nm ∨ jsLt (nodeKey nm) (nodeKey x) = true) ∧
    ordered l ∧ ordered r

/-- The module stored at a position of the tree; a position is the path from
the root, `false` for `left` and `true` for `right`. -/
def moduleAt : TreeNode → List Bool → Option Module
  | TreeNode.null, _ => none
  | TreeNode.node nm _ _, [] => some nm
  | TreeNode.node _ l _, false :: path => moduleAt l path
  | TreeNode.node _ _ r, true :: path => moduleAt r path

/-! ## Values returned by the queues -/

/-- What a queue method returns: `null`, `undefined` (an array read outside
the array) or a stored value. -/
inductive JsValue (α : Type) where
  | null : JsValue α
  | undefined : JsValue α
  | value (a : α) : JsValue α
  deriving DecidableEq, Repr

/-- The array read `arr[i]`. -/
def arrayAt {α : Type} (arr : List α) (i : Int) : JsValue α :=
  if i < 0 then JsValue.undefined
  else
    match arr.get? i.toNat with
    | some a => JsValue.value a
    | none => JsValue.undefined

/-- The call `arr.slice(0, e)`; a negative `e` counts from the end. -/
def sliceTo {α : Type} (arr : List α) (e : Int) : List α :=
  if e < 0 then arr.take ((arr.length : Int) + e).toNat else arr.take e.toNat

/-! ## `OperationQueue` -/

/-- The fields of an `OperationQueue`. -/
structure OperationQueue (α : Type) where
  operations : List α
  maxSize : Int
  currentIndex : Int
  deriving DecidableEq, Repr

/-- The constructor `new OperationQueue(maxSize)`. -/
def OperationQueue.new {α : Type} (maxSize : Int) : OperationQueue α :=
  { operations := [], maxSize := maxSize, currentIndex := -1 }

/-- Method `push(operation)`. -/
def OperationQueue.push {α : Type} (q : OperationQueue α) (operation : α) :
    OperationQueue α :=
  let operations := sliceTo q.operations (q.currentIndex + 1) ++ [operation]
  let currentIndex := q.currentIndex + 1
  if (operations.length : Int) > q.maxSize then
    { q with operations := operations.tail, currentIndex := currentIndex - 1 }
  else
    { q with operations := operations, currentIndex := currentIndex }

/-- Method `undo()`: the returned value and the queue afterwards. -/
def OperationQueue.undo {α : Type} (q : OperationQueue α) : JsValue α × OperationQueue α :=
  if q.currentIndex ≥ 0 then
    let currentIndex := q.currentIndex - 1
    (arrayAt q.operations (currentIndex + 1), { q with currentIndex := currentIndex })
  else (JsValue.null, q)

/-- Method `redo()`: the returned value and the queue afterwards. -/
def OperationQueue.redo {α : Type} (q : OperationQueue α) : JsValue α × OperationQueue α :=
  if q.currentIndex < (q.operations.length : Int) - 1 then
    let currentIndex := q.currentIndex + 1
    (arrayAt q.operations currentIndex, { q with currentIndex := currentIndex })
  else (JsValue.null, q)

/-- Method `canUndo()`. -/
def OperationQueue.canUndo {α : Type} (q : OperationQueue α) : Bool :=
  decide (q.currentIndex ≥ 0)

/-- Method `canRedo()`. -/
def OperationQueue.canRedo {α : Type} (q : OperationQueue α) : Bool :=
  decide (q.currentIndex < (q.operations.length : Int) - 1)

/-- The queue after `records.forEach(r => queue.push(r))`. -/
def OperationQueue.pushAll {α : Type} (q : OperationQueue α) (records : List α) :
    OperationQueue α :=
  records.foldl OperationQueue.push q

/-- The values returned by `n` successive `undo()` calls, and the queue
afterwards. -/
def OperationQueue.undoTimes {α : Type} :
    Nat → OperationQueue α → List (JsValue α) × OperationQueue α
  | 0, q => ([], q)
  | n + 1, q =>
    let r := q.undo
    let rest := OperationQueue.undoTimes n r.2
    (r.1 :: rest.1, rest.2)

/-- The values returned by `n` successive `redo()` calls, and the queue
afterwards. -/
def OperationQueue.redoTimes {α : Type} :
    Nat → OperationQueue α → List (JsValue α) × OperationQueue α
  | 0, q => ([], q)
  | n + 1, q =>
    let r := q.redo
    let rest := OperationQueue.redoTimes n r.2
    (r.1 :: rest.1, rest.2)

/-! ## `PriorityQueue` -/

/-- A queue element `{ module, priority }`; priorities are integers. -/
structure QueueElement (α : Type) where
  module : α
  priority : Int
  deriving DecidableEq, Repr

/-- The field of a `PriorityQueue`. -/
structure PriorityQueue (α : Type) where
  queue : List (QueueElement α)
  deriving DecidableEq, Repr

/-- The constructor `new PriorityQueue()`. -/
def PriorityQueue.new {α : Type} : PriorityQueue α :=
  { queue := [] }

/-- Method `isEmpty()`. -/
def PriorityQueue.isEmpty {α : Type} (q : PriorityQueue α) : Bool :=
  q.queue.length == 0

/-- Method `size()`. -/
def PriorityQueue.size {α : Type} (q : PriorityQueue α) : Nat :=
  q.queue.length

/-- The `for` loop of `enqueue` on the part of the array from index `i` on:
the array after the loop and the flag `added`. -/
def enqueueLoop {α : Type} (element : QueueElement α) :
    List (QueueElement α) → List (QueueElement α) × Bool
  | [] => ([], false)
  | e :: rest =>
    if element.priority < e.priority then (element :: e :: rest, true)
    else ((e :: (enqueueLoop element rest).1), (enqueueLoop element rest).2)

/-- Method `enqueue(module, priority)`. -/
def PriorityQueue.enqueue {α : Type} (q : PriorityQueue α) (module : α) (priority : Int) :
    PriorityQueue α :=
  let element : QueueElement α := { module := module, priority := priority }
  if q.isEmpty then { queue := q.queue ++ [element] }
  else
    let looped := enqueueLoop element q.queue
    if !looped.2 then { queue := looped.1 ++ [element] }
    else { queue := looped.1 }

/-- Method `dequeue()`: the returned value and the queue afterwards; the empty
array is the case `isEmpty()`, otherwise `shift()` takes the front element. -/
def PriorityQueue.dequeue {α : Type} (q : PriorityQueue α) : JsValue α × PriorityQueue α :=
  match q.queue with
  | [] => (JsValue.null, q)
  | e :: rest => (JsValue.value e.module, { queue := rest })

/-- Method `peek()`; the empty array is the case `isEmpty()`. -/
def PriorityQueue.peek {α : Type} (q : PriorityQueue α) : JsValue α :=
  match q.queue with
  | [] => JsValue.null
  | e :: _ => JsValue.value e.module

/-- The queue after enqueuing the `(payload, priority)` pairs in order. -/
def PriorityQueue.enqueueAll {α : Type} (q : PriorityQueue α) (pairs : List (α × Int)) :
    PriorityQueue α :=
  pairs.foldl (fun acc pr => acc.enqueue pr.1 pr.2) q

/-- The values returned by `n` successive `dequeue()` calls, and the queue
afterwards. -/
def PriorityQueue.dequeueTimes {α : Type} :
    Nat → PriorityQueue α → List (JsValue α) × PriorityQueue α
  | 0, q => ([], q)
  | n + 1, q =>
    let r := q.dequeue
    let rest := PriorityQueue.dequeueTimes n r.2
    (r.1 :: rest.1, rest.2)

/-! ## Validation -/

/-- A property value as the validators see it: absent (`undefined`), `null`,
a string, or any other value, of which only the truthiness is kept. -/
inductive JsField where
  | undefined : JsField
  | null : JsField
  | string (s : String) : JsField
  | other (truthy : Bool) : JsField
  deriving DecidableEq, Repr

/-- Truthiness of a property value. -/
def JsField.truthy : JsField → Bool
  | JsField.undefined => false
  | JsField.null => false
  | JsField.string s => s != ""
  | JsField.other t => t

/-- The test `typeof v === 'string'`. -/
def JsField.isString : JsField → Bool
  | JsField.string _ => true
  | _ => false

/-- The test `v.trim().length === 0`, evaluated only where the source has
already found `v` to be a string. -/
def JsField.trimmedEmpty : JsField → Bool
  | JsField.string s => (trim s).length == 0
  | _ => false

/-- The object handed to `validateModule`: its `id` and `name` properties. -/
structure RawModule where
  id : JsField
  name : JsField
  deriving DecidableEq, Repr

/-- The object `{ isValid, errors }` returned by the validators. -/
structure ValidationResult where
  isValid : Bool
  errors : List String
  deriving DecidableEq, Repr

/-- Source function `dataUtils.validateModule(module)`. -/
def validateModule (module : RawModule) : ValidationResult :=
  let errors₀ : List String := []
  let errors₁ :=
    if !module.id.truthy || !module.id.isString then
      errors₀ ++ ["Module must have a valid string ID"]
    else errors₀
  let errors₂ :=
    if !module.name.truthy || !module.name.isString || module.name.trimmedEmpty then
      errors₁ ++ ["Module must have a non-empty name"]
    else errors₁
  { isValid := errors₂.length == 0, errors := errors₂ }

/-- A queue ordered by non-decreasing priority. -/
def sortedByPriority {α : Type} (l : List (QueueElement α)) : Prop :=
  l.Pairwise (fun a b => a.priority ≤ b.priority)

/-- The element `enqueue` builds from a `(payload, priority)` pair. -/
def toElement {α : Type} (pr : α × Int) : QueueElement α :=
  { module := pr.1, priority := pr.2 }

/-- The comparison "priority at most" as a boolean relation on queue elements. -/
def priorityLe {α : Type} (a b : QueueElement α) : Bool :=
  decide (a.priority ≤ b.priority)

/-- Whether a property value is a non-empty string. -/
def nonEmptyString : JsField → Bool
  | JsField.string s => s != ""
  | _ => false

/-- Whether a property value is a string that is not empty after trimming. -/
def nonBlankString : JsField → Bool
  | JsField.string s => trim s != ""
  | _ => false

/-- The object handed to `validateItem`: the properties the function reads. -/
structure RawItem where
  id : JsField
  moduleId : JsField
  name : JsField
  type : JsField
  url : JsField
  deriving DecidableEq, Repr

/-- Source function `dataUtils.validateItem(item)`. -/
def validateItem (item : RawItem) : ValidationResult :=
  let errors₀ : List String := []
  let errors₁ :=
    if !item.id.truthy || !item.id.isString then
      errors₀ ++ ["Item must have a valid string ID"]
    else errors₀
  let errors₂ :=
    if item.moduleId != JsField.null &&
        (!item.moduleId.isString || item.moduleId.trimmedEmpty) then
      errors₁ ++ ["Item must have a valid module ID or null for root-level items"]
    else errors₁
  let errors₃ :=
    if !item.name.truthy || !item.name.isString || item.name.trimmedEmpty then
      errors₂ ++ ["Item must have a non-empty name"]
    else errors₂
  let errors₄ :=
    if item.type == JsField.string "link" && (!item.url.truthy || !item.url.isString) then
      errors₃ ++ ["Link items must have a valid URL"]
    else errors₃
  { isValid := errors₄.length == 0, errors := errors₄ }

/-! ## `ItemHashMap` -/

/-- The JavaScript `Map` behind an `ItemHashMap`: its entries in insertion
order, keyed by a module id or `null`. Arrays are values: the array stored
under a key is the list of its elements. -/
structure ItemHashMap where
  map : List (Option String × List Item)
  deriving DecidableEq, Repr

/-- The constructor `new ItemHashMap()`. -/
def ItemHashMap.new : ItemHashMap :=
  { map := [] }

/-- JavaScript `map.set(k, v)`: the value of an existing key is replaced in
place, a new key is added at the end. -/
def mapSet (m : List (Option String × List Item)) (k : Option String) (v : List Item) :
    List (Option String × List Item) :=
  if m.any (fun p => p.1 == k) then m.map (fun p => if p.1 == k then (k, v) else p)
  else m ++ [(k, v)]

/-- Method `set(moduleId, items)`. -/
def ItemHashMap.set (h : ItemHashMap) (moduleId : Option String) (items : List Item) :
    ItemHashMap :=
  { map := mapSet h.map moduleId items }

/-- Method `get(moduleId)`: `this.map.get(moduleId) || []`. -/
def ItemHashMap.get (h : ItemHashMap) (moduleId : Option String) : List Item :=
  match h.map.lookup moduleId with
  | some items => items
  | none => []

/-- Method `addItem(moduleId, item)`. -/
def ItemHashMap.addItem (h : ItemHashMap) (moduleId : Option String) (item : Item) :
    ItemHashMap :=
  let items := h.get moduleId
  h.set moduleId (items ++ [item])

/-- Method `removeItem(moduleId, itemId)`. -/
def ItemHashMap.removeItem (h : ItemHashMap) (moduleId : Option String) (itemId : String) :
    ItemHashMap :=
  let items := h.get moduleId
  let filteredItems := items.filter (fun item => item.id != itemId)
  h.set moduleId filteredItems

/-- Method `getAllItems()`. -/
def ItemHashMap.getAllItems (h : ItemHashMap) : List Item :=
  (h.map.map (fun p => p.2)).flatten

/-- Method `getItemCount(moduleId)`. -/
def ItemHashMap.getItemCount (h : ItemHashMap) (moduleId : Option String) : Nat :=
  (h.get moduleId).length

/-- The map after the calls `addItem(c, x)` for the pairs `(c, x)` in order. -/
def ItemHashMap.addAll (h : ItemHashMap) (adds : List (Option String × Item)) : ItemHashMap :=
  adds.foldl (fun acc p => acc.addItem p.1 p.2) h

/-- A call on an `OperationQueue`. -/
inductive QueueCall (α : Type) where
  | push (record : α) : QueueCall α
  | undo : QueueCall α
  | redo : QueueCall α
  deriving DecidableEq, Repr

/-- The values returned by the `undo()` and `redo()` calls of a sequence of
calls, in order, and the queue afterwards. -/
def OperationQueue.run {α : Type} :
    List (QueueCall α) → OperationQueue α → List (JsValue α) × OperationQueue α
  | [], q => ([], q)
  | QueueCall.push r :: calls, q => OperationQueue.run calls (q.push r)
  | QueueCall.undo :: calls, q =>
    (q.undo.1 :: (OperationQueue.run calls q.undo.2).1, (OperationQueue.run calls q.undo.2).2)
  | QueueCall.redo :: calls, q =>
    (q.redo.1 :: (OperationQueue.run calls q.redo.2).1, (OperationQueue.run calls q.redo.2).2)

/-- The bounds on the cursor and the length of an `OperationQueue`. -/
def OperationQueue.inBounds {α : Type} (q : OperationQueue α) : Prop :=
  -1 ≤ q.currentIndex ∧ q.currentIndex ≤ (q.operations.length : Int) - 1 ∧
  (q.operations.length : Int) ≤ q.maxSize

/-! ## `useCourseBuilder` -/

/-- A record of the history log, `{ type, data, timestamp }`: one constructor
for each `type`, its arguments the properties of `data` and the timestamp. -/
inductive Operation where
  | saveModule (module : Module) (isEdit : Bool) (timestamp : Nat) : Operation
  | deleteModule (moduleId : String) (module : Option Module) (items : List Item)
      (timestamp : Nat) : Operation
  | editItem (itemId : String) (updatedItem : Item) (timestamp : Nat) : Operation
  | addLink (linkItem : Item) (timestamp : Nat) : Operation
  | addFile (fileItem : Item) (timestamp : Nat) : Operation
  | deleteItem (itemId : String) (item : Item) (timestamp : Nat) : Operation
  deriving DecidableEq, Repr

/-- The state of `useCourseBuilder` that its save, edit and delete handlers
read or write: the React state variables and the three `useRef` objects. -/
structure BuilderState where
  modules : List Module
  items : List Item
  isModuleModalOpen : Bool
  isLinkModalOpen : Bool
  isUploadModalOpen : Bool
  currentModule : Option Module
  currentModuleId : Option String
  currentItem : Option Item
  searchTree : ModuleSearchTree
  itemHashMap : ItemHashMap
  operationQueue : OperationQueue Operation
  deriving DecidableEq, Repr

/-- The state after the first render and the mount effect (lines 20-42): the
search tree and the hash map are filled from the initial modules and items. -/
def BuilderState.init (modules : List Module) (items : List Item) : BuilderState :=
  { modules := modules
    items := items
    isModuleModalOpen := false
    isLinkModalOpen := false
    isUploadModalOpen := false
    currentModule := none
    currentModuleId := none
    currentItem := none
    searchTree := buildTree modules
    itemHashMap := ItemHashMap.new.addAll (items.map (fun item => (item.moduleId, item)))
    operationQueue := OperationQueue.new 50 }

/-- The properties of a module record as `validateModule` sees them. -/
def rawOfModule (module : Module) : RawModule :=
  { id := JsField.string module.id, name := JsField.string module.name }

/-- The properties of an item record as `validateItem` sees them; a record
without a `url` has none. -/
def rawOfItem (item : Item) : RawItem :=
  { id := JsField.string item.id
    moduleId :=
      match item.moduleId with
      | none => JsField.null
      | some c => JsField.string c
    name := JsField.string item.name
    type := JsField.string item.type
    url :=
      match item.url with
      | none => JsField.undefined
      | some u => JsField.string u }

/-- The object returned by `handleSaveModule`: `{ error }` or `{ success: true }`. -/
inductive SaveResult where
  | error (message : String) : SaveResult
  | success : SaveResult
  deriving DecidableEq, Repr

/-- Source function `handleSaveModule(module)` (lines 141-191): the returned object and the
state afterwards. The two reads of the clock are `timestamp` and `createdAt`. -/
def handleSaveModule (s : BuilderState) (module : Module) (timestamp createdAt : Nat) :
    SaveResult × BuilderState :=
  let isDuplicate := s.modules.any (fun existingModule =>
    existingModule.id != module.id &&
      toLowerCase (trim existingModule.name) == toLowerCase (trim module.name))
  if isDuplicate then
    (SaveResult.error
      "A module with this name already exists. Please choose a different name.", s)
  else
    let validation := validateModule (rawOfModule module)
    if !validation.isValid then
      (SaveResult.error (", ".intercalate validation.errors), s)
    else
      let operation := Operation.saveModule module s.currentModule.isSome timestamp
      let s₁ : BuilderState :=
        match s.currentModule with
        | some _ =>
          let updated := s.modules.map (fun m => if m.id == module.id then module else m)
          { s with modules := updated, searchTree := buildTree updated }
        | none =>
          let moduleWithTimestamp : Module := { module with createdAt := createdAt }
          { s with modules := s.modules ++ [moduleWithTimestamp],
                   searchTree := s.searchTree.insert moduleWithTimestamp }
      (SaveResult.success,
        { s₁ with operationQueue := s₁.operationQueue.push operation,
                  isModuleModalOpen := false,
                  currentModule := none })

/-- Source function `handleDeleteModule(moduleId)` (lines 198-225). -/
def handleDeleteModule (s : BuilderState) (moduleId : String) (timestamp : Nat) :
    BuilderState :=
  let operation := Operation.deleteModule moduleId
    (s.modules.find? (fun m => m.id == moduleId))
    (s.items.filter (fun item => item.moduleId == some moduleId)) timestamp
  let updated := s.modules.filter (fun module => module.id != moduleId)
  { s with modules := updated,
           searchTree := buildTree updated,
           items := s.items.filter (fun item => item.moduleId != some moduleId),
           itemHashMap := s.itemHashMap.set (some moduleId) [],
           operationQueue := s.operationQueue.push operation }

/-- Source function `handleEditItem(itemId, updatedItem)` (lines 227-270); an omitted
`updatedItem` is `none`. -/
def handleEditItem (s : BuilderState) (itemId : String) (updatedItem : Option Item)
    (timestamp : Nat) : BuilderState :=
  match updatedItem with
  | some updatedItem =>
    let validation := validateItem (rawOfItem updatedItem)
    if !validation.isValid then s
    else
      let operation := Operation.editItem itemId updatedItem timestamp
      let items := s.items.map (fun item => if item.id == itemId then updatedItem else item)
      let oldItem := s.items.find? (fun i => i.id == itemId)
      let itemHashMap₁ :=
        match oldItem with
        | some oldItem => s.itemHashMap.removeItem oldItem.moduleId itemId
        | none => s.itemHashMap
      let itemHashMap₂ := itemHashMap₁.addItem updatedItem.moduleId updatedItem
      { s with items := items,
               itemHashMap := itemHashMap₂,
               operationQueue := s.operationQueue.push operation }
  | none =>
    match s.items.find? (fun i => i.id == itemId) with
    | none => s
    | some item =>
      let s₁ : BuilderState :=
        { s with currentItem := some item, currentModuleId := item.moduleId }
      if item.type == "link" then { s₁ with isLinkModalOpen := true }
      else if item.type == "file" then { s₁ with isUploadModalOpen := true }
      else s₁

/-- Source function `handleSaveLink(itemIdOrData, updatedData)` (lines 272-309): the first
argument is an item id (edit) or the data of a new link (create). -/
def handleSaveLink (s : BuilderState) (itemIdOrData : Sum String Item)
    (updatedData : Option Item) (timestamp createdAt : Nat) : BuilderState :=
  match itemIdOrData with
  | Sum.inl itemId =>
    let s₁ := handleEditItem s itemId updatedData timestamp
    { s₁ with isLinkModalOpen := false, currentModuleId := none, currentItem := none }
  | Sum.inr linkItem =>
    let validation := validateItem (rawOfItem linkItem)
    if !validation.isValid then s
    else
      let operation := Operation.addLink linkItem timestamp
      let itemWithTimestamp : Item :=
        { linkItem with moduleId := s.currentModuleId, createdAt := createdAt }
      { s with items := s.items ++ [itemWithTimestamp],
               itemHashMap := s.itemHashMap.addItem s.currentModuleId itemWithTimestamp,
               operationQueue := s.operationQueue.push operation,
               isLinkModalOpen := false,
               currentModuleId := none,
               currentItem := none }

/-- Source function `handleSaveUpload(itemIdOrData, updatedData)` (lines 311-348). -/
def handleSaveUpload (s : BuilderState) (itemIdOrData : Sum String Item)
    (updatedData : Option Item) (timestamp createdAt : Nat) : BuilderState :=
  match itemIdOrData with
  | Sum.inl itemId =>
    let s₁ := handleEditItem s itemId updatedData timestamp
    { s₁ with isUploadModalOpen := false, currentModuleId := none, currentItem := none }
  | Sum.inr fileItem =>
    let validation := validateItem (rawOfItem fileItem)
    if !validation.isValid then s
    else
      let operation := Operation.addFile fileItem timestamp
      let itemWithTimestamp : Item :=
        { fileItem with moduleId := s.currentModuleId, createdAt := createdAt }
      { s with items := s.items ++ [itemWithTimestamp],
               itemHashMap := s.itemHashMap.addItem s.currentModuleId itemWithTimestamp,
               operationQueue := s.operationQueue.push operation,
               isUploadModalOpen := false,
               currentModuleId := none,
               currentItem := none }

/-- Source function `handleDeleteItem(itemId)` (lines 350-367). -/
def handleDeleteItem (s : BuilderState) (itemId : String) (timestamp : Nat) : BuilderState :=
  match s.items.find? (fun i => i.id == itemId) with
  | none => s
  | some item =>
    let operation := Operation.deleteItem itemId item timestamp
    { s with items := s.items.filter (fun item => item.id != itemId),
             itemHashMap := s.itemHashMap.removeItem item.moduleId itemId,
             operationQueue := s.operationQueue.push operation }

/-- The `onDragEnd` property of `getDndContextProps(modules, items, setModules,
setItems)` (`useDragAndDrop.js` line 150, called in `CourseBuilder.jsx` with the
state and the setters of `useCourseBuilder`): `handleDragEnd` on the current
modules and items; only these two state variables are written. -/
def onDragEnd (s : BuilderState) (event : DragEvent) : BuilderState :=
  let r := handleDragEnd event s.modules s.items
  { s with modules := r.1, items := r.2 }

/-- Source function `handleSaveEdit()` of `useModuleItem.js` (lines 94-99), with `onEdit`
bound to `handleEditItem`: the inline rename of `item` to the text `editValue`. -/
def handleSaveEdit (s : BuilderState) (item : Item) (editValue : String) (timestamp : Nat) :
    BuilderState :=
  if trim editValue != "" then
    handleEditItem s item.id (some { item with name := trim editValue }) timestamp
  else s

/-- Invariant I2: no two modules have equal normalised names. -/
def moduleNameUnique (modules : List Module) : Prop :=
  modules.Pairwise (fun x y => normalizedName x.name ≠ normalizedName y.name)

instance (modules : List Module) : Decidable (moduleNameUnique modules) := by
  unfold moduleNameUnique; infer_instance

/-- Invariant I3: every non-null `moduleId` of an item is the id of a module of
the module sequence. -/
def referentialIntegrity (modules : List Module) (items : List Item) : Prop :=
  ∀ item ∈ items, item.moduleId = none ∨ ∃ m ∈ modules, item.moduleId = some m.id

instance (modules : List Module) (items : List Item) :
    Decidable (referentialIntegrity modules items) := by
  unfold referentialIntegrity; infer_instance

/-- The hash map agrees with the item collection: for every container, `get`
returns the items of the collection in that container, in collection order. -/
def indexConsistent (s : BuilderState) : Prop :=
  ∀ c : Option String, s.itemHashMap.get c = containerItems s.items c

/-! ## Basic lemmas on the primitives -/

theorem data_append (s t : String) : (s ++ t).data = s.data ++ t.data := by
  cases s; cases t; rfl

theorem startsWith_append (p s : String) : startsWith (p ++ s) p = true := by
  unfold startsWith
  rw [data_append]
  exact List.isPrefixOf_iff_prefix.mpr (List.prefix_append _ _)

theorem append_left_cancel {p s t : String} (h : p ++ s = p ++ t) : s = t := by
  have h1 : (p ++ s).data = (p ++ t).data := by rw [h]
  rw [data_append, data_append] at h1
  have h2 := List.append_cancel_left h1
  cases s; cases t; simp_all

theorem prefixed_beq (p s t : String) : (p ++ s == p ++ t) = (s == t) := by
  by_cases h : s = t
  · subst h; simp
  · have : p ++ s ≠ p ++ t := fun e => h (append_left_cancel e)
    simp [h, this]

theorem removeFirst_append (p s : String) (hp : p.data ≠ []) :
    removeFirst (p ++ s) p = s := by
  unfold removeFirst
  rw [data_append]
  cases hpd : p.data with
  | nil => exact absurd hpd hp
  | cons c cs =>
    have hpre : (c :: cs).isPrefixOf (c :: cs ++ s.data) = true :=
      List.isPrefixOf_iff_prefix.mpr (List.prefix_append _ _)
    show String.mk (removeFirstAux (c :: cs) (c :: (cs ++ s.data))) = s
    unfold removeFirstAux
    rw [show c :: (cs ++ s.data) = c :: cs ++ s.data from rfl, if_pos hpre]
    simp

theorem not_module_of_item {s : String} (h : startsWith s "item-" = true) :
    startsWith s "module-" = false := by
  unfold startsWith at h ⊢
  cases hd : s.data with
  | nil => rw [hd] at h; simp [List.isPrefixOf] at h
  | cons c cs =>
    rw [hd] at h
    have h1 : ("item-".data).isPrefixOf (c :: cs) = true := h
    have hc : c = 'i' := by
      have : "item-".data = 'i' :: "tem-".data := rfl
      rw [this, List.isPrefixOf] at h1
      simp at h1
      exact h1.1.symm
    subst hc
    have : "module-".data = 'm' :: "odule-".data := rfl
    rw [this, List.isPrefixOf]
    simp

/-! ## List lemmas -/

section ListLemmas
variable {α : Type}

theorem split_at_get {l : List α} {i : Nat} {x : α} (h : l.get? i = some x) :
    ∃ P Q, l = P ++ x :: Q ∧ P.length = i := by
  induction l generalizing i with
  | nil => simp at h
  | cons a t ih =>
    cases i with
    | zero =>
      simp at h
      exact ⟨[], t, by simp [h], rfl⟩
    | succ n =>
      simp at h
      obtain ⟨P, Q, hl, hlen⟩ := ih (i := n) (by simpa using h)
      exact ⟨a :: P, Q, by simp [hl], by simp [hlen]⟩

theorem arrayMove_append_cons (P Q : List α) (x : α) (j : Nat) :
    arrayMove (P ++ x :: Q) P.length j = (P ++ Q).take j ++ x :: (P ++ Q).drop j := by
  unfold arrayMove
  have h1 : (P ++ x :: Q).get? P.length = some x := by
    rw [List.get?_eq_getElem?, List.getElem?_append_right (le_refl _)]
    simp
  have h2 : (P ++ x :: Q).eraseIdx P.length = P ++ Q := by
    rw [List.eraseIdx_append_of_length_le (le_refl _)]
    simp
  rw [h1, h2]

theorem insert_perm (E : List α) (x : α) (j : Nat) :
    (E.take j ++ x :: E.drop j).Perm (x :: E) := by
  have := (@List.perm_middle _ x (E.take j) (E.drop j))
  simpa using this

theorem insert_get (E : List α) (x : α) (j : Nat) (hj : j ≤ E.length) :
    (E.take j ++ x :: E.drop j).get? j = some x := by
  have : (E.take j).length = j := by simp [hj]
  rw [List.get?_eq_getElem?, List.getElem?_append_right (by omega)]
  simp [this]

theorem insert_eraseIdx (E : List α) (x : α) (j : Nat) (hj : j ≤ E.length) :
    (E.take j ++ x :: E.drop j).eraseIdx j = E := by
  have : (E.take j).length = j := by simp [hj]
  rw [List.eraseIdx_append_of_length_le (by omega)]
  simp [this]

theorem insert_past_end (E : List α) (x : α) (j : Nat) (hj : E.length ≤ j) :
    E.take j ++ x :: E.drop j = E ++ [x] := by
  rw [List.take_of_length_le hj, List.drop_of_length_le hj]


theorem findIdx?_append_cons {p : α → Bool} (P Q : List α) (y : α)
    (hP : ∀ x ∈ P, p x = false) (hy : p y = true) :
    (P ++ y :: Q).findIdx? p = some P.length := by
  induction P with
  | nil => simp [List.findIdx?_cons, hy]
  | cons a t ih =>
    have ha : p a = false := hP a (List.mem_cons_self _ _)
    have ht : ∀ x ∈ t, p x = false := fun x hx => hP x (List.mem_cons_of_mem _ hx)
    simp [List.findIdx?_cons, ha, List.findIdx?_succ, ih ht]

theorem findIndex_append_cons {p : α → Bool} (P Q : List α) (y : α)
    (hP : ∀ x ∈ P, p x = false) (hy : p y = true) :
    findIndex p (P ++ y :: Q) = (P.length : Int) := by
  unfold findIndex
  rw [findIdx?_append_cons P Q y hP hy]

theorem findIndex_none {p : α → Bool} (l : List α) (h : ∀ x ∈ l, p x = false) :
    findIndex p l = -1 := by
  unfold findIndex
  have : l.findIdx? p = none := by
    induction l with
    | nil => simp
    | cons a t ih =>
      have ha : p a = false := h a (List.mem_cons_self _ _)
      have ht : ∀ x ∈ t, p x = false := fun x hx => h x (List.mem_cons_of_mem _ hx)
      simp [List.findIdx?_cons, ha, List.findIdx?_succ, ih ht]
  rw [this]

theorem find?_append_cons {p : α → Bool} (P Q : List α) (y : α)
    (hP : ∀ x ∈ P, p x = false) (hy : p y = true) :
    (P ++ y :: Q).find? p = some y := by
  induction P with
  | nil => simp [hy]
  | cons a t ih =>
    have ha : p a = false := hP a (List.mem_cons_self _ _)
    have ht : ∀ x ∈ t, p x = false := fun x hx => hP x (List.mem_cons_of_mem _ hx)
    simp [List.find?_cons, ha, ih ht]

end ListLemmas

/-! ## Lemmas on the reorder resolver -/

theorem split_of_mem_nodup {items : List Item} {A : Item}
    (hids : (items.map Item.id).Nodup) (hA : A ∈ items) :
    ∃ pre post, items = pre ++ A :: post ∧
      (∀ x ∈ pre, x.id ≠ A.id) ∧ (∀ x ∈ post, x.id ≠ A.id) := by
  obtain ⟨pre, post, rfl⟩ := List.append_of_mem hA
  refine ⟨pre, post, rfl, ?_, ?_⟩
  · intro x hx he
    rw [List.map_append, List.map_cons] at hids
    have := (List.nodup_middle.mp hids)
    rw [List.nodup_cons] at this
    exact this.1 (List.mem_append_left _ (by rw [← he]; exact List.mem_map_of_mem _ hx))
  · intro x hx he
    rw [List.map_append, List.map_cons] at hids
    have := (List.nodup_middle.mp hids)
    rw [List.nodup_cons] at this
    exact this.1 (List.mem_append_right _ (by rw [← he]; exact List.mem_map_of_mem _ hx))

theorem map_reassign_split (pre post : List Item) (A : Item) (c : Option String)
    (hpre : ∀ x ∈ pre, x.id ≠ A.id) (hpost : ∀ x ∈ post, x.id ≠ A.id) :
    (pre ++ A :: post).map (fun item =>
        if item.id = A.id then { item with moduleId := c } else item)
      = pre ++ reassign A c :: post := by
  have h1 : ∀ l : List Item, (∀ x ∈ l, x.id ≠ A.id) →
      l.map (fun item => if item.id = A.id then { item with moduleId := c } else item) = l := by
    intro l hl
    induction l with
    | nil => rfl
    | cons a t ih =>
      have ha := hl a (List.mem_cons_self _ _)
      have ht : ∀ x ∈ t, x.id ≠ A.id := fun x hx => hl x (List.mem_cons_of_mem _ hx)
      simp only [List.map_cons, if_neg ha, ih ht]
  rw [List.map_append, List.map_cons, h1 pre hpre, h1 post hpost]
  simp [reassign]

/-- The value of `moveItem` on a collection in which `A` is the only item with
its id, split around `A`. -/
theorem moveItem_split (pre post : List Item) (A : Item) (c : Option String) (t : Nat)
    (hpre : ∀ x ∈ pre, x.id ≠ A.id) (hpost : ∀ x ∈ post, x.id ≠ A.id) :
    moveItem (pre ++ A :: post) A.id c (t : Int) =
      if (containerItems pre c).length = t then pre ++ reassign A c :: post
      else (pre ++ post).filter (fun item => item.moduleId != c) ++
        ((containerItems (pre ++ post) c).take t ++
          reassign A c :: (containerItems (pre ++ post) c).drop t) := by
  unfold moveItem
  simp only [map_reassign_split pre post A c hpre hpost]
  have hM : (pre ++ reassign A c :: post).filter (fun item => item.moduleId == c)
      = containerItems pre c ++ reassign A c :: containerItems post c := by
    simp [containerItems, List.filter_append, List.filter_cons, reassign]
  have hO : (pre ++ reassign A c :: post).filter (fun item => item.moduleId != c)
      = (pre ++ post).filter (fun item => item.moduleId != c) := by
    simp [List.filter_append, List.filter_cons, reassign]
  have hcur : findIndex (fun item => item.id == A.id)
      (containerItems pre c ++ reassign A c :: containerItems post c)
      = ((containerItems pre c).length : Int) := by
    apply findIndex_append_cons
    · intro x hx
      have : x ∈ pre := (List.mem_filter.mp hx).1
      simpa using hpre x this
    · simp [reassign]
  rw [hM, hO, hcur]
  by_cases h : (containerItems pre c).length = t
  · have : ¬ (((containerItems pre c).length : Int) ≠ -1 ∧ (t : Int) ≠ -1 ∧
        ((containerItems pre c).length : Int) ≠ (t : Int)) := by
      rintro ⟨_, _, h3⟩; exact h3 (by exact_mod_cast h)
    rw [if_neg this, if_pos h]
  · have : (((containerItems pre c).length : Int) ≠ -1 ∧ (t : Int) ≠ -1 ∧
        ((containerItems pre c).length : Int) ≠ (t : Int)) := by
      refine ⟨by omega, by omega, ?_⟩
      intro h3; exact h (by exact_mod_cast h3)
    rw [if_pos this, if_neg h]
    simp only [Int.toNat_ofNat]
    rw [arrayMove_append_cons]
    simp [containerItems, List.filter_append]


theorem containerItems_append (l₁ l₂ : List Item) (c : Option String) :
    containerItems (l₁ ++ l₂) c = containerItems l₁ c ++ containerItems l₂ c := by
  simp [containerItems, List.filter_append]

theorem containerItems_insert_self (E : List Item) (x : Item) (c : Option String) (t : Nat)
    (hE : ∀ y ∈ E, y.moduleId = c) (hx : x.moduleId = c) :
    containerItems (E.take t ++ x :: E.drop t) c = E.take t ++ x :: E.drop t := by
  unfold containerItems
  apply List.filter_eq_self.mpr
  intro y hy
  have : y ∈ x :: E := (insert_perm E x t).subset hy
  rcases List.mem_cons.mp this with h | h
  · simp [h, hx]
  · simp [hE y h]

theorem mem_containerItems {items : List Item} {c : Option String} {x : Item} :
    x ∈ containerItems items c ↔ x ∈ items ∧ x.moduleId = c := by
  simp [containerItems]

/-- Destination container after `moveItem`: the moved item inserted at the
target index among the container's other items. -/
theorem moveItem_split_container (pre post : List Item) (A : Item) (c : Option String) (t : Nat)
    (hpre : ∀ x ∈ pre, x.id ≠ A.id) (hpost : ∀ x ∈ post, x.id ≠ A.id) :
    containerItems (moveItem (pre ++ A :: post) A.id c (t : Int)) c =
      (containerItems (pre ++ post) c).take t ++
        reassign A c :: (containerItems (pre ++ post) c).drop t := by
  rw [moveItem_split pre post A c t hpre hpost]
  by_cases h : (containerItems pre c).length = t
  · rw [if_pos h, containerItems_append, containerItems_append]
    have h1 : containerItems (reassign A c :: post) c
        = reassign A c :: containerItems post c := by
      simp [containerItems, reassign]
    rw [h1, ← h, List.take_left, List.drop_left]
  · rw [if_neg h, containerItems_append]
    have h1 : containerItems ((pre ++ post).filter (fun item => item.moduleId != c)) c = [] := by
      simp [containerItems, List.filter_filter]
    rw [h1, List.nil_append]
    apply containerItems_insert_self
    · intro y hy; exact (mem_containerItems.mp hy).2
    · rfl

/-- Items outside the destination container after `moveItem`. -/
theorem moveItem_split_others (pre post : List Item) (A : Item) (c : Option String) (t : Nat)
    (hpre : ∀ x ∈ pre, x.id ≠ A.id) (hpost : ∀ x ∈ post, x.id ≠ A.id) :
    (moveItem (pre ++ A :: post) A.id c (t : Int)).filter (fun item => item.moduleId != c) =
      (pre ++ post).filter (fun item => item.moduleId != c) := by
  rw [moveItem_split pre post A c t hpre hpost]
  by_cases h : (containerItems pre c).length = t
  · rw [if_pos h]
    simp [List.filter_append, List.filter_cons, reassign]
  · rw [if_neg h, List.filter_append, List.filter_filter]
    have h1 : ((containerItems (pre ++ post) c).take t ++
        reassign A c :: (containerItems (pre ++ post) c).drop t).filter
          (fun item => item.moduleId != c) = [] := by
      rw [List.filter_eq_nil_iff]
      intro y hy
      have : y ∈ reassign A c :: containerItems (pre ++ post) c := (insert_perm _ _ t).subset hy
      rcases List.mem_cons.mp this with h | h
      · simp [h, reassign]
      · simp [(mem_containerItems.mp h).2]
    rw [h1, List.append_nil]
    simp

/-- The function `moveItem` permutes the reassigned collection. -/
theorem moveItem_split_perm (pre post : List Item) (A : Item) (c : Option String) (t : Nat)
    (hpre : ∀ x ∈ pre, x.id ≠ A.id) (hpost : ∀ x ∈ post, x.id ≠ A.id) :
    (moveItem (pre ++ A :: post) A.id c (t : Int)).Perm (pre ++ reassign A c :: post) := by
  rw [moveItem_split pre post A c t hpre hpost]
  by_cases h : (containerItems pre c).length = t
  · rw [if_pos h]
  · rw [if_neg h]
    have h1 : ((containerItems (pre ++ post) c).take t ++
        reassign A c :: (containerItems (pre ++ post) c).drop t).Perm
        (reassign A c :: containerItems (pre ++ post) c) := insert_perm _ _ t
    have h2 : ((pre ++ post).filter (fun item => item.moduleId != c) ++
        containerItems (pre ++ post) c).Perm (pre ++ post) := by
      have := List.filter_append_perm (fun item : Item => item.moduleId == c) (pre ++ post)
      refine (List.perm_append_comm.trans ?_).trans this
      unfold containerItems
      apply List.Perm.append_left
      apply List.Perm.of_eq
      apply List.filter_congr
      intro x _
      simp [bne]
    exact ((List.Perm.append_left _ h1).trans List.perm_middle).trans
      ((List.Perm.cons _ h2).trans List.perm_middle.symm)


theorem module_not_item (m : String) : startsWith ("module-" ++ m) "item-" = false := by
  unfold startsWith
  rw [data_append]
  have h1 : "module-".data = 'm' :: "odule-".data := rfl
  have h2 : "item-".data = 'i' :: "tem-".data := rfl
  rw [h1, h2, List.cons_append, List.isPrefixOf]
  simp

theorem ne_of_startsWith {s t p : String} (hs : startsWith s p = true)
    (ht : startsWith t p = false) : s ≠ t := by
  intro h; rw [h, ht] at hs; exact Bool.noConfusion hs

theorem resolveTarget_module (items : List Item) (m : String) :
    resolveTarget items ("module-" ++ m) =
      some (some m, ((containerItems items (some m)).length : Int)) := by
  unfold resolveTarget
  rw [module_not_item, startsWith_append]
  simp only [Bool.false_eq_true, if_false, if_true]
  rw [removeFirst_append "module-" m (by decide)]
  rfl

theorem resolveTarget_root (items : List Item) :
    resolveTarget items "root-drop-zone" =
      some (none, ((items.filter (fun item => !truthy item.moduleId)).length : Int)) := by
  unfold resolveTarget
  have h1 : startsWith "root-drop-zone" "item-" = false := by decide
  have h2 : startsWith "root-drop-zone" "module-" = false := by decide
  rw [h1, h2]
  simp

theorem resolveTarget_item (pre post : List Item) (B : Item)
    (hpre : ∀ x ∈ pre, x.id ≠ B.id) :
    resolveTarget (pre ++ B :: post) ("item-" ++ B.id) =
      some (B.moduleId, ((containerItems pre B.moduleId).length : Int)) := by
  unfold resolveTarget
  rw [startsWith_append]
  simp only [if_true, prefixed_beq]
  rw [find?_append_cons pre post B (by intro x hx; simpa using hpre x hx) (by simp)]
  simp only
  have : (pre ++ B :: post).filter (fun item => item.moduleId == B.moduleId)
      = containerItems pre B.moduleId ++ B :: containerItems post B.moduleId := by
    simp [containerItems, List.filter_append, List.filter_cons]
  rw [this, findIndex_append_cons]
  · intro x hx
    simpa using hpre x (mem_containerItems.mp hx).1
  · simp

theorem findIndex_nonneg {α : Type} {p : α → Bool} {l : List α} {x : α}
    (hx : x ∈ l) (hp : p x = true) : ∃ t : Nat, findIndex p l = (t : Int) ∧ t < l.length := by
  induction l with
  | nil => cases hx
  | cons a t ih =>
    by_cases ha : p a = true
    · exact ⟨0, by simp [findIndex, List.findIdx?_cons, ha], by simp⟩
    · have hxt : x ∈ t := by
        rcases List.mem_cons.mp hx with h | h
        · rw [h] at hp; exact absurd hp ha
        · exact h
      obtain ⟨n, hn, hlt⟩ := ih hxt
      refine ⟨n + 1, ?_, by simp [hlt]⟩
      have ha' : p a = false := by simpa using ha
      unfold findIndex at hn ⊢
      rw [List.findIdx?_cons, ha']
      simp only [Bool.false_eq_true, if_false, List.findIdx?_succ]
      cases h : List.findIdx? p t with
      | none => rw [h] at hn; simp at hn
      | some i =>
        rw [h] at hn
        simp only [Option.map_some', Function.comp] at hn ⊢
        have : (i : Int) = n := hn
        push_cast
        omega

/-- Every target index `resolveTarget` produces is a natural number. -/
theorem resolveTarget_nonneg {items : List Item} {overId : String} {c : Option String}
    {tgt : Int} (h : resolveTarget items overId = some (c, tgt)) :
    ∃ t : Nat, tgt = (t : Int) := by
  unfold resolveTarget at h
  split at h
  · split at h
    · cases h
    · rename_i overItem hf
      simp only [Option.some.injEq, Prod.mk.injEq] at h
      obtain ⟨hc, ht⟩ := h
      have hmem : overItem ∈ items := List.mem_of_find?_eq_some hf
      have hp := List.find?_some hf
      obtain ⟨t, ht', _⟩ := findIndex_nonneg (p := fun item => "item-" ++ item.id == overId)
        (l := items.filter (fun item => item.moduleId == overItem.moduleId)) (x := overItem)
        (by simp [hmem]) hp
      exact ⟨t, by rw [← ht, ht']⟩
  · split at h
    · simp only [Option.some.injEq, Prod.mk.injEq] at h
      exact ⟨_, h.2.symm⟩
    · split at h
      · simp only [Option.some.injEq, Prod.mk.injEq] at h
        exact ⟨_, h.2.symm⟩
      · cases h

/-- Value of `handleDragEnd` on an accepted item gesture. -/
theorem handleDragEnd_item_move (modules : List Module) (items : List Item)
    (a overId : String) (A : Item) (c : Option String) (tgt : Int)
    (hne : "item-" ++ a ≠ overId)
    (hfind : items.find? (fun item => "item-" ++ item.id == "item-" ++ a) = some A)
    (htgt : resolveTarget items overId = some (c, tgt))
    (hcan : canMoveItemToModule items A.id c = true) :
    handleDragEnd ⟨"item-" ++ a, some overId⟩ modules items
      = (modules, moveItem items A.id c tgt) := by
  unfold handleDragEnd
  simp only [if_neg hne, not_module_of_item (startsWith_append "item-" a),
    startsWith_append, hfind, htgt, hcan]
  simp

/-- What `checkDuplicateItemInModule` computes: some item of the container,
not excluded by a non-empty `excludeItemId`, carries the normalised name. -/
theorem checkDuplicate_iff (items : List Item) (c : Option String) (name : String)
    (ex : Option String) :
    checkDuplicateItemInModule items c name ex = true ↔
      ∃ x ∈ items, x.moduleId = c ∧ ¬ (truthy ex = true ∧ some x.id = ex) ∧
        normalizedName x.name = normalizedName name := by
  unfold checkDuplicateItemInModule normalizedName
  simp only [List.any_eq_true, List.mem_filter, beq_iff_eq]
  constructor
  · rintro ⟨x, ⟨hx, hc⟩, h⟩
    refine ⟨x, hx, hc, ?_⟩
    by_cases he : (truthy ex && (some x.id == ex)) = true
    · rw [if_pos he] at h; exact Bool.noConfusion h
    · rw [if_neg he] at h
      refine ⟨?_, by simpa using h⟩
      intro ⟨h1, h2⟩
      exact he (by simp [h1, h2])
  · rintro ⟨x, hx, hc, hex, hn⟩
    refine ⟨x, ⟨hx, hc⟩, ?_⟩
    have he : ¬ (truthy ex && (some x.id == ex)) = true := by
      intro h
      simp only [Bool.and_eq_true, beq_iff_eq] at h
      exact hex h
    rw [if_neg he]
    simpa using hn

theorem canMove_split (pre post : List Item) (A : Item) (c : Option String)
    (hpre : ∀ x ∈ pre, x.id ≠ A.id) :
    canMoveItemToModule (pre ++ A :: post) A.id c =
      if A.moduleId = c then true
      else !checkDuplicateItemInModule (pre ++ A :: post) c A.name (some A.id) := by
  unfold canMoveItemToModule
  rw [find?_append_cons pre post A (by intro x hx; simpa using hpre x hx) (by simp)]

theorem nameUnique_symm :
    Symmetric (fun x y : Item =>
      x.moduleId = y.moduleId → normalizedName x.name ≠ normalizedName y.name) := by
  intro x y h e; exact (h e.symm).symm

theorem nameUnique_moveItem (pre post : List Item) (A : Item) (c : Option String) (t : Nat)
    (hpre : ∀ x ∈ pre, x.id ≠ A.id) (hpost : ∀ x ∈ post, x.id ≠ A.id)
    (hI1 : nameUnique (pre ++ A :: post))
    (hcan : canMoveItemToModule (pre ++ A :: post) A.id c = true) :
    nameUnique (moveItem (pre ++ A :: post) A.id c (t : Int)) := by
  unfold nameUnique at hI1 ⊢
  have hperm := moveItem_split_perm pre post A c t hpre hpost
  rw [hperm.pairwise_iff (fun {x y} h => nameUnique_symm h)]
  rw [(@List.perm_middle _ (reassign A c) pre post).pairwise_iff
    (fun {x y} h => nameUnique_symm h)]
  rw [(@List.perm_middle _ A pre post).pairwise_iff
    (fun {x y} h => nameUnique_symm h)] at hI1
  rw [List.pairwise_cons] at hI1 ⊢
  refine ⟨?_, hI1.2⟩
  intro x hx hc
  have hc' : x.moduleId = c := hc.symm
  show normalizedName A.name ≠ normalizedName x.name
  rw [canMove_split pre post A c hpre] at hcan
  by_cases hA : A.moduleId = c
  · exact hI1.1 x hx (hA.trans hc'.symm)
  · rw [if_neg hA] at hcan
    have hdup : ¬ checkDuplicateItemInModule (pre ++ A :: post) c A.name (some A.id) = true := by
      simpa using hcan
    intro hn
    apply hdup
    rw [checkDuplicate_iff]
    have hxid : x.id ≠ A.id := by
      rcases List.mem_append.mp hx with h | h
      · exact hpre x h
      · exact hpost x h
    refine ⟨x, ?_, hc', ?_, hn.symm⟩
    · rcases List.mem_append.mp hx with h | h
      · exact List.mem_append_left _ h
      · exact List.mem_append_right _ (List.mem_cons_of_mem _ h)
    · rintro ⟨_, h2⟩
      exact hxid (Option.some.inj h2)

theorem find?_item_split (pre post : List Item) (A : Item)
    (hpre : ∀ x ∈ pre, x.id ≠ A.id) :
    (pre ++ A :: post).find? (fun item => "item-" ++ item.id == "item-" ++ A.id) = some A := by
  simp only [prefixed_beq]
  exact find?_append_cons pre post A (by intro x hx; simpa using hpre x hx) (by simp)

/-- The moved item is in the result, and it is the only item with its id. -/
theorem moveItem_split_moved (pre post : List Item) (A : Item) (c : Option String) (t : Nat)
    (hpre : ∀ x ∈ pre, x.id ≠ A.id) (hpost : ∀ x ∈ post, x.id ≠ A.id) :
    reassign A c ∈ moveItem (pre ++ A :: post) A.id c (t : Int) ∧
    ∀ x ∈ moveItem (pre ++ A :: post) A.id c (t : Int), x.id = A.id → x = reassign A c := by
  have hperm := moveItem_split_perm pre post A c t hpre hpost
  constructor
  · exact hperm.symm.subset (by simp)
  · intro x hx hid
    have hx' : x ∈ pre ++ reassign A c :: post := hperm.subset hx
    rcases List.mem_append.mp hx' with h | h
    · exact absurd hid (hpre x h)
    · rcases List.mem_cons.mp h with h | h
      · exact h
      · exact absurd hid (hpost x h)

theorem containerItems_split_le (pre post : List Item) (A : Item) (c : Option String)
    (P : Item → Bool) (hP : ∀ x : Item, x.moduleId = c → P x = true) :
    (containerItems (pre ++ post) c).length ≤ ((pre ++ A :: post).filter P).length := by
  have h1 : (containerItems (pre ++ post) c).Sublist ((pre ++ post).filter P) := by
    unfold containerItems
    apply List.monotone_filter_right
    intro x hx
    exact hP x (by simpa using hx)
  have h2 : ((pre ++ post).filter P).Sublist ((pre ++ A :: post).filter P) := by
    apply List.Sublist.filter
    exact List.Sublist.append_left (List.sublist_cons_self A post) pre
  exact (h1.trans h2).length_le

theorem containerItems_split_succ (pre post : List Item) (A : Item) (c : Option String) :
    (containerItems (pre ++ A :: post) c).length
      ≤ (containerItems (pre ++ post) c).length + 1 := by
  simp only [containerItems, List.filter_append, List.length_append, List.filter_cons]
  split
  · simp only [List.length_cons]; omega
  · omega

theorem others_split (pre post : List Item) (A : Item) (c : Option String)
    (hpre : ∀ x ∈ pre, x.id ≠ A.id) (hpost : ∀ x ∈ post, x.id ≠ A.id) :
    containerItems (pre ++ post) c =
      (containerItems (pre ++ A :: post) c).filter (fun x => x.id != A.id) := by
  have h : ∀ l : List Item, (∀ x ∈ l, x.id ≠ A.id) →
      (containerItems l c).filter (fun x => x.id != A.id) = containerItems l c := by
    intro l hl
    apply List.filter_eq_self.mpr
    intro x hx
    simpa using hl x (mem_containerItems.mp hx).1
  rw [containerItems_append, containerItems_append, List.filter_append, h pre hpre]
  congr 1
  unfold containerItems at h ⊢
  rw [List.filter_cons]
  split
  · rw [List.filter_cons]
    simp [h post hpost]
  · exact (h post hpost).symm

theorem not_item_of_module {s : String} (h : startsWith s "module-" = true) :
    startsWith s "item-" = false := by
  cases h' : startsWith s "item-" with
  | false => rfl
  | true => rw [not_module_of_item h'] at h; exact Bool.noConfusion h

theorem findIndex_of_get_nodup {α β : Type} [DecidableEq β] (f : α → β) (l : List α)
    (x : α) (i : Nat) (hids : (l.map f).Nodup) (hi : l.get? i = some x) :
    findIndex (fun y => f y == f x) l = (i : Int) := by
  obtain ⟨P, Q, rfl, rfl⟩ := split_at_get hi
  apply findIndex_append_cons
  · intro y hy
    rw [List.map_append, List.map_cons] at hids
    have := List.nodup_middle.mp hids
    rw [List.nodup_cons] at this
    have hne : f y ≠ f x := fun he =>
      this.1 (List.mem_append_left _ (by rw [← he]; exact List.mem_map_of_mem _ hy))
    simpa using hne
  · simp

/-- Value of `checkDuplicateItemInModule` with an id to exclude, in terms of the id. -/
theorem checkDuplicate_iff_not_excluded (items : List Item) (c : Option String)
    (name itemId : String) :
    checkDuplicateItemInModule items c name (some itemId) = true ↔
      ∃ x ∈ items, x.moduleId = c ∧ ¬ (itemId ≠ "" ∧ x.id = itemId) ∧
        normalizedName x.name = normalizedName name := by
  rw [checkDuplicate_iff]
  simp [truthy]

/-! ## Lemmas on the search tree -/

theorem ltCodes_total (a b : List Nat) (h : ltCodes a b = false) :
    a = b ∨ ltCodes b a = true := by
  induction a generalizing b with
  | nil =>
    cases b with
    | nil => exact Or.inl rfl
    | cons y ys => simp [ltCodes] at h
  | cons x xs ih =>
    cases b with
    | nil => exact Or.inr (by simp [ltCodes])
    | cons y ys =>
      simp only [ltCodes, Bool.or_eq_false_iff, decide_eq_false_iff_not, not_lt,
        Bool.and_eq_false_imp, beq_iff_eq] at h
      obtain ⟨h1, h2⟩ := h
      rcases Nat.lt_or_eq_of_le h1 with hlt | heq
      · exact Or.inr (by simp [ltCodes, hlt])
      · rcases ih ys (h2 heq.symm) with h3 | h3
        · exact Or.inl (by rw [heq, h3])
        · exact Or.inr (by simp [ltCodes, heq, h3])

theorem map_toNat_injective {a b : List Char}
    (h : a.map Char.toNat = b.map Char.toNat) : a = b := by
  induction a generalizing b with
  | nil =>
    cases b with
    | nil => rfl
    | cons y ys => simp at h
  | cons x xs ih =>
    cases b with
    | nil => simp at h
    | cons y ys =>
      simp only [List.map_cons, List.cons.injEq] at h
      have hxy : x = y := by
        apply Char.ext
        apply UInt32.ext
        exact h.1
      rw [hxy, ih h.2]

/-- The order `<` on strings is total: what is not less is equal or greater. -/
theorem jsLt_total (s t : String) (h : jsLt s t = false) : s = t ∨ jsLt t s = true := by
  unfold jsLt at h ⊢
  rcases ltCodes_total _ _ h with h1 | h1
  · left
    have := map_toNat_injective h1
    cases s; cases t; simp_all
  · exact Or.inr h1


theorem searchNode_acc (t : TreeNode) (term : String) (acc : List Module) :
    _searchNode t term acc = acc ++ _searchNode t term [] := by
  induction t generalizing acc with
  | null => simp [_searchNode]
  | node nm l r ihl ihr =>
    unfold _searchNode
    simp only
    cases hi : includes (toLowerCase nm.name) term <;>
    cases hl : jsLt term (toLowerCase nm.name) <;>
    simp only [Bool.false_eq_true, if_true, if_false]
    · exact ihr acc
    · rw [ihr (_searchNode l term acc), ihl acc, ihr (_searchNode l term []),
        List.append_assoc]
    · rw [ihr (acc ++ [nm]), ihr ([] ++ [nm])]
      simp [List.append_assoc]
    · rw [ihr (_searchNode l term (acc ++ [nm])), ihl (acc ++ [nm]),
        ihr (_searchNode l term ([] ++ [nm])), ihl ([] ++ [nm])]
      simp [List.append_assoc]

/-- One step of `_searchNode` from the empty result array. -/
theorem searchNode_node (nm : Module) (l r : TreeNode) (term : String) :
    _searchNode (TreeNode.node nm l r) term [] =
      (if includes (nodeKey nm) term then [nm] else []) ++
      ((if jsLt term (nodeKey nm) then _searchNode l term [] else []) ++
      _searchNode r term []) := by
  conv => lhs; unfold _searchNode
  rw [show nodeKey nm = toLowerCase nm.name from rfl]
  simp only
  cases hi : includes (toLowerCase nm.name) term <;>
  cases hl : jsLt term (toLowerCase nm.name) <;>
  simp only [Bool.false_eq_true, if_true, if_false, List.nil_append]
  · rw [searchNode_acc r term (_searchNode l term [])]
  · rw [searchNode_acc r]
  · rw [searchNode_acc r, searchNode_acc l term [nm], List.append_assoc]

theorem searchNode_sublist (t : TreeNode) (term : String) :
    (_searchNode t term []).Sublist
      ((preorder t).filter (fun m => includes (nodeKey m) term)) := by
  induction t with
  | null => simp [_searchNode, preorder]
  | node nm l r ihl ihr =>
    rw [searchNode_node]
    simp only [preorder, List.filter_cons, List.filter_append]
    have h2 : (if jsLt term (nodeKey nm) then _searchNode l term [] else []).Sublist
        ((preorder l).filter (fun m => includes (nodeKey m) term)) := by
      split
      · exact ihl
      · exact List.nil_sublist _
    cases hi : includes (nodeKey nm) term
    · simp only [Bool.false_eq_true, if_false, List.nil_append]
      exact List.Sublist.append h2 ihr
    · simp only [if_true, List.singleton_append]
      exact List.Sublist.cons₂ _ (List.Sublist.append h2 ihr)

theorem insert_root (tree : ModuleSearchTree) (m : Module) :
    (tree.insert m).root = _insertNode tree.root m := by
  unfold ModuleSearchTree.insert
  cases h : tree.root with
  | null => simp [_insertNode]
  | node nm l r => simp

theorem preorder_insertNode (t : TreeNode) (m : Module) :
    (preorder (_insertNode t m)).Perm (m :: preorder t) := by
  induction t with
  | null => simp [_insertNode, preorder]
  | node nm l r ihl ihr =>
    unfold _insertNode
    split
    · simp only [preorder]
      have : (nm :: (preorder (_insertNode l m) ++ preorder r)).Perm
          (nm :: (m :: preorder l ++ preorder r)) :=
        List.Perm.cons _ (List.Perm.append_right _ ihl)
      exact this.trans (List.Perm.swap _ _ _)
    · simp only [preorder]
      have : (nm :: (preorder l ++ preorder (_insertNode r m))).Perm
          (nm :: (preorder l ++ m :: preorder r)) :=
        List.Perm.cons _ (List.Perm.append_left _ ihr)
      exact this.trans ((List.Perm.cons _ List.perm_middle).trans (List.Perm.swap _ _ _))

theorem preorder_foldl_insert (ms : List Module) (tree : ModuleSearchTree) :
    (preorder (ms.foldl ModuleSearchTree.insert tree).root).Perm (preorder tree.root ++ ms) := by
  induction ms generalizing tree with
  | nil => simp
  | cons m rest ih =>
    rw [List.foldl_cons]
    refine (ih (tree.insert m)).trans ?_
    rw [insert_root]
    have h1 := preorder_insertNode tree.root m
    exact (List.Perm.append_right rest h1).trans
      (by simpa using (@List.perm_middle _ m (preorder tree.root) rest).symm)

theorem preorder_buildTree (ms : List Module) :
    (preorder (buildTree ms).root).Perm ms := by
  have := preorder_foldl_insert ms ModuleSearchTree.empty
  simpa [buildTree, ModuleSearchTree.empty, preorder] using this

theorem ordered_insertNode (t : TreeNode) (m : Module) (h : ordered t) :
    ordered (_insertNode t m) := by
  induction t with
  | null => simp [_insertNode, ordered, preorder]
  | node nm l r ihl ihr =>
    obtain ⟨hl, hr, ol, or'⟩ := h
    unfold _insertNode
    by_cases hlt : jsLt (toLowerCase m.name) (toLowerCase nm.name) = true
    · rw [if_pos hlt]
      refine ⟨?_, hr, ihl ol, or'⟩
      intro x hx
      rcases List.mem_cons.mp ((preorder_insertNode l m).subset hx) with h | h
      · rw [h]; exact hlt
      · exact hl x h
    · rw [if_neg hlt]
      refine ⟨hl, ?_, ol, ihr or'⟩
      intro x hx
      rcases List.mem_cons.mp ((preorder_insertNode r m).subset hx) with h | h
      · rw [h]; exact jsLt_total _ _ (by simpa using hlt)
      · exact hr x h

theorem ordered_foldl_insert (ms : List Module) (tree : ModuleSearchTree)
    (h : ordered tree.root) : ordered (ms.foldl ModuleSearchTree.insert tree).root := by
  induction ms generalizing tree with
  | nil => exact h
  | cons m rest ih =>
    rw [List.foldl_cons]
    apply ih
    rw [insert_root]
    exact ordered_insertNode _ _ h

theorem moduleAt_insertNode (t : TreeNode) (m : Module) (path : List Bool) (x : Module)
    (h : moduleAt t path = some x) : moduleAt (_insertNode t m) path = some x := by
  induction t generalizing path with
  | null => simp [moduleAt] at h
  | node nm l r ihl ihr =>
    unfold _insertNode
    split
    · cases path with
      | nil => simpa [moduleAt] using h
      | cons b rest =>
        cases b with
        | false => simp only [moduleAt] at h ⊢; exact ihl rest h
        | true => simpa [moduleAt] using h
    · cases path with
      | nil => simpa [moduleAt] using h
      | cons b rest =>
        cases b with
        | false => simpa [moduleAt] using h
        | true => simp only [moduleAt] at h ⊢; exact ihr rest h

theorem moduleAt_foldl_insert (ms : List Module) (tree : ModuleSearchTree)
    (path : List Bool) (x : Module) (h : moduleAt tree.root path = some x) :
    moduleAt (ms.foldl ModuleSearchTree.insert tree).root path = some x := by
  induction ms generalizing tree with
  | nil => exact h
  | cons m rest ih =>
    rw [List.foldl_cons]
    apply ih
    rw [insert_root]
    exact moduleAt_insertNode _ _ _ _ h

/-! ## Lemmas on the operation queue -/

section QueueLemmas
variable {α : Type}

theorem arrayAt_natCast (arr : List α) (i : Nat) (a : α) (h : arr.get? i = some a) :
    arrayAt arr (i : Int) = JsValue.value a := by
  unfold arrayAt
  have : ¬ ((i : Int) < 0) := by omega
  rw [if_neg this, Int.toNat_ofNat, h]

theorem sliceTo_natCast (arr : List α) (e : Nat) : sliceTo arr (e : Int) = arr.take e := by
  unfold sliceTo
  have : ¬ ((e : Int) < 0) := by omega
  rw [if_neg this, Int.toNat_ofNat]

/-- The method `push` on a queue whose cursor is at the last record. -/
theorem push_at_end (q : OperationQueue α) (r : α)
    (h : q.currentIndex = (q.operations.length : Int) - 1) :
    q.push r =
      if ((q.operations.length : Int) + 1 > q.maxSize) then
        { q with operations := (q.operations ++ [r]).tail,
                 currentIndex := (q.operations.length : Int) - 1 }
      else
        { q with operations := q.operations ++ [r],
                 currentIndex := (q.operations.length : Int) } := by
  unfold OperationQueue.push
  have h1 : q.currentIndex + 1 = ((q.operations.length : Nat) : Int) := by omega
  simp only [h1, sliceTo_natCast, List.take_length, List.length_append, List.length_singleton,
    Nat.cast_add, Nat.cast_one]

theorem pushAll_snoc (q : OperationQueue α) (rs : List α) (r : α) :
    q.pushAll (rs ++ [r]) = (q.pushAll rs).push r := by
  simp [OperationQueue.pushAll, List.foldl_append]

/-- The state after pushing `records` into a new queue of capacity `n`. -/
theorem pushAll_new (n : Nat) (records : List α) :
    ((OperationQueue.new (n : Int)).pushAll records : OperationQueue α) =
      { operations := records.drop (records.length - n),
        maxSize := (n : Int),
        currentIndex := ((min records.length n : Nat) : Int) - 1 } := by
  induction records using List.reverseRecOn with
  | nil => simp [OperationQueue.pushAll, OperationQueue.new]
  | append_singleton rs r ih =>
    rw [pushAll_snoc, ih, push_at_end]
    · simp only [List.length_drop, List.length_append, List.length_singleton]
      by_cases hlt : rs.length < n
      · have h1 : rs.length - n = 0 := by omega
        have h2 : rs.length + 1 - n = 0 := by omega
        have h3 : ¬ (((rs.length - (rs.length - n) : Nat) : Int) + 1 > (n : Int)) := by omega
        rw [if_neg h3, h1, h2]
        simp only [List.drop_zero, Nat.sub_zero]
        congr 1
        omega
      · have h3 : (((rs.length - (rs.length - n) : Nat) : Int) + 1 > (n : Int)) := by omega
        rw [if_pos h3]
        have h4 : (List.drop (rs.length - n) rs ++ [r]).tail
            = List.drop (rs.length + 1 - n) (rs ++ [r]) := by
          rw [← List.drop_one, ← List.drop_append_of_le_length (by omega), List.drop_drop]
          congr 1
          omega
        rw [h4]
        congr 1
        omega
    · simp only [List.length_drop]
      omega

theorem take_succ_reverse (l : List α) (j : Nat) (a : α) (h : l.get? j = some a) :
    (l.take (j + 1)).reverse = a :: (l.take j).reverse := by
  rw [List.take_succ, ← List.get?_eq_getElem?, h]
  simp

theorem drop_eq_cons (l : List α) (k : Nat) (a : α) (h : l.get? k = some a) :
    l.drop k = a :: l.drop (k + 1) := by
  induction l generalizing k with
  | nil => simp at h
  | cons x xs ih =>
    cases k with
    | zero => simp at h; simp [h]
    | succ n => simp at h; simpa using ih n (by simpa using h)

theorem get?_of_lt (l : List α) (j : Nat) (h : j < l.length) : ∃ a, l.get? j = some a := by
  exact ⟨l.get ⟨j, h⟩, List.get?_eq_get h⟩

/-- The method `undo` called `j` times from the cursor `j - 1`. -/
theorem undoTimes_spec (j : Nat) (q : OperationQueue α)
    (hc : q.currentIndex = (j : Int) - 1) (hj : j ≤ q.operations.length) :
    q.undoTimes j =
      (((q.operations.take j).reverse).map JsValue.value, { q with currentIndex := -1 }) := by
  induction j generalizing q with
  | zero =>
    simp only [OperationQueue.undoTimes, List.take_zero, List.reverse_nil, List.map_nil]
    congr 1
    cases q
    simp only [OperationQueue.mk.injEq, true_and] at hc ⊢
    simpa using hc
  | succ j ih =>
    obtain ⟨a, ha⟩ := get?_of_lt q.operations j (by omega)
    have hge : q.currentIndex ≥ 0 := by omega
    have hundo : q.undo = (JsValue.value a, { q with currentIndex := (j : Int) - 1 }) := by
      unfold OperationQueue.undo
      rw [if_pos hge]
      have h1 : q.currentIndex - 1 + 1 = (j : Int) := by omega
      have h2 : q.currentIndex - 1 = (j : Int) - 1 := by omega
      have h3 : (j : Int) - 1 + 1 = (j : Int) := by omega
      simp only [h2, h3, arrayAt_natCast _ _ _ ha]
    simp only [OperationQueue.undoTimes, hundo]
    rw [ih { q with currentIndex := (j : Int) - 1 } rfl (by simpa using (by omega : j ≤ _))]
    simp only [take_succ_reverse _ _ _ ha, List.map_cons]

/-- The method `redo` called `j` times from the cursor `k - 1`, where `k + j`
is the number of records. -/
theorem redoTimes_spec (j k : Nat) (q : OperationQueue α)
    (hc : q.currentIndex = (k : Int) - 1) (hk : k + j = q.operations.length) :
    q.redoTimes j =
      ((q.operations.drop k).map JsValue.value,
        { q with currentIndex := (q.operations.length : Int) - 1 }) := by
  induction j generalizing q k with
  | zero =>
    have : k = q.operations.length := by omega
    simp only [OperationQueue.redoTimes, this, List.drop_length, List.map_nil]
    congr 1
    cases q
    simp only [OperationQueue.mk.injEq, true_and] at hc ⊢
    simp only at this
    omega
  | succ j ih =>
    obtain ⟨a, ha⟩ := get?_of_lt q.operations k (by omega)
    have hlt : q.currentIndex < (q.operations.length : Int) - 1 := by omega
    have hredo : q.redo = (JsValue.value a, { q with currentIndex := ((k + 1 : Nat) : Int) - 1 }) := by
      unfold OperationQueue.redo
      rw [if_pos hlt]
      have h1 : q.currentIndex + 1 = (k : Int) := by omega
      have h2 : (((k + 1 : Nat) : Int) - 1) = (k : Int) := by omega
      simp only [h1, h2, arrayAt_natCast _ _ _ ha]
    simp only [OperationQueue.redoTimes, hredo]
    rw [ih (k + 1) { q with currentIndex := ((k + 1 : Nat) : Int) - 1 } rfl
      (by simp only; omega)]
    simp only [drop_eq_cons _ _ _ ha, List.map_cons]

end QueueLemmas

/-! ## Lemmas on the priority queue -/

section PriorityLemmas
variable {α : Type}

/-- The array after the loop of `enqueue` and the `push` that follows when
nothing was added: the new element in front of the first element of strictly
greater priority. -/
theorem enqueueLoop_spec (el : QueueElement α) (l : List (QueueElement α)) :
    (if (enqueueLoop el l).2 then (enqueueLoop el l).1 else (enqueueLoop el l).1 ++ [el]) =
      l.takeWhile (fun e => decide (e.priority ≤ el.priority)) ++
        el :: l.dropWhile (fun e => decide (e.priority ≤ el.priority)) := by
  induction l with
  | nil => simp [enqueueLoop]
  | cons e rest ih =>
    unfold enqueueLoop
    by_cases h : el.priority < e.priority
    · have h' : ¬ e.priority ≤ el.priority := by omega
      simp [h, h', List.takeWhile_cons, List.dropWhile_cons]
    · have h' : e.priority ≤ el.priority := by omega
      simp only [if_neg h, List.takeWhile_cons, List.dropWhile_cons, h', decide_True, if_true,
        List.cons_append]
      rw [← ih]
      split <;> rfl

theorem enqueue_queue (q : PriorityQueue α) (m : α) (p : Int) :
    (q.enqueue m p).queue =
      q.queue.takeWhile (fun e => decide (e.priority ≤ p)) ++
        ({ module := m, priority := p } : QueueElement α) ::
          q.queue.dropWhile (fun e => decide (e.priority ≤ p)) := by
  have h := enqueueLoop_spec ({ module := m, priority := p } : QueueElement α) q.queue
  unfold PriorityQueue.enqueue PriorityQueue.isEmpty
  cases hq : q.queue with
  | nil => simp
  | cons e rest =>
    rw [hq] at h
    simp only [List.length_cons, Nat.succ_ne_zero, beq_iff_eq, if_false]
    rw [← h]
    cases (enqueueLoop ({ module := m, priority := p } : QueueElement α) (e :: rest)).2 <;> simp

theorem head_dropWhile_not (p : α → Bool) (l : List α) (e : α)
    (h : (l.dropWhile p).head? = some e) : p e = false := by
  induction l with
  | nil => simp at h
  | cons a t ih =>
    rw [List.dropWhile_cons] at h
    by_cases ha : p a = true
    · rw [if_pos ha] at h; exact ih h
    · rw [if_neg ha] at h
      simp only [List.head?_cons, Option.some.injEq] at h
      rw [← h]; simpa using ha

theorem mem_takeWhile_imp (p : α → Bool) (l : List α) (e : α)
    (h : e ∈ l.takeWhile p) : p e = true := by
  induction l with
  | nil => simp at h
  | cons a t ih =>
    rw [List.takeWhile_cons] at h
    by_cases ha : p a = true
    · rw [if_pos ha] at h
      rcases List.mem_cons.mp h with h1 | h1
      · rw [h1]; exact ha
      · exact ih h1
    · rw [if_neg ha] at h; cases h

end PriorityLemmas

section PriorityOrder
variable {α : Type}

theorem enqueue_sorted (q : PriorityQueue α) (m : α) (p : Int)
    (hs : sortedByPriority q.queue) :
    sortedByPriority (q.enqueue m p).queue ∧
    ∀ k, (q.enqueue m p).queue.filter (fun e => e.priority == k) =
      q.queue.filter (fun e => e.priority == k) ++
        (if p = k then [({ module := m, priority := p } : QueueElement α)] else []) := by
  have hq := enqueue_queue q m p
  have hsplit : q.queue.takeWhile (fun e => decide (e.priority ≤ p)) ++
      q.queue.dropWhile (fun e => decide (e.priority ≤ p)) = q.queue :=
    List.takeWhile_append_dropWhile _ _
  have hbefore : ∀ e ∈ q.queue.takeWhile (fun e => decide (e.priority ≤ p)),
      e.priority ≤ p := by
    intro e he
    simpa using mem_takeWhile_imp _ _ _ he
  have hs' := hs
  unfold sortedByPriority at hs'
  rw [← hsplit] at hs'
  obtain ⟨h1, h2, h3⟩ := List.pairwise_append.mp hs'
  have hafter : ∀ e ∈ q.queue.dropWhile (fun e => decide (e.priority ≤ p)),
      p < e.priority := by
    intro e he
    cases hd : q.queue.dropWhile (fun e => decide (e.priority ≤ p)) with
    | nil => rw [hd] at he; cases he
    | cons x xs =>
      have hx : p < x.priority := by
        have := head_dropWhile_not (fun e : QueueElement α => decide (e.priority ≤ p))
          q.queue x (by rw [hd]; rfl)
        simpa using this
      rw [hd] at he h2
      rcases List.mem_cons.mp he with h | h
      · rw [h]; exact hx
      · have := (List.pairwise_cons.mp h2).1 e h
        omega
  constructor
  · unfold sortedByPriority
    rw [hq, List.pairwise_append]
    refine ⟨h1, ?_, ?_⟩
    · rw [List.pairwise_cons]
      exact ⟨fun e he => le_of_lt (hafter e he), h2⟩
    · intro a haB b hb
      rcases List.mem_cons.mp hb with h | h
      · rw [h]; exact hbefore a haB
      · exact h3 a haB b h
  · intro k
    rw [hq]
    conv => rhs; rw [← hsplit]
    simp only [List.filter_append, List.filter_cons]
    by_cases hk : p = k
    · have hnil : (q.queue.dropWhile (fun e => decide (e.priority ≤ p))).filter
          (fun e => e.priority == k) = [] := by
        rw [List.filter_eq_nil_iff]
        intro e he
        have := hafter e he
        simp only [beq_iff_eq]
        omega
      subst hk
      simp [hnil]
    · simp [hk]

theorem enqueueAll_snoc (q : PriorityQueue α) (ps : List (α × Int)) (pr : α × Int) :
    q.enqueueAll (ps ++ [pr]) = (q.enqueueAll ps).enqueue pr.1 pr.2 := by
  simp [PriorityQueue.enqueueAll, List.foldl_append]

/-- The queue built from the empty queue is sorted, and its elements of each
priority are the enqueued elements of that priority in enqueue order. -/
theorem enqueueAll_sorted_stable (ps : List (α × Int)) :
    sortedByPriority ((PriorityQueue.new : PriorityQueue α).enqueueAll ps).queue ∧
    ∀ k, ((PriorityQueue.new : PriorityQueue α).enqueueAll ps).queue.filter
        (fun e => e.priority == k)
      = (ps.map toElement).filter (fun e => e.priority == k) := by
  induction ps using List.reverseRecOn with
  | nil =>
    exact ⟨List.Pairwise.nil, fun k => rfl⟩
  | append_singleton ps pr ih =>
    rw [enqueueAll_snoc]
    obtain ⟨h1, h2⟩ := enqueue_sorted _ pr.1 pr.2 ih.1
    refine ⟨h1, fun k => ?_⟩
    rw [h2 k, ih.2 k, List.map_append, List.filter_append]
    congr 1
    simp only [List.map_cons, List.map_nil, List.filter_cons, toElement, beq_iff_eq]
    by_cases hk : pr.2 = k <;> simp [hk]

theorem enqueueAll_perm (ps : List (α × Int)) :
    ((PriorityQueue.new : PriorityQueue α).enqueueAll ps).queue.Perm (ps.map toElement) := by
  induction ps using List.reverseRecOn with
  | nil => exact List.Perm.refl _
  | append_singleton ps pr ih =>
    rw [enqueueAll_snoc, enqueue_queue, List.map_append]
    have hsplit := List.takeWhile_append_dropWhile
      (fun e : QueueElement α => decide (e.priority ≤ pr.2))
      ((PriorityQueue.new : PriorityQueue α).enqueueAll ps).queue
    refine List.perm_middle.trans ?_
    rw [hsplit]
    exact (List.perm_append_singleton _ _).symm.trans (List.Perm.append_right _ ih)

/-- Two lists sorted by priority with the same elements of each priority, in
the same order, are equal. -/
theorem sorted_stable_unique (l₁ l₂ : List (QueueElement α))
    (h1 : sortedByPriority l₁) (h2 : sortedByPriority l₂)
    (hf : ∀ k, l₁.filter (fun e => e.priority == k) = l₂.filter (fun e => e.priority == k)) :
    l₁ = l₂ := by
  induction l₁ generalizing l₂ with
  | nil =>
    cases l₂ with
    | nil => rfl
    | cons b t =>
      have := hf b.priority
      simp [List.filter_cons] at this
  | cons a t₁ ih =>
    cases l₂ with
    | nil =>
      have := hf a.priority
      simp [List.filter_cons] at this
    | cons b t₂ =>
      unfold sortedByPriority at h1 h2
      rw [List.pairwise_cons] at h1 h2
      have hab : a.priority ≤ b.priority := by
        have hb : b ∈ (a :: t₁).filter (fun e => e.priority == b.priority) := by
          rw [hf b.priority]; simp [List.filter_cons]
        have hb' := (List.mem_filter.mp hb).1
        rcases List.mem_cons.mp hb' with h | h
        · rw [h]
        · exact h1.1 b h
      have hba : b.priority ≤ a.priority := by
        have ha : a ∈ (b :: t₂).filter (fun e => e.priority == a.priority) := by
          rw [← hf a.priority]; simp [List.filter_cons]
        have ha' := (List.mem_filter.mp ha).1
        rcases List.mem_cons.mp ha' with h | h
        · rw [h]
        · exact h2.1 a h
      have hp : a.priority = b.priority := le_antisymm hab hba
      have h0 := hf a.priority
      simp only [List.filter_cons, beq_self_eq_true, if_true, hp] at h0
      simp only [hp, beq_self_eq_true, if_true, List.cons.injEq] at h0
      obtain ⟨hab', ht⟩ := h0
      have htail : ∀ k, t₁.filter (fun e => e.priority == k)
          = t₂.filter (fun e => e.priority == k) := by
        intro k
        by_cases hk : b.priority = k
        · rw [← hk]; exact ht
        · have := hf k
          have hk' : ¬ a.priority = k := by rw [hp]; exact hk
          simpa [List.filter_cons, hk, hk'] using this
      rw [hab', ih t₂ h1.2 h2.2 htail]

theorem priorityLe_trans (a b c : QueueElement α) :
    priorityLe a b = true → priorityLe b c = true → priorityLe a c = true := by
  unfold priorityLe
  simp only [decide_eq_true_eq]
  omega

theorem priorityLe_total (a b : QueueElement α) :
    (priorityLe a b || priorityLe b a) = true := by
  unfold priorityLe
  simp only [Bool.or_eq_true, decide_eq_true_eq]
  omega

/-- Merge sort by priority keeps the elements of each priority in their order. -/
theorem mergeSort_filter (l : List (QueueElement α)) (k : Int) :
    (l.mergeSort priorityLe).filter (fun e => e.priority == k)
      = l.filter (fun e => e.priority == k) := by
  have hc : (l.filter (fun e => e.priority == k)).Pairwise (fun a b => priorityLe a b = true) := by
    rw [List.pairwise_iff_forall_sublist]
    intro a b hab
    have ha : a ∈ l.filter (fun e => e.priority == k) := hab.subset (by simp)
    have hb : b ∈ l.filter (fun e => e.priority == k) := hab.subset (by simp)
    have ha' := (List.mem_filter.mp ha).2
    have hb' := (List.mem_filter.mp hb).2
    simp only [beq_iff_eq] at ha' hb'
    simp [priorityLe, ha', hb']
  have hsub : (l.filter (fun e => e.priority == k)).Sublist (l.mergeSort priorityLe) :=
    List.sublist_mergeSort priorityLe_trans priorityLe_total hc (List.filter_sublist _)
  have hsub2 : (l.filter (fun e => e.priority == k)).Sublist
      ((l.mergeSort priorityLe).filter (fun e => e.priority == k)) := by
    have := hsub.filter (fun e => e.priority == k)
    rwa [List.filter_filter, show (fun a : QueueElement α => (a.priority == k && a.priority == k))
      = (fun e => e.priority == k) from by funext a; simp] at this
  have hlen : ((l.mergeSort priorityLe).filter (fun e => e.priority == k)).length
      = (l.filter (fun e => e.priority == k)).length :=
    ((List.mergeSort_perm l priorityLe).filter _).length_eq
  exact (hsub2.eq_of_length hlen.symm).symm

/-- The queue built from the empty queue is the stable merge sort of the
enqueued elements by priority. -/
theorem enqueueAll_eq_mergeSort (ps : List (α × Int)) :
    ((PriorityQueue.new : PriorityQueue α).enqueueAll ps).queue
      = (ps.map toElement).mergeSort priorityLe := by
  apply sorted_stable_unique
  · exact (enqueueAll_sorted_stable ps).1
  · have : ((ps.map toElement).mergeSort priorityLe).Pairwise
        (fun a b : QueueElement α => priorityLe a b = true) :=
      List.sorted_mergeSort priorityLe_trans priorityLe_total (ps.map toElement)
    unfold sortedByPriority
    refine this.imp ?_
    intro a b hab
    simpa [priorityLe] using hab
  · intro k
    rw [(enqueueAll_sorted_stable ps).2 k, mergeSort_filter]

theorem dequeueTimes_spec (n : Nat) (q : PriorityQueue α) (hn : n ≤ q.queue.length) :
    q.dequeueTimes n =
      ((q.queue.take n).map (fun e => JsValue.value e.module), { queue := q.queue.drop n }) := by
  induction n generalizing q with
  | zero => simp [PriorityQueue.dequeueTimes]
  | succ n ih =>
    obtain ⟨l⟩ := q
    cases l with
    | nil => simp at hn
    | cons e rest =>
      simp only [PriorityQueue.dequeueTimes, PriorityQueue.dequeue]
      rw [ih { queue := rest } (by simpa using hn)]
      simp

end PriorityOrder

/-! ## Lemmas on validation -/

theorem length_eq_zero_iff (s : String) : (s.length == 0) = true ↔ s = "" := by
  cases s with
  | mk d =>
    cases d with
    | nil => simp [String.length]
    | cons c cs =>
      simp only [String.length, List.length_cons, beq_iff_eq, Nat.succ_ne_zero, false_iff]
      intro h
      have := congrArg String.data h
      simp at this

theorem trim_empty : trim "" = "" := by decide

/-- The test of the source on `id`: falsy or not a string. -/
theorem idTest_eq (v : JsField) :
    (!v.truthy || !v.isString) = !nonEmptyString v := by
  cases v with
  | undefined => rfl
  | null => rfl
  | other t => simp [JsField.truthy, JsField.isString, nonEmptyString]
  | string s => simp [JsField.truthy, JsField.isString, nonEmptyString]

/-- The test of the source on `name`: falsy, not a string, or empty after
trimming. -/
theorem nameTest_eq (v : JsField) :
    (!v.truthy || !v.isString || v.trimmedEmpty) = !nonBlankString v := by
  cases v with
  | undefined => rfl
  | null => rfl
  | other t => simp [JsField.truthy, JsField.isString, JsField.trimmedEmpty, nonBlankString]
  | string s =>
    have hlen := length_eq_zero_iff (trim s)
    by_cases ht : trim s = ""
    · have h1 : ((trim s).length == 0) = true := hlen.mpr ht
      simp [JsField.trimmedEmpty, nonBlankString, h1, ht]
    · have h1 : ((trim s).length == 0) = false := by
        cases h : ((trim s).length == 0) with
        | false => rfl
        | true => exact absurd (hlen.mp h) ht
      have hs : (s != "") = true := by
        rw [bne_iff_ne]
        intro h; rw [h] at ht; exact ht trim_empty
      have ht' : (trim s != "") = true := by
        rw [bne_iff_ne]; exact ht
      simp only [JsField.truthy, JsField.isString, JsField.trimmedEmpty, nonBlankString, h1, hs,
        ht']
      rfl

theorem trimmedEmpty_string (s : String) :
    (JsField.string s).trimmedEmpty = !nonBlankString (JsField.string s) := by
  have hlen := length_eq_zero_iff (trim s)
  by_cases ht : trim s = ""
  · have h1 : ((trim s).length == 0) = true := hlen.mpr ht
    simp [JsField.trimmedEmpty, nonBlankString, h1, ht]
  · have h1 : ((trim s).length == 0) = false := by
      cases h : ((trim s).length == 0) with
      | false => rfl
      | true => exact absurd (hlen.mp h) ht
    have ht' : (trim s != "") = true := by
      rw [bne_iff_ne]; exact ht
    simp only [JsField.trimmedEmpty, nonBlankString, h1, ht']
    rfl

/-- The test of the source on `moduleId`: not `null`, and not a string or empty
after trimming. -/
theorem moduleIdTest_eq (v : JsField) :
    (v != JsField.null && (!v.isString || v.trimmedEmpty)) =
      !(v == JsField.null || nonBlankString v) := by
  cases v with
  | undefined => rfl
  | null => rfl
  | other t => rfl
  | string s =>
    rw [trimmedEmpty_string]
    have h2 : (JsField.string s == JsField.null) = false := by
      rw [beq_eq_false_iff_ne]; intro h; cases h
    have h1 : (JsField.string s != JsField.null) = true := by
      rw [bne_iff_ne]; intro h; cases h
    rw [h1, h2]
    simp [JsField.isString]

/-- The list of violations `validateItem` returns, rule by rule. -/
theorem validateItem_errors (item : RawItem) :
    (validateItem item).errors =
      (if nonEmptyString item.id = false then ["Item must have a valid string ID"] else []) ++
      ((if (item.moduleId == JsField.null || nonBlankString item.moduleId) = false then
          ["Item must have a valid module ID or null for root-level items"] else []) ++
      ((if nonBlankString item.name = false then ["Item must have a non-empty name"] else []) ++
      (if (item.type == JsField.string "link" && !nonEmptyString item.url) = true then
          ["Link items must have a valid URL"] else []))) := by
  unfold validateItem
  simp only [List.nil_append]
  rw [nameTest_eq, moduleIdTest_eq, idTest_eq item.id, idTest_eq item.url]
  cases nonEmptyString item.id <;>
    cases (item.moduleId == JsField.null || nonBlankString item.moduleId) <;>
    cases nonBlankString item.name <;>
    cases (item.type == JsField.string "link" && !nonEmptyString item.url) <;> rfl

/-! ## Lemmas on the containment index -/

theorem lookup_map_set (m : List (Option String × List Item)) (k : Option String)
    (v : List Item) (h : m.any (fun p => p.1 == k) = true) :
    (m.map (fun p => if p.1 == k then (k, v) else p)).lookup k = some v := by
  induction m with
  | nil => simp at h
  | cons e rest ih =>
    obtain ⟨ek, ev⟩ := e
    by_cases he : ek = k
    · simp [List.lookup_cons, he]
    · have hrest : rest.any (fun p => p.1 == k) = true := by
        simpa [he] using h
      have hne : (k == ek) = false := by
        rw [beq_eq_false_iff_ne]; exact fun h' => he h'.symm
      have hne' : (ek == k) = false := by
        rw [beq_eq_false_iff_ne]; exact he
      simp only [List.map_cons, hne', Bool.false_eq_true, if_false, List.lookup_cons, hne]
      exact ih hrest

theorem lookup_append_new (m : List (Option String × List Item)) (k : Option String)
    (v : List Item) (h : m.any (fun p => p.1 == k) = false) :
    (m ++ [(k, v)]).lookup k = some v := by
  induction m with
  | nil => simp [List.lookup_cons]
  | cons e rest ih =>
    obtain ⟨ek, ev⟩ := e
    have he : ¬ ek = k := by
      intro he; simp [he] at h
    have hrest : rest.any (fun p => p.1 == k) = false := by
      simpa [he] using h
    have hne : (k == ek) = false := by
      rw [beq_eq_false_iff_ne]; exact fun h' => he h'.symm
    simp only [List.cons_append, List.lookup_cons, hne]
    exact ih hrest

theorem lookup_mapSet_self (m : List (Option String × List Item)) (k : Option String)
    (v : List Item) : (mapSet m k v).lookup k = some v := by
  unfold mapSet
  cases h : m.any (fun p => p.1 == k) with
  | true => simp only [if_true]; exact lookup_map_set m k v h
  | false => simp only [Bool.false_eq_true, if_false]; exact lookup_append_new m k v h

theorem lookup_map_set_ne (m : List (Option String × List Item)) (k k' : Option String)
    (v : List Item) (hk : k' ≠ k) :
    (m.map (fun p => if p.1 == k then (k, v) else p)).lookup k' = m.lookup k' := by
  have hne : (k' == k) = false := by
    rw [beq_eq_false_iff_ne]; exact hk
  induction m with
  | nil => rfl
  | cons e rest ih =>
    obtain ⟨ek, ev⟩ := e
    by_cases he : ek = k
    · subst he
      simp only [List.map_cons, beq_self_eq_true, if_true, List.lookup_cons, hne]
      exact ih
    · have hne' : (ek == k) = false := by
        rw [beq_eq_false_iff_ne]; exact he
      simp only [List.map_cons, hne', Bool.false_eq_true, if_false, List.lookup_cons]
      cases (k' == ek) with
      | true => rfl
      | false => exact ih

theorem lookup_append_ne (m : List (Option String × List Item)) (k k' : Option String)
    (v : List Item) (hk : k' ≠ k) : (m ++ [(k, v)]).lookup k' = m.lookup k' := by
  have hne : (k' == k) = false := by
    rw [beq_eq_false_iff_ne]; exact hk
  induction m with
  | nil => simp [List.lookup_cons, hne]
  | cons e rest ih =>
    obtain ⟨ek, ev⟩ := e
    simp only [List.cons_append, List.lookup_cons]
    cases (k' == ek) with
    | true => rfl
    | false => exact ih

theorem lookup_mapSet_ne (m : List (Option String × List Item)) (k k' : Option String)
    (v : List Item) (hk : k' ≠ k) : (mapSet m k v).lookup k' = m.lookup k' := by
  unfold mapSet
  split
  · exact lookup_map_set_ne m k k' v hk
  · exact lookup_append_ne m k k' v hk

theorem get_set_self (h : ItemHashMap) (k : Option String) (v : List Item) :
    (h.set k v).get k = v := by
  simp [ItemHashMap.set, ItemHashMap.get, lookup_mapSet_self]

theorem get_set_ne (h : ItemHashMap) (k k' : Option String) (v : List Item) (hk : k' ≠ k) :
    (h.set k v).get k' = h.get k' := by
  simp [ItemHashMap.set, ItemHashMap.get, lookup_mapSet_ne _ _ _ _ hk]

theorem get_addItem_self (h : ItemHashMap) (c : Option String) (x : Item) :
    (h.addItem c x).get c = h.get c ++ [x] := by
  unfold ItemHashMap.addItem
  exact get_set_self _ _ _

theorem get_addItem_ne (h : ItemHashMap) (c c' : Option String) (x : Item) (hc : c' ≠ c) :
    (h.addItem c x).get c' = h.get c' := by
  unfold ItemHashMap.addItem
  exact get_set_ne _ _ _ _ hc

theorem get_removeItem_self (h : ItemHashMap) (c : Option String) (itemId : String) :
    (h.removeItem c itemId).get c = (h.get c).filter (fun item => item.id != itemId) := by
  unfold ItemHashMap.removeItem
  exact get_set_self _ _ _

theorem get_removeItem_ne (h : ItemHashMap) (c c' : Option String) (itemId : String)
    (hc : c' ≠ c) : (h.removeItem c itemId).get c' = h.get c' := by
  unfold ItemHashMap.removeItem
  exact get_set_ne _ _ _ _ hc

theorem addAll_snoc (h : ItemHashMap) (adds : List (Option String × Item))
    (p : Option String × Item) : h.addAll (adds ++ [p]) = (h.addAll adds).addItem p.1 p.2 := by
  simp [ItemHashMap.addAll, List.foldl_append]

/-- The list of a container after a sequence of `addItem` calls. -/
theorem get_addAll (h : ItemHashMap) (adds : List (Option String × Item)) (c : Option String) :
    (h.addAll adds).get c = h.get c ++ (adds.filter (fun p => p.1 == c)).map (fun p => p.2) := by
  induction adds using List.reverseRecOn with
  | nil => simp [ItemHashMap.addAll]
  | append_singleton adds p ih =>
    rw [addAll_snoc, List.filter_append, List.map_append]
    by_cases hp : p.1 = c
    · rw [hp, get_addItem_self, ih]
      simp [List.filter_cons, hp]
    · rw [get_addItem_ne _ _ _ _ (fun h' => hp h'.symm), ih]
      simp [List.filter_cons, hp]

/-! ## Lemmas on prefix search -/

theorem ltCodes_nil_right (a : List Nat) : ltCodes a [] = false := by
  cases a <;> rfl

theorem ltCodes_of_isPrefix (t a b : List Nat) (hp : t <+: a) (h : ltCodes a b = true) :
    ltCodes t b = true := by
  induction t generalizing a b with
  | nil =>
    cases b with
    | nil => rw [ltCodes_nil_right] at h; exact Bool.noConfusion h
    | cons y ys => rfl
  | cons x t' ih =>
    obtain ⟨r, hr⟩ := hp
    cases a with
    | nil => simp at hr
    | cons x' a' =>
      simp only [List.cons_append, List.cons.injEq] at hr
      obtain ⟨hx, ha⟩ := hr
      subst hx
      cases b with
      | nil => rw [ltCodes_nil_right] at h; exact Bool.noConfusion h
      | cons y ys =>
        simp only [ltCodes, Bool.or_eq_true, decide_eq_true_eq, Bool.and_eq_true,
          beq_iff_eq] at h ⊢
        rcases h with h | ⟨h1, h2⟩
        · exact Or.inl h
        · exact Or.inr ⟨h1, ih a' ys ⟨r, ha⟩ h2⟩

/-- A string that starts with `t` and is less than `b` has `t` less than `b`. -/
theorem jsLt_of_startsWith (s t b : String) (hp : startsWith s t = true)
    (h : jsLt s b = true) : jsLt t b = true := by
  unfold jsLt at h ⊢
  unfold startsWith at hp
  have hpre : t.data <+: s.data := List.isPrefixOf_iff_prefix.mp hp
  exact ltCodes_of_isPrefix _ _ _ (hpre.map Char.toNat) h

theorem includesAux_of_isPrefixOf (t s : List Char) (h : t.isPrefixOf s = true) :
    includesAux t s = true := by
  cases s with
  | nil =>
    cases t with
    | nil => rfl
    | cons c cs => simp [List.isPrefixOf] at h
  | cons c cs =>
    unfold includesAux
    rw [h]
    rfl

theorem includes_of_startsWith (s t : String) (h : startsWith s t = true) :
    includes s t = true :=
  includesAux_of_isPrefixOf _ _ h

/-- On an ordered tree the left-subtree pruning loses no module whose key
starts with the term. -/
theorem searchNode_prefix_complete (t : TreeNode) (term : String) (ho : ordered t)
    (m : Module) (hm : m ∈ preorder t) (hp : startsWith (nodeKey m) term = true) :
    m ∈ _searchNode t term [] := by
  induction t with
  | null => simp [preorder] at hm
  | node nm l r ihl ihr =>
    obtain ⟨hl, _, ol, or'⟩ := ho
    rw [searchNode_node]
    simp only [preorder, List.mem_cons, List.mem_append] at hm
    rcases hm with h | h | h
    · subst h
      rw [includes_of_startsWith _ _ hp]
      simp
    · have hlt : jsLt term (nodeKey nm) = true := jsLt_of_startsWith _ _ _ hp (hl m h)
      rw [hlt]
      simp only [if_true, List.mem_append]
      exact Or.inr (Or.inl (ihl ol h))
    · simp only [List.mem_append]
      exact Or.inr (Or.inr (ihr or' h))

theorem includes_empty (s : String) : includes s "" = true := by
  unfold includes
  cases s.data with
  | nil => rfl
  | cons c cs => rfl

/-- On an ordered tree the empty term finds every node, in pre-order. -/
theorem searchNode_empty_term (t : TreeNode) (ho : ordered t) :
    _searchNode t "" [] = preorder t := by
  induction t with
  | null => rfl
  | node nm l r ihl ihr =>
    obtain ⟨hl, _, ol, or'⟩ := ho
    rw [searchNode_node, includes_empty, ihr or']
    simp only [if_true, preorder, List.singleton_append, List.cons.injEq, true_and]
    congr 1
    cases hlt : jsLt "" (nodeKey nm) with
    | true => simp only [if_true]; exact ihl ol
    | false =>
      simp only [Bool.false_eq_true, if_false]
      cases hpl : preorder l with
      | nil => rfl
      | cons x xs =>
        have hx := hl x (by rw [hpl]; exact List.mem_cons_self _ _)
        rcases jsLt_total _ _ hlt with h1 | h1
        · rw [← h1] at hx
          unfold jsLt at hx
          rw [show ("" : String).data = [] from rfl, List.map_nil, ltCodes_nil_right] at hx
          exact Bool.noConfusion hx
        · unfold jsLt at h1
          rw [show ("" : String).data = [] from rfl, List.map_nil, ltCodes_nil_right] at h1
          exact Bool.noConfusion h1

theorem toLowerCase_empty : toLowerCase "" = "" := by decide

/-! ## Lemmas on the bounds of the operation queue -/

section QueueBounds
variable {α : Type}

theorem inBounds_new (maxSize : Int) (h : 0 ≤ maxSize) :
    (OperationQueue.new maxSize : OperationQueue α).inBounds := by
  refine ⟨by simp [OperationQueue.new], by simp [OperationQueue.new], ?_⟩
  simpa [OperationQueue.new] using h

theorem inBounds_push (q : OperationQueue α) (r : α) (h : q.inBounds) :
    (q.push r).inBounds ∧ (q.push r).maxSize = q.maxSize := by
  obtain ⟨h1, h2, h3⟩ := h
  obtain ⟨e, he⟩ : ∃ e : Nat, q.currentIndex + 1 = (e : Int) :=
    ⟨(q.currentIndex + 1).toNat, by omega⟩
  have hlen : (q.operations.take e).length = e := by
    rw [List.length_take]; omega
  have hl : (q.operations.take e ++ [r]).length = e + 1 := by
    rw [List.length_append, hlen]; rfl
  have hval : q.push r =
      if ((e + 1 : Nat) : Int) > q.maxSize then
        { q with operations := (q.operations.take e ++ [r]).tail,
                 currentIndex := (e : Int) - 1 }
      else
        { q with operations := q.operations.take e ++ [r], currentIndex := (e : Int) } := by
    unfold OperationQueue.push
    simp only [he, sliceTo_natCast, hl]
  rw [hval]
  unfold OperationQueue.inBounds
  by_cases hgt : ((e + 1 : Nat) : Int) > q.maxSize
  · rw [if_pos hgt]
    simp only [List.length_tail, hl]
    refine ⟨⟨by omega, by omega, by omega⟩, trivial⟩
  · rw [if_neg hgt]
    simp only [hl]
    refine ⟨⟨by omega, by omega, by omega⟩, trivial⟩

theorem inBounds_undo (q : OperationQueue α) (h : q.inBounds) :
    q.undo.2.inBounds ∧ q.undo.1 ≠ JsValue.undefined := by
  obtain ⟨h1, h2, h3⟩ := h
  unfold OperationQueue.undo
  by_cases hge : q.currentIndex ≥ 0
  · rw [if_pos hge]
    obtain ⟨j, hj⟩ : ∃ j : Nat, q.currentIndex = (j : Int) := ⟨q.currentIndex.toNat, by omega⟩
    obtain ⟨a, ha⟩ := get?_of_lt q.operations j (by omega)
    have h4 : q.currentIndex - 1 + 1 = (j : Int) := by omega
    simp only [h4, arrayAt_natCast _ _ _ ha]
    refine ⟨⟨by simp only; omega, by simp only; omega, h3⟩, by simp⟩
  · rw [if_neg hge]
    exact ⟨⟨h1, h2, h3⟩, by simp⟩

theorem inBounds_redo (q : OperationQueue α) (h : q.inBounds) :
    q.redo.2.inBounds ∧ q.redo.1 ≠ JsValue.undefined := by
  obtain ⟨h1, h2, h3⟩ := h
  unfold OperationQueue.redo
  by_cases hlt : q.currentIndex < (q.operations.length : Int) - 1
  · rw [if_pos hlt]
    obtain ⟨j, hj⟩ : ∃ j : Nat, q.currentIndex + 1 = (j : Int) :=
      ⟨(q.currentIndex + 1).toNat, by omega⟩
    obtain ⟨a, ha⟩ := get?_of_lt q.operations j (by omega)
    simp only [hj, arrayAt_natCast _ _ _ ha]
    refine ⟨⟨by simp only; omega, by simp only; omega, h3⟩, by simp⟩
  · rw [if_neg hlt]
    exact ⟨⟨h1, h2, h3⟩, by simp⟩

theorem inBounds_run (calls : List (QueueCall α)) (q : OperationQueue α) (h : q.inBounds) :
    (q.run calls).2.inBounds ∧ JsValue.undefined ∉ (q.run calls).1 ∧
    (q.run calls).2.maxSize = q.maxSize := by
  induction calls generalizing q with
  | nil => exact ⟨h, by simp [OperationQueue.run], rfl⟩
  | cons c rest ih =>
    cases c with
    | push r =>
      simp only [OperationQueue.run]
      obtain ⟨hb, hm⟩ := inBounds_push q r h
      obtain ⟨i1, i2, i3⟩ := ih (q.push r) hb
      exact ⟨i1, i2, i3.trans hm⟩
    | undo =>
      simp only [OperationQueue.run]
      obtain ⟨hb, hu⟩ := inBounds_undo q h
      obtain ⟨i1, i2, i3⟩ := ih q.undo.2 hb
      refine ⟨i1, ?_, ?_⟩
      · intro hmem
        rcases List.mem_cons.mp hmem with h' | h'
        · exact hu h'.symm
        · exact i2 h'
      · rw [i3]
        unfold OperationQueue.undo
        split <;> rfl
    | redo =>
      simp only [OperationQueue.run]
      obtain ⟨hb, hu⟩ := inBounds_redo q h
      obtain ⟨i1, i2, i3⟩ := ih q.redo.2 hb
      refine ⟨i1, ?_, ?_⟩
      · intro hmem
        rcases List.mem_cons.mp hmem with h' | h'
        · exact hu h'.symm
        · exact i2 h'
      · rw [i3]
        unfold OperationQueue.redo
        split <;> rfl

end QueueBounds

/-! ## Lemmas on referential integrity -/

theorem mem_arrayMove {α : Type} {l : List α} {a b : Nat} {x : α}
    (h : x ∈ arrayMove l a b) : x ∈ l := by
  unfold arrayMove at h
  cases hg : l.get? a with
  | none => rw [hg] at h; exact h
  | some y =>
    rw [hg] at h
    have h1 : x ∈ y :: l.eraseIdx a := (insert_perm (l.eraseIdx a) y b).subset h
    rcases List.mem_cons.mp h1 with h2 | h2
    · rw [h2]
      rw [List.get?_eq_getElem?] at hg
      exact List.mem_iff_getElem?.mpr ⟨a, hg⟩
    · exact (List.eraseIdx_sublist l a).subset h2

theorem mem_moveItem {prevItems : List Item} {activeItemId : String}
    {targetModuleId : Option String} {targetIndex : Int} {x : Item}
    (h : x ∈ moveItem prevItems activeItemId targetModuleId targetIndex) :
    x.moduleId = targetModuleId ∨ x ∈ prevItems := by
  have hupd : x ∈ prevItems.map (fun item =>
      if item.id = activeItemId then { item with moduleId := targetModuleId } else item) := by
    unfold moveItem at h
    simp only at h
    split at h
    · rcases List.mem_append.mp h with h1 | h1
      · exact (List.mem_filter.mp h1).1
      · exact (List.mem_filter.mp (mem_arrayMove h1)).1
    · exact h
  obtain ⟨y, hy, hxy⟩ := List.mem_map.mp hupd
  by_cases hid : y.id = activeItemId
  · rw [if_pos hid] at hxy
    left; rw [← hxy]
  · rw [if_neg hid] at hxy
    right; rw [← hxy]; exact hy

theorem resolveTarget_container {items : List Item} {overId : String}
    {c : Option String} {idx : Int} (h : resolveTarget items overId = some (c, idx)) :
    (∃ y ∈ items, c = y.moduleId) ∨
    (startsWith overId "module-" = true ∧ c = some (removeFirst overId "module-")) ∨
    c = none := by
  unfold resolveTarget at h
  split at h
  · cases hf : items.find? (fun item => "item-" ++ item.id == overId) with
    | none => rw [hf] at h; simp at h
    | some overItem =>
      rw [hf] at h
      simp only [Option.some.injEq, Prod.mk.injEq] at h
      exact Or.inl ⟨overItem, List.mem_of_find?_eq_some hf, h.1.symm⟩
  · split at h
    · rename_i hm
      simp only [Option.some.injEq, Prod.mk.injEq] at h
      exact Or.inr (Or.inl ⟨hm, h.1.symm⟩)
    · split at h
      · simp only [Option.some.injEq, Prod.mk.injEq] at h
        exact Or.inr (Or.inr h.1.symm)
      · simp at h

theorem referentialIntegrity_moveItem {modules : List Module} {items : List Item}
    (activeItemId : String) (c : Option String) (idx : Int)
    (hI3 : referentialIntegrity modules items)
    (hc : c = none ∨ ∃ m ∈ modules, c = some m.id) :
    referentialIntegrity modules (moveItem items activeItemId c idx) := by
  intro x hx
  rcases mem_moveItem hx with h | h
  · rw [h]; exact hc
  · exact hI3 x h

theorem handleDragEnd_item_source (event : DragEvent) (modules : List Module)
    (items : List Item) (hsrc : startsWith event.active "item-" = true) :
    handleDragEnd event modules items = (modules, items) ∨
    ∃ overId activeId c idx, event.over = some overId ∧
      resolveTarget items overId = some (c, idx) ∧
      handleDragEnd event modules items = (modules, moveItem items activeId c idx) := by
  unfold handleDragEnd
  cases ho : event.over with
  | none => left; rfl
  | some overId =>
    simp only
    by_cases heq : event.active = overId
    · left; rw [if_pos heq]
    · rw [if_neg heq, not_module_of_item hsrc, hsrc]
      simp only [Bool.false_and, Bool.false_eq_true, if_false, if_true]
      cases hf : items.find? (fun item => "item-" ++ item.id == event.active) with
      | none => left; rfl
      | some activeItem =>
        simp only
        cases hr : resolveTarget items overId with
        | none => left; rfl
        | some p =>
          obtain ⟨c, idx⟩ := p
          simp only
          by_cases hcan : canMoveItemToModule items activeItem.id c = true
          · rw [if_pos hcan]
            exact Or.inr ⟨overId, activeItem.id, c, idx, rfl, hr, rfl⟩
          · rw [if_neg hcan]; left; trivial

theorem filter_modules_mem {modules : List Module} {m : String} {x : Module}
    (hx : x ∈ modules) (hne : x.id ≠ m) :
    x ∈ modules.filter (fun module => module.id != m) := by
  rw [List.mem_filter]
  exact ⟨hx, by simpa [bne_iff_ne] using hne⟩

/-! ## Lemmas on `handleSaveModule` -/

theorem isDuplicate_iff (modules : List Module) (module : Module) :
    modules.any (fun existingModule =>
      existingModule.id != module.id &&
        toLowerCase (trim existingModule.name) == toLowerCase (trim module.name)) = true ↔
    ∃ e ∈ modules, e.id ≠ module.id ∧ normalizedName e.name = normalizedName module.name := by
  simp [List.any_eq_true, normalizedName, bne_iff_ne]

theorem moduleNameUnique_append (modules : List Module) (module : Module)
    (hI2 : moduleNameUnique modules)
    (hnew : ∀ e ∈ modules, normalizedName e.name ≠ normalizedName module.name) :
    moduleNameUnique (modules ++ [module]) := by
  unfold moduleNameUnique at hI2 ⊢
  rw [List.pairwise_append]
  refine ⟨hI2, List.pairwise_singleton _ _, ?_⟩
  intro a ha b hb
  rw [List.mem_singleton] at hb
  rw [hb]
  exact hnew a ha

theorem moduleNameUnique_replace (modules : List Module) (module : Module)
    (hids : (modules.map (fun m => m.id)).Nodup)
    (hI2 : moduleNameUnique modules)
    (hnew : ∀ e ∈ modules, e.id ≠ module.id →
      normalizedName e.name ≠ normalizedName module.name) :
    moduleNameUnique (modules.map (fun m => if m.id == module.id then module else m)) := by
  unfold moduleNameUnique at hI2 ⊢
  rw [List.pairwise_map]
  have hids' : modules.Pairwise (fun a b => a.id ≠ b.id) := by
    unfold List.Nodup at hids
    rw [List.pairwise_map] at hids
    exact hids
  refine (hids'.and hI2).imp_of_mem ?_
  intro a b ha hb hab
  obtain ⟨hid, hname⟩ := hab
  by_cases h1 : a.id = module.id
  · have h2 : b.id ≠ module.id := fun h => hid (h1.trans h.symm)
    simp only [h1, beq_self_eq_true, if_true, beq_iff_eq, h2, if_false]
    exact fun h => hnew b hb h2 h.symm
  · by_cases h2 : b.id = module.id
    · simp only [beq_iff_eq, h1, if_false, h2, if_true]
      exact hnew a ha h1
    · simp only [beq_iff_eq, h1, if_false, h2]
      exact hname

theorem handleSaveModule_duplicate (s : BuilderState) (module : Module)
    (timestamp createdAt : Nat)
    (hdup : ∃ e ∈ s.modules, e.id ≠ module.id ∧
      normalizedName e.name = normalizedName module.name) :
    handleSaveModule s module timestamp createdAt =
      (SaveResult.error
        "A module with this name already exists. Please choose a different name.", s) := by
  unfold handleSaveModule
  simp only
  rw [if_pos ((isDuplicate_iff s.modules module).mpr hdup)]

theorem handleSaveModule_modules (s : BuilderState) (module : Module)
    (timestamp createdAt : Nat) :
    (handleSaveModule s module timestamp createdAt).2.modules = s.modules ∨
    ((∀ e ∈ s.modules, e.id ≠ module.id →
        normalizedName e.name ≠ normalizedName module.name) ∧
      ((s.currentModule = none ∧
          (handleSaveModule s module timestamp createdAt).2.modules =
            s.modules ++ [{ module with createdAt := createdAt }]) ∨
        (s.currentModule ≠ none ∧
          (handleSaveModule s module timestamp createdAt).2.modules =
            s.modules.map (fun m => if m.id == module.id then module else m)))) := by
  unfold handleSaveModule
  simp only
  split
  · left; rfl
  · rename_i hdup
    split
    · left; rfl
    · right
      refine ⟨?_, ?_⟩
      · intro e he hid hname
        exact hdup ((isDuplicate_iff s.modules module).mpr ⟨e, he, hid, hname⟩)
      · cases hc : s.currentModule with
        | none => left; exact ⟨rfl, rfl⟩
        | some cm => right; exact ⟨by simp, rfl⟩

/-! ## Lemmas on the agreement of the hash map with the item collection -/

theorem get_new (c : Option String) : ItemHashMap.new.get c = [] := rfl

theorem indexConsistent_init (modules : List Module) (items : List Item) :
    indexConsistent (BuilderState.init modules items) := by
  intro c
  show (ItemHashMap.new.addAll (items.map (fun item => (item.moduleId, item)))).get c =
    containerItems items c
  rw [get_addAll, get_new, List.nil_append, List.filter_map, List.map_map]
  unfold containerItems
  have hf : ((fun p : Option String × Item => p.1 == c) ∘
      fun item : Item => (item.moduleId, item)) = fun item : Item => item.moduleId == c := rfl
  have hg : ((fun p : Option String × Item => p.2) ∘
      fun item : Item => (item.moduleId, item)) = id := rfl
  rw [hf, hg, List.map_id]

theorem indexConsistent_append (s : BuilderState) (x : Item) (s' : BuilderState)
    (h : indexConsistent s)
    (hitems : s'.items = s.items ++ [x])
    (hmap : s'.itemHashMap = s.itemHashMap.addItem x.moduleId x) :
    indexConsistent s' := by
  intro k
  rw [hitems, hmap, containerItems_append]
  by_cases hk : k = x.moduleId
  · rw [hk, get_addItem_self, h x.moduleId]
    simp [containerItems]
  · rw [get_addItem_ne _ _ _ _ hk, h k]
    have hne : ¬ x.moduleId = k := fun h' => hk h'.symm
    have : containerItems [x] k = [] := by
      simp [containerItems, List.filter_cons, hne]
    rw [this, List.append_nil]

/-- Creating a link keeps the hash map in agreement with the collection. -/
theorem indexConsistent_handleSaveLink (s : BuilderState) (linkItem : Item)
    (updatedData : Option Item) (timestamp createdAt : Nat) (h : indexConsistent s) :
    indexConsistent (handleSaveLink s (Sum.inr linkItem) updatedData timestamp createdAt) := by
  unfold handleSaveLink
  simp only
  split
  · exact h
  · exact indexConsistent_append s
      { linkItem with moduleId := s.currentModuleId, createdAt := createdAt } _ h rfl rfl

/-- Creating a file item keeps the hash map in agreement with the collection. -/
theorem indexConsistent_handleSaveUpload (s : BuilderState) (fileItem : Item)
    (updatedData : Option Item) (timestamp createdAt : Nat) (h : indexConsistent s) :
    indexConsistent (handleSaveUpload s (Sum.inr fileItem) updatedData timestamp createdAt) := by
  unfold handleSaveUpload
  simp only
  split
  · exact h
  · exact indexConsistent_append s
      { fileItem with moduleId := s.currentModuleId, createdAt := createdAt } _ h rfl rfl

/-- Deleting a module keeps the hash map in agreement with the collection. -/
theorem indexConsistent_handleDeleteModule (s : BuilderState) (moduleId : String)
    (timestamp : Nat) (h : indexConsistent s) :
    indexConsistent (handleDeleteModule s moduleId timestamp) := by
  intro k
  show (s.itemHashMap.set (some moduleId) []).get k =
    containerItems (s.items.filter (fun item => item.moduleId != some moduleId)) k
  unfold containerItems
  rw [List.filter_filter]
  by_cases hk : k = some moduleId
  · rw [hk, get_set_self]
    symm
    rw [List.filter_eq_nil_iff]
    intro a _
    cases hm : (a.moduleId == some moduleId) <;> simp [bne, hm]
  · rw [get_set_ne _ _ _ _ hk, h k]
    unfold containerItems
    apply List.filter_congr
    intro a _
    by_cases ha : a.moduleId = k
    · have : a.moduleId ≠ some moduleId := fun h' => hk (ha.symm.trans h')
      simp [ha, bne_iff_ne, hk]
    · simp [ha]

/-- Deleting an item keeps the hash map in agreement with the collection when
the item ids are unique. -/
theorem indexConsistent_handleDeleteItem (s : BuilderState) (itemId : String)
    (timestamp : Nat) (h : indexConsistent s)
    (hids : (s.items.map (fun i => i.id)).Nodup) :
    indexConsistent (handleDeleteItem s itemId timestamp) := by
  unfold handleDeleteItem
  cases hf : s.items.find? (fun i => i.id == itemId) with
  | none => exact h
  | some item =>
    intro k
    show (s.itemHashMap.removeItem item.moduleId itemId).get k =
      containerItems (s.items.filter (fun item => item.id != itemId)) k
    have hmem : item ∈ s.items := List.mem_of_find?_eq_some hf
    have hid : item.id = itemId := by
      have := List.find?_some hf
      simpa using this
    have huniq : ∀ y ∈ s.items, y.id = itemId → y = item := by
      intro y hy hyid
      have hinj := List.inj_on_of_nodup_map hids hy hmem
      exact hinj (hyid.trans hid.symm)
    unfold containerItems
    rw [List.filter_filter]
    by_cases hk : k = item.moduleId
    · rw [hk, get_removeItem_self, h item.moduleId]
      unfold containerItems
      rw [List.filter_filter]
      apply List.filter_congr
      intro a _
      exact Bool.and_comm _ _
    · rw [get_removeItem_ne _ _ _ _ hk, h k]
      unfold containerItems
      apply List.filter_congr
      intro a ha
      by_cases hak : a.moduleId = k
      · have hne : a.id ≠ itemId := by
          intro haid
          have := huniq a ha haid
          rw [this] at hak
          exact hk hak.symm
        simp [hak, bne_iff_ne, hne]
      · simp [hak]

/-- The inline update of an item re-appends it to its container in the hash
map, while the collection keeps its position: with `a` before `b` in module
`1`, renaming `a` leaves the collection order `a`, `b` and makes the hash map
order `b`, `a`. -/
theorem handleEditItem_reorders_index :
    (handleEditItem
      (BuilderState.init [mkModule "1" "Intro"]
        [mkItem "a" (some "1") "Notes", mkItem "b" (some "1") "Slides"])
      "a" (some (mkItem "a" (some "1") "Summary")) 7).items =
      [mkItem "a" (some "1") "Summary", mkItem "b" (some "1") "Slides"] ∧
    (handleEditItem
      (BuilderState.init [mkModule "1" "Intro"]
        [mkItem "a" (some "1") "Notes", mkItem "b" (some "1") "Slides"])
      "a" (some (mkItem "a" (some "1") "Summary")) 7).itemHashMap.get (some "1") =
      [mkItem "b" (some "1") "Slides", mkItem "a" (some "1") "Summary"] := by
  decide

/-! ## Claims -/

/-- C1: when the source is item-tagged, names an existing item, the target
resolves to a container, and `canMoveItemToModule` is false for that container,
`handleDragEnd` returns the module sequence and the item collection it was
given; in particular every container's item list is the same as before. -/
theorem handleDragEnd_rejected_move_unchanged (modules : List Module) (items : List Item)
    (activeId overId : String) (activeItem : Item) (targetModuleId : Option String)
    (targetIndex : Int)
    (hsrc : startsWith activeId "item-" = true)
    (hfind : items.find? (fun item => "item-" ++ item.id == activeId) = some activeItem)
    (htgt : resolveTarget items overId = some (targetModuleId, targetIndex))
    (hcan : canMoveItemToModule items activeItem.id targetModuleId = false) :
    handleDragEnd ⟨activeId, some overId⟩ modules items = (modules, items) ∧
    ∀ c, containerItems (handleDragEnd ⟨activeId, some overId⟩ modules items).2 c
      = containerItems items c := by
  have hmod := not_module_of_item hsrc
  have key : handleDragEnd ⟨activeId, some overId⟩ modules items = (modules, items) := by
    unfold handleDragEnd
    simp only [hmod, hsrc, hfind, htgt, hcan]
    simp
  exact ⟨key, fun c => by rw [key]⟩

/-- Scenario B as the instance of C1: module "1" holds "Notes"; dragging the
"Notes" of module "2" onto `module-1` changes nothing. -/
theorem handleDragEnd_rejected_move_unchanged_witness :
    handleDragEnd ⟨"item-b", some "module-1"⟩
        [mkModule "1" "Algebra", mkModule "2" "Calculus"]
        [mkItem "a" (some "1") "Notes", mkItem "b" (some "2") " notes"]
      = ([mkModule "1" "Algebra", mkModule "2" "Calculus"],
         [mkItem "a" (some "1") "Notes", mkItem "b" (some "2") " notes"]) :=
  (handleDragEnd_rejected_move_unchanged
    [mkModule "1" "Algebra", mkModule "2" "Calculus"]
    [mkItem "a" (some "1") "Notes", mkItem "b" (some "2") " notes"]
    "item-b" "module-1" (mkItem "b" (some "2") " notes") (some "1") 1
    (by decide) (by decide) (by decide) (by decide)).1

/-- C2: on an item collection with unique ids that satisfies I1 (no two items
of one container have equal trimmed lower-cased names), `handleDragEnd` with an
item-tagged source produces an item collection that satisfies I1 again. -/
theorem handleDragEnd_preserves_name_uniqueness (event : DragEvent) (modules : List Module)
    (items : List Item) (hids : (items.map Item.id).Nodup) (hI1 : nameUnique items)
    (hsrc : startsWith event.active "item-" = true) :
    nameUnique (handleDragEnd event modules items).2 := by
  obtain ⟨activeId, over⟩ := event
  cases over with
  | none => exact hI1
  | some overId =>
    unfold handleDragEnd
    simp only
    by_cases hne : activeId = overId
    · rw [if_pos hne]; exact hI1
    · rw [if_neg hne]
      have hmod := not_module_of_item hsrc
      have hsrc' : startsWith activeId "item-" = true := hsrc
      simp only [hmod, hsrc', Bool.false_and, Bool.false_eq_true, if_false, if_true]
      cases hf : items.find? (fun item => "item-" ++ item.id == activeId) with
      | none => exact hI1
      | some A =>
        simp only
        cases ht : resolveTarget items overId with
        | none => exact hI1
        | some ct =>
          obtain ⟨c, tgt⟩ := ct
          simp only
          by_cases hcan : canMoveItemToModule items A.id c = true
          · rw [if_pos hcan]
            obtain ⟨t, rfl⟩ := resolveTarget_nonneg ht
            have hA : A ∈ items := List.mem_of_find?_eq_some hf
            obtain ⟨pre, post, rfl, hpre, hpost⟩ := split_of_mem_nodup hids hA
            exact nameUnique_moveItem pre post A c t hpre hpost hI1 hcan
          · rw [if_neg hcan]; exact hI1

/-- An instance of C2: "Syllabus" moves from module "1" into module "2", which
holds "Notes"; names stay unique per container. -/
theorem handleDragEnd_preserves_name_uniqueness_witness :
    nameUnique (handleDragEnd ⟨"item-a", some "module-2"⟩
      [mkModule "1" "Algebra", mkModule "2" "Calculus"]
      [mkItem "a" (some "1") "Syllabus", mkItem "b" (some "2") "Notes",
        mkItem "c" (some "1") "Notes"]).2 :=
  handleDragEnd_preserves_name_uniqueness ⟨"item-a", some "module-2"⟩
    [mkModule "1" "Algebra", mkModule "2" "Calculus"]
    [mkItem "a" (some "1") "Syllabus", mkItem "b" (some "2") "Notes",
      mkItem "c" (some "1") "Notes"]
    (by decide) (by decide) (by decide)

/-- C3: with unique item ids, an accepted drag of an existing item onto
`module-<m>` or onto the root drop zone leaves the modules as they are, gives
the moved item `moduleId = m` (respectively `null`) and makes it the last
element of that container's item list; when the container was empty the list
is the moved item alone (position 0), and the item is no longer in the list of
its former container. -/
theorem handleDragEnd_drop_on_container (modules : List Module) (items : List Item)
    (A : Item) (overId : String) (c : Option String)
    (hids : (items.map Item.id).Nodup) (hA : A ∈ items)
    (hover : (∃ m, overId = "module-" ++ m ∧ c = some m) ∨
      (overId = "root-drop-zone" ∧ c = none))
    (hcan : canMoveItemToModule items A.id c = true) :
    (handleDragEnd ⟨"item-" ++ A.id, some overId⟩ modules items).1 = modules ∧
    reassign A c ∈ (handleDragEnd ⟨"item-" ++ A.id, some overId⟩ modules items).2 ∧
    (∀ x ∈ (handleDragEnd ⟨"item-" ++ A.id, some overId⟩ modules items).2,
      x.id = A.id → x = reassign A c) ∧
    (containerItems (handleDragEnd ⟨"item-" ++ A.id, some overId⟩ modules items).2 c).getLast?
      = some (reassign A c) ∧
    (containerItems items c = [] →
      containerItems (handleDragEnd ⟨"item-" ++ A.id, some overId⟩ modules items).2 c
        = [reassign A c]) ∧
    (A.moduleId ≠ c →
      ∀ x ∈ containerItems (handleDragEnd ⟨"item-" ++ A.id, some overId⟩ modules items).2
        A.moduleId, x.id ≠ A.id) := by
  obtain ⟨pre, post, rfl, hpre, hpost⟩ := split_of_mem_nodup hids hA
  have hfind := find?_item_split pre post A hpre
  have hitem : startsWith ("item-" ++ A.id) "item-" = true := startsWith_append _ _
  obtain ⟨t, htgt, hne, hle⟩ : ∃ t : Nat,
      resolveTarget (pre ++ A :: post) overId = some (c, (t : Int)) ∧
      "item-" ++ A.id ≠ overId ∧ (containerItems (pre ++ post) c).length ≤ t := by
    rcases hover with ⟨m, rfl, rfl⟩ | ⟨rfl, rfl⟩
    · exact ⟨_, resolveTarget_module _ m, ne_of_startsWith hitem (module_not_item m),
        containerItems_split_le pre post A (some m) _ (by intro x hx; simp [hx])⟩
    · exact ⟨_, resolveTarget_root _, ne_of_startsWith hitem (by decide),
        containerItems_split_le pre post A none _ (by intro x hx; simp [hx, truthy])⟩
  rw [handleDragEnd_item_move modules _ A.id overId A c t hne hfind htgt hcan]
  have hcont := moveItem_split_container pre post A c t hpre hpost
  rw [insert_past_end _ _ _ hle] at hcont
  obtain ⟨hmem, huniq⟩ := moveItem_split_moved pre post A c t hpre hpost
  refine ⟨rfl, hmem, huniq, ?_, ?_, ?_⟩
  · show (containerItems (moveItem (pre ++ A :: post) A.id c t) c).getLast? = _
    rw [hcont]; simp
  · intro hempty
    show containerItems (moveItem (pre ++ A :: post) A.id c t) c = _
    rw [hcont]
    have : containerItems (pre ++ post) c = [] := by
      rw [others_split pre post A c hpre hpost, hempty]; rfl
    rw [this]; rfl
  · intro hAc x hx hid
    have hx' := mem_containerItems.mp hx
    have := huniq x hx'.1 hid
    rw [this] at hx'
    exact hAc hx'.2.symm

/-- Scenario A as the instance of C3: dragging `item-a` from module "1" onto
the empty `module-2`. -/
theorem handleDragEnd_drop_on_container_witness :
    containerItems (handleDragEnd ⟨"item-a", some "module-2"⟩
        [mkModule "1" "Algebra", mkModule "2" "Calculus"]
        [mkItem "a" (some "1") "Syllabus"]).2 (some "2")
      = [reassign (mkItem "a" (some "1") "Syllabus") (some "2")] :=
  (handleDragEnd_drop_on_container
    [mkModule "1" "Algebra", mkModule "2" "Calculus"]
    [mkItem "a" (some "1") "Syllabus"] (mkItem "a" (some "1") "Syllabus") "module-2" (some "2")
    (by decide) (by decide) (Or.inl ⟨"2", by decide, rfl⟩) (by decide)).2.2.2.2.1 (by decide)

/-- C4: with unique item ids, an accepted drag of an existing item `A` onto a
different existing item `B` gives `A` the `moduleId` of `B`, and the index of
`A` in that container's item list afterwards is the index `B` had in that
container's item list before the gesture, whichever container `A` came from. -/
theorem handleDragEnd_drop_on_item (modules : List Module) (items : List Item)
    (A B : Item) (hids : (items.map Item.id).Nodup) (hA : A ∈ items) (hB : B ∈ items)
    (hAB : A.id ≠ B.id)
    (hcan : canMoveItemToModule items A.id B.moduleId = true) :
    reassign A B.moduleId ∈
      (handleDragEnd ⟨"item-" ++ A.id, some ("item-" ++ B.id)⟩ modules items).2 ∧
    (∀ x ∈ (handleDragEnd ⟨"item-" ++ A.id, some ("item-" ++ B.id)⟩ modules items).2,
      x.id = A.id → x = reassign A B.moduleId) ∧
    0 ≤ findIndex (fun x => x.id == B.id) (containerItems items B.moduleId) ∧
    findIndex (fun x => x.id == A.id)
        (containerItems
          (handleDragEnd ⟨"item-" ++ A.id, some ("item-" ++ B.id)⟩ modules items).2 B.moduleId)
      = findIndex (fun x => x.id == B.id) (containerItems items B.moduleId) ∧
    (containerItems
        (handleDragEnd ⟨"item-" ++ A.id, some ("item-" ++ B.id)⟩ modules items).2
        B.moduleId).get?
        (findIndex (fun x => x.id == B.id) (containerItems items B.moduleId)).toNat
      = some (reassign A B.moduleId) := by
  obtain ⟨j, hres, hj, hjlt⟩ : ∃ j : Nat,
      resolveTarget items ("item-" ++ B.id) = some (B.moduleId, (j : Int)) ∧
      findIndex (fun x => x.id == B.id) (containerItems items B.moduleId) = (j : Int) ∧
      j < (containerItems items B.moduleId).length := by
    obtain ⟨preB, postB, hB_eq, hpreB, _⟩ := split_of_mem_nodup hids hB
    refine ⟨(containerItems preB B.moduleId).length, ?_, ?_, ?_⟩
    · rw [hB_eq]; exact resolveTarget_item preB postB B hpreB
    · rw [hB_eq]
      have : containerItems (preB ++ B :: postB) B.moduleId
          = containerItems preB B.moduleId ++ B :: containerItems postB B.moduleId := by
        simp [containerItems, List.filter_append, List.filter_cons]
      rw [this]
      apply findIndex_append_cons
      · intro x hx; simpa using hpreB x (mem_containerItems.mp hx).1
      · simp
    · rw [hB_eq]
      simp [containerItems, List.filter_append, List.filter_cons]
  obtain ⟨pre, post, rfl, hpre, hpost⟩ := split_of_mem_nodup hids hA
  have hfind := find?_item_split pre post A hpre
  have hne : "item-" ++ A.id ≠ "item-" ++ B.id := fun h => hAB (append_left_cancel h)
  rw [handleDragEnd_item_move modules _ A.id _ A B.moduleId j hne hfind hres hcan, hj]
  have hcont := moveItem_split_container pre post A B.moduleId j hpre hpost
  obtain ⟨hmem, huniq⟩ := moveItem_split_moved pre post A B.moduleId j hpre hpost
  have hle : j ≤ (containerItems (pre ++ post) B.moduleId).length := by
    have := containerItems_split_succ pre post A B.moduleId
    omega
  refine ⟨hmem, huniq, by omega, ?_, ?_⟩
  · show findIndex _ (containerItems (moveItem (pre ++ A :: post) A.id B.moduleId j) _) = _
    rw [hcont]
    have hlen : ((containerItems (pre ++ post) B.moduleId).take j).length = j := by
      simp [hle]
    have := findIndex_append_cons (p := fun x : Item => x.id == A.id)
      ((containerItems (pre ++ post) B.moduleId).take j)
      ((containerItems (pre ++ post) B.moduleId).drop j) (reassign A B.moduleId)
      (by
        intro x hx
        have hx' : x ∈ pre ++ post := (mem_containerItems.mp (List.mem_of_mem_take hx)).1
        rcases List.mem_append.mp hx' with h | h
        · simpa using hpre x h
        · simpa using hpost x h)
      (by simp [reassign])
    rw [this, hlen]
  · show (containerItems (moveItem (pre ++ A :: post) A.id B.moduleId j) _).get? _ = _
    rw [hcont, Int.toNat_ofNat]
    exact insert_get _ _ _ hle

/-- An instance of C4: `a` of module "1" is dropped on `c`, the second item of
module "2", and becomes the second item of module "2". -/
theorem handleDragEnd_drop_on_item_witness :
    findIndex (fun x => x.id == "a")
        (containerItems
          (handleDragEnd ⟨"item-a", some "item-c"⟩ []
            [mkItem "a" (some "1") "Syllabus", mkItem "b" (some "2") "Notes",
              mkItem "c" (some "2") "Slides"]).2 (some "2"))
      = 1 :=
  (handleDragEnd_drop_on_item []
    [mkItem "a" (some "1") "Syllabus", mkItem "b" (some "2") "Notes",
      mkItem "c" (some "2") "Slides"]
    (mkItem "a" (some "1") "Syllabus") (mkItem "c" (some "2") "Slides")
    (by decide) (by decide) (by decide) (by decide) (by decide)).2.2.2.1

/-- C6: with unique item ids, an accepted item move (the target resolves to
container `c` and `canMoveItemToModule` holds) yields a permutation of the
input collection in which the moved item has `moduleId = c` and every other
item is the input record; the items outside the destination container form the
same sequence as before, and so do the destination container's other items. -/
theorem handleDragEnd_move_frame (modules : List Module) (items : List Item)
    (A : Item) (overId : String) (c : Option String) (tgt : Int)
    (hids : (items.map Item.id).Nodup) (hA : A ∈ items)
    (hne : "item-" ++ A.id ≠ overId)
    (htgt : resolveTarget items overId = some (c, tgt))
    (hcan : canMoveItemToModule items A.id c = true) :
    ((handleDragEnd ⟨"item-" ++ A.id, some overId⟩ modules items).2).Perm
      (items.map (fun x => if x.id = A.id then reassign x c else x)) ∧
    ((handleDragEnd ⟨"item-" ++ A.id, some overId⟩ modules items).2).filter
        (fun x => x.moduleId != c)
      = items.filter (fun x => x.moduleId != c && x.id != A.id) ∧
    (containerItems (handleDragEnd ⟨"item-" ++ A.id, some overId⟩ modules items).2 c).filter
        (fun x => x.id != A.id)
      = (containerItems items c).filter (fun x => x.id != A.id) := by
  obtain ⟨t, rfl⟩ := resolveTarget_nonneg htgt
  obtain ⟨pre, post, rfl, hpre, hpost⟩ := split_of_mem_nodup hids hA
  have hfind := find?_item_split pre post A hpre
  rw [handleDragEnd_item_move modules _ A.id overId A c t hne hfind htgt hcan]
  refine ⟨?_, ?_, ?_⟩
  · have := map_reassign_split pre post A c hpre hpost
    show (moveItem (pre ++ A :: post) A.id c t).Perm _
    unfold reassign
    rw [this]
    exact moveItem_split_perm pre post A c t hpre hpost
  · show (moveItem (pre ++ A :: post) A.id c t).filter _ = _
    rw [moveItem_split_others pre post A c t hpre hpost]
    have h : ∀ l : List Item, (∀ x ∈ l, x.id ≠ A.id) →
        l.filter (fun x => x.moduleId != c && x.id != A.id)
          = l.filter (fun x => x.moduleId != c) := by
      intro l hl
      apply List.filter_congr
      intro x hx
      simp [hl x hx]
    rw [List.filter_append, List.filter_append, List.filter_cons, h pre hpre, h post hpost]
    simp
  · show (containerItems (moveItem (pre ++ A :: post) A.id c t) c).filter _ = _
    rw [moveItem_split_container pre post A c t hpre hpost,
      ← others_split pre post A c hpre hpost, List.filter_append, List.filter_cons]
    have hD : ∀ l : List Item, (∀ x ∈ l, x ∈ containerItems (pre ++ post) c) →
        l.filter (fun x => x.id != A.id) = l := by
      intro l hl
      apply List.filter_eq_self.mpr
      intro x hx
      have hx' : x ∈ pre ++ post := (mem_containerItems.mp (hl x hx)).1
      rcases List.mem_append.mp hx' with h | h
      · simpa using hpre x h
      · simpa using hpost x h
    rw [hD _ (fun x hx => List.mem_of_mem_take hx), hD _ (fun x hx => List.mem_of_mem_drop hx)]
    simp [reassign]

/-- An instance of C6: `c` is dragged from module "2" onto `a` in module "1";
the items outside module "1" are, in order, what they were without `c`. -/
theorem handleDragEnd_move_frame_witness :
    ((handleDragEnd ⟨"item-c", some "item-a"⟩ []
        [mkItem "a" (some "1") "Syllabus", mkItem "b" (some "2") "Notes",
          mkItem "c" (some "2") "Slides", mkItem "d" none "Intro"]).2).filter
        (fun x => x.moduleId != some "1")
      = [mkItem "b" (some "2") "Notes", mkItem "d" none "Intro"] :=
  (handleDragEnd_move_frame []
    [mkItem "a" (some "1") "Syllabus", mkItem "b" (some "2") "Notes",
      mkItem "c" (some "2") "Slides", mkItem "d" none "Intro"]
    (mkItem "c" (some "2") "Slides") "item-a" (some "1") 0
    (by decide) (by decide) (by decide) (by decide) (by decide)).2.1

/-- C5: with unique module ids, a gesture from `module-<S.id>` onto
`module-<T.id>`, where `S` and `T` are the modules at the distinct positions
`i` and `j`, yields the module sequence with `S` removed and re-inserted at
index `j`: `S` sits at position `j`, the result is a permutation of the input
of the same length, the remaining modules keep their order, and the item
collection is unchanged. -/
theorem handleDragEnd_module_reorder (modules : List Module) (items : List Item)
    (S T : Module) (i j : Nat) (hids : (modules.map Module.id).Nodup)
    (hi : modules.get? i = some S) (hj : modules.get? j = some T) (hij : i ≠ j) :
    (handleDragEnd ⟨"module-" ++ S.id, some ("module-" ++ T.id)⟩ modules items).1
      = (modules.eraseIdx i).take j ++ S :: (modules.eraseIdx i).drop j ∧
    ((handleDragEnd ⟨"module-" ++ S.id, some ("module-" ++ T.id)⟩ modules items).1).get? j
      = some S ∧
    ((handleDragEnd ⟨"module-" ++ S.id, some ("module-" ++ T.id)⟩ modules items).1).Perm
      modules ∧
    ((handleDragEnd ⟨"module-" ++ S.id, some ("module-" ++ T.id)⟩ modules items).1).length
      = modules.length ∧
    ((handleDragEnd ⟨"module-" ++ S.id, some ("module-" ++ T.id)⟩ modules items).1).eraseIdx j
      = modules.eraseIdx i ∧
    (handleDragEnd ⟨"module-" ++ S.id, some ("module-" ++ T.id)⟩ modules items).2 = items := by
  have hfi := findIndex_of_get_nodup Module.id modules S i hids hi
  have hfj := findIndex_of_get_nodup Module.id modules T j hids hj
  have hST : S.id ≠ T.id := by
    intro he
    rw [he, hfj] at hfi
    exact hij (by exact_mod_cast hfi.symm)
  have hne : "module-" ++ S.id ≠ "module-" ++ T.id := fun h => hST (append_left_cancel h)
  have hval : handleDragEnd ⟨"module-" ++ S.id, some ("module-" ++ T.id)⟩ modules items
      = (arrayMove modules i j, items) := by
    unfold handleDragEnd
    simp only [if_neg hne, startsWith_append, Bool.and_self, if_true, prefixed_beq, hfi, hfj]
    have hc : ((i : Int) ≠ -1 ∧ (j : Int) ≠ -1 ∧ (i : Int) ≠ (j : Int)) :=
      ⟨by omega, by omega, by exact_mod_cast hij⟩
    rw [if_pos hc]
    simp
  have hjlt : j < modules.length := by
    obtain ⟨P, Q, rfl, rfl⟩ := split_at_get hj
    simp
  have hmove : arrayMove modules i j
      = (modules.eraseIdx i).take j ++ S :: (modules.eraseIdx i).drop j := by
    unfold arrayMove; rw [hi]
  obtain ⟨P, Q, hPQ, hP⟩ := split_at_get hi
  have herase : modules.eraseIdx i = P ++ Q := by
    rw [hPQ, ← hP, List.eraseIdx_append_of_length_le (le_refl _)]
    simp
  have hle : j ≤ (modules.eraseIdx i).length := by
    rw [herase]
    rw [hPQ] at hjlt
    simp only [List.length_append, List.length_cons] at hjlt ⊢
    omega
  have hperm : (S :: modules.eraseIdx i).Perm modules := by
    rw [herase, hPQ]
    exact List.perm_middle.symm
  rw [hval]
  refine ⟨hmove, ?_, ?_, ?_, ?_, rfl⟩
  · show (arrayMove modules i j).get? j = some S
    rw [hmove]; exact insert_get _ _ _ hle
  · show (arrayMove modules i j).Perm modules
    rw [hmove]; exact (insert_perm _ _ _).trans hperm
  · show (arrayMove modules i j).length = modules.length
    rw [hmove]; exact ((insert_perm _ _ _).trans hperm).length_eq
  · show (arrayMove modules i j).eraseIdx j = modules.eraseIdx i
    rw [hmove]; exact insert_eraseIdx _ _ _ hle

/-- An instance of C5: the first of three modules is dragged onto the third. -/
theorem handleDragEnd_module_reorder_witness :
    (handleDragEnd ⟨"module-1", some "module-3"⟩
        [mkModule "1" "Algebra", mkModule "2" "Calculus", mkModule "3" "Geometry"] []).1
      = [mkModule "2" "Calculus", mkModule "3" "Geometry", mkModule "1" "Algebra"] :=
  (handleDragEnd_module_reorder
    [mkModule "1" "Algebra", mkModule "2" "Calculus", mkModule "3" "Geometry"] []
    (mkModule "1" "Algebra") (mkModule "3" "Geometry") 0 2
    (by decide) (by decide) (by decide) (by decide)).1

/-- C7: `handleDragEnd` returns the module sequence and item collection it was
given when (a) there is no target or the target id is the source id, (b) the
source is module-tagged and the target is not the module-tagged id of an
existing module, (c) the source is item-tagged and the target is neither the
item-tagged id of an existing item, nor module-tagged, nor the root drop zone,
(d) the source is item-tagged and names no existing item, or (e) the source is
neither module-tagged nor item-tagged. -/
theorem handleDragEnd_noop (event : DragEvent) (modules : List Module) (items : List Item)
    (h : event.over = none ∨ event.over = some event.active ∨
      (startsWith event.active "module-" = true ∧
        ∀ overId, event.over = some overId →
          ¬ (startsWith overId "module-" = true ∧
              ∃ m ∈ modules, "module-" ++ m.id = overId)) ∨
      (startsWith event.active "item-" = true ∧
        ∀ overId, event.over = some overId →
          ¬ (startsWith overId "item-" = true ∧ ∃ x ∈ items, "item-" ++ x.id = overId) ∧
          startsWith overId "module-" = false ∧ overId ≠ "root-drop-zone") ∨
      (startsWith event.active "item-" = true ∧
        ∀ x ∈ items, "item-" ++ x.id ≠ event.active) ∨
      (startsWith event.active "module-" = false ∧
        startsWith event.active "item-" = false)) :
    handleDragEnd event modules items = (modules, items) := by
  obtain ⟨activeId, over⟩ := event
  cases over with
  | none => rfl
  | some overId =>
    simp only at h
    unfold handleDragEnd
    simp only
    by_cases hne : activeId = overId
    · rw [if_pos hne]
    rw [if_neg hne]
    rcases h with h | h | ⟨hm, h⟩ | ⟨hi, h⟩ | ⟨hi, h⟩ | ⟨hm, hi⟩
    · cases h
    · exact absurd (Option.some.inj h).symm hne
    · have hi := not_item_of_module hm
      have h' := h overId rfl
      by_cases ho : startsWith overId "module-" = true
      · have hnone : findIndex (fun m : Module => "module-" ++ m.id == overId) modules = -1 := by
          apply findIndex_none
          intro m hmem
          have : "module-" ++ m.id ≠ overId := fun he => h' ⟨ho, m, hmem, he⟩
          simpa using this
        simp [hm, ho, hnone]
      · have ho' : startsWith overId "module-" = false := by simpa using ho
        simp [hm, ho', hi]
    · have hm := not_module_of_item hi
      obtain ⟨h1, h2, h3⟩ := h overId rfl
      have hres : resolveTarget items overId = none := by
        unfold resolveTarget
        by_cases ho : startsWith overId "item-" = true
        · have hf : items.find? (fun item => "item-" ++ item.id == overId) = none := by
            rw [List.find?_eq_none]
            intro x hx
            have : "item-" ++ x.id ≠ overId := fun he => h1 ⟨ho, x, hx, he⟩
            simpa using this
          simp [ho, hf]
        · have ho' : startsWith overId "item-" = false := by simpa using ho
          simp [ho', h2, h3]
      simp only [hm, hi, Bool.false_and, Bool.false_eq_true, if_false, if_true]
      cases hf : items.find? (fun item => "item-" ++ item.id == activeId) with
      | none => rfl
      | some A => simp only [hres]
    · have hm := not_module_of_item hi
      have hf : items.find? (fun item => "item-" ++ item.id == activeId) = none := by
        rw [List.find?_eq_none]
        intro x hx
        simpa using h x hx
      simp [hm, hi, hf]
    · simp [hm, hi]

/-- An instance of C7 (b): a module dragged onto an item is ignored. -/
theorem handleDragEnd_noop_witness :
    handleDragEnd ⟨"module-1", some "item-a"⟩
        [mkModule "1" "Algebra", mkModule "2" "Calculus"] [mkItem "a" (some "2") "Notes"]
      = ([mkModule "1" "Algebra", mkModule "2" "Calculus"], [mkItem "a" (some "2") "Notes"]) :=
  handleDragEnd_noop ⟨"module-1", some "item-a"⟩
    [mkModule "1" "Algebra", mkModule "2" "Calculus"] [mkItem "a" (some "2") "Notes"]
    (Or.inr (Or.inr (Or.inl ⟨by decide, fun overId ho hc => by
      have : overId = "item-a" := (Option.some.inj ho).symm
      subst this
      exact absurd hc.1 (by decide)⟩)))

/-- C8: `canMoveItemToModule` is false when no item has the id; with `item` the
first item carrying the id, it is true when `item.moduleId` is the target
container, and otherwise it is true exactly when
`checkDuplicateItemInModule(items, target, item.name, itemId)` is false, that
is when no item of the target container other than those the id excludes has the
same trimmed lower-cased name. -/
theorem canMoveItemToModule_spec (items : List Item) (itemId : String)
    (target : Option String) :
    ((∀ x ∈ items, x.id ≠ itemId) → canMoveItemToModule items itemId target = false) ∧
    (∀ pre item post, items = pre ++ item :: post → (∀ x ∈ pre, x.id ≠ itemId) →
      item.id = itemId →
      (item.moduleId = target → canMoveItemToModule items itemId target = true) ∧
      (item.moduleId ≠ target →
        (canMoveItemToModule items itemId target = true ↔
          checkDuplicateItemInModule items target item.name (some itemId) = false) ∧
        (canMoveItemToModule items itemId target = true ↔
          ¬ ∃ x ∈ items, x.moduleId = target ∧ ¬ (itemId ≠ "" ∧ x.id = itemId) ∧
            normalizedName x.name = normalizedName item.name))) := by
  constructor
  · intro h
    unfold canMoveItemToModule
    have hf : items.find? (fun i => i.id == itemId) = none := by
      rw [List.find?_eq_none]
      intro x hx
      simpa using h x hx
    rw [hf]
  · intro pre item post hsplit hpre hid
    subst hid
    subst hsplit
    have hval := canMove_split pre post item target hpre
    constructor
    · intro hm
      rw [hval, if_pos hm]
    · intro hm
      rw [hval, if_neg hm]
      constructor
      · simp
      · rw [← checkDuplicate_iff_not_excluded]
        simp

/-- An instance of C8 on the collection of the source's test "should prevent
moving item to module with duplicate name". -/
theorem canMoveItemToModule_spec_witness :
    canMoveItemToModule
        [mkItem "1" (some "module-1") "Same Name", mkItem "2" (some "module-2") "Same Name"]
        "1" (some "module-2") = true ↔
      checkDuplicateItemInModule
        [mkItem "1" (some "module-1") "Same Name", mkItem "2" (some "module-2") "Same Name"]
        (some "module-2") "Same Name" (some "1") = false :=
  (((canMoveItemToModule_spec
    [mkItem "1" (some "module-1") "Same Name", mkItem "2" (some "module-2") "Same Name"]
    "1" (some "module-2")).2 [] (mkItem "1" (some "module-1") "Same Name")
    [mkItem "2" (some "module-2") "Same Name"] rfl (by decide) rfl).2 (by decide)).1

/-- C9 as stated fails for the empty-string excluded id: the guard
`excludeItemId && ...` treats `""` as absent, so the item with id `""` is not
excluded and makes the result true, although no item with an id other than the
excluded id carries the name. -/
theorem checkDuplicateItemInModule_empty_excludeId_counterexample :
    ¬ (∀ (items : List Item) (c : Option String) (name : String) (ex : Option String),
        checkDuplicateItemInModule items c name ex = true ↔
          ∃ x ∈ items, x.moduleId = c ∧ some x.id ≠ ex ∧
            normalizedName x.name = normalizedName name) := by
  intro h
  have h1 := (h [mkItem "" (some "m") "Notes"] (some "m") "Notes" (some "")).mp (by decide)
  obtain ⟨x, hx, _, hne, _⟩ := h1
  rw [List.mem_singleton] at hx
  subst hx
  exact hne rfl

/-- C9, amended: `checkDuplicateItemInModule` is true exactly when some item of
the container that is not excluded has the candidate's trimmed lower-cased name,
where an item is excluded when the excluded id is a non-empty string equal to
its id. For an absent or non-empty excluded id that is the statement of the
claim; an empty-string excluded id behaves as an absent one. Items of other
containers never matter: the result is the result on the container's own
items. -/
theorem checkDuplicateItemInModule_spec (items : List Item) (c : Option String)
    (name : String) (ex : Option String) :
    (checkDuplicateItemInModule items c name ex = true ↔
      ∃ x ∈ items, x.moduleId = c ∧ ¬ (truthy ex = true ∧ some x.id = ex) ∧
        normalizedName x.name = normalizedName name) ∧
    (ex ≠ some "" →
      (checkDuplicateItemInModule items c name ex = true ↔
        ∃ x ∈ items, x.moduleId = c ∧ some x.id ≠ ex ∧
          normalizedName x.name = normalizedName name)) ∧
    checkDuplicateItemInModule items c name (some "")
      = checkDuplicateItemInModule items c name none ∧
    checkDuplicateItemInModule items c name ex
      = checkDuplicateItemInModule (containerItems items c) c name ex := by
  refine ⟨checkDuplicate_iff items c name ex, ?_, ?_, ?_⟩
  · intro hex
    rw [checkDuplicate_iff]
    have ht : ∀ x : Item, ¬ (truthy ex = true ∧ some x.id = ex) ↔ some x.id ≠ ex := by
      intro x
      cases ex with
      | none => simp
      | some s =>
        have hs : s ≠ "" := fun e => hex (by rw [e])
        simp [truthy, hs]
    simp only [ht]
  · rw [Bool.eq_iff_iff, checkDuplicate_iff, checkDuplicate_iff]
    simp [truthy]
  · rw [Bool.eq_iff_iff, checkDuplicate_iff, checkDuplicate_iff]
    simp only [mem_containerItems]
    constructor
    · rintro ⟨x, hx, hc, h⟩; exact ⟨x, ⟨hx, hc⟩, hc, h⟩
    · rintro ⟨x, ⟨hx, _⟩, hc, h⟩; exact ⟨x, hx, hc, h⟩

/-- An instance of amended C9 on the source's test "should exclude item when
editing": with item "1" excluded, "Test Name" is no duplicate in `module-1`. -/
theorem checkDuplicateItemInModule_spec_witness :
    checkDuplicateItemInModule
        [mkItem "1" (some "module-1") "Test Name", mkItem "2" (some "module-1") "Other Name"]
        (some "module-1") "Test Name" (some "1") = true ↔
      ∃ x ∈ [mkItem "1" (some "module-1") "Test Name",
          mkItem "2" (some "module-1") "Other Name"],
        x.moduleId = some "module-1" ∧ some x.id ≠ some "1" ∧
          normalizedName x.name = normalizedName "Test Name" :=
  (checkDuplicateItemInModule_spec
    [mkItem "1" (some "module-1") "Test Name", mkItem "2" (some "module-1") "Other Name"]
    (some "module-1") "Test Name" (some "1")).2.1 (by decide)

/-- C10 fails on the code. On the tree built from the module list of the
source's test "should search modules efficiently", `search("quations")` is
empty, although the lower-cased name of "Differential Equations" contains
"quations": that module is the left child of "Linear Algebra", and the left
subtree is skipped because "quations" does not sort before "linear algebra". -/
theorem search_misses_substring_in_left_subtree :
    (buildTree [mkModule "1" "Advanced Algebra", mkModule "2" "Basic Calculus",
        mkModule "3" "Linear Algebra", mkModule "4" "Differential Equations"]).search
        "quations" = [] ∧
    includes (toLowerCase (mkModule "4" "Differential Equations").name)
      (toLowerCase "quations") = true ∧
    (buildTree [mkModule "1" "Advanced Algebra", mkModule "2" "Basic Calculus",
        mkModule "3" "Linear Algebra", mkModule "4" "Differential Equations"]).search
        "algebra" = [mkModule "1" "Advanced Algebra", mkModule "3" "Linear Algebra"] := by
  decide

/-- C11: on the tree built by inserting `ms` into an empty tree, every module
that `search(term)` returns was inserted and its lower-cased name contains the
lower-cased term; the result is a sub-sequence of the pre-order traversal of
the tree, which holds each inserted module once, so no node is reported twice;
on the empty tree the result is empty for every term. -/
theorem search_sound (ms : List Module) (term : String) :
    (∀ m ∈ (buildTree ms).search term,
      m ∈ ms ∧ includes (toLowerCase m.name) (toLowerCase term) = true) ∧
    ((buildTree ms).search term).Sublist (preorder (buildTree ms).root) ∧
    (preorder (buildTree ms).root).Perm ms ∧
    ModuleSearchTree.empty.search term = [] := by
  have hsub := searchNode_sublist (buildTree ms).root (toLowerCase term)
  have hperm := preorder_buildTree ms
  refine ⟨?_, ?_, hperm, rfl⟩
  · intro m hm
    have hm' := List.mem_filter.mp (hsub.subset hm)
    exact ⟨hperm.subset hm'.1, hm'.2⟩
  · exact hsub.trans (List.filter_sublist _)

/-- An instance of C11 on the tree of the source's test "should search modules
efficiently": "Linear Algebra", returned for the term "algebra", was inserted
and contains the term. -/
theorem search_sound_witness :
    mkModule "3" "Linear Algebra" ∈
        [mkModule "1" "Advanced Algebra", mkModule "2" "Basic Calculus",
          mkModule "3" "Linear Algebra", mkModule "4" "Differential Equations"] ∧
      includes (toLowerCase (mkModule "3" "Linear Algebra").name) (toLowerCase "algebra")
        = true :=
  (search_sound
    [mkModule "1" "Advanced Algebra", mkModule "2" "Basic Calculus",
      mkModule "3" "Linear Algebra", mkModule "4" "Differential Equations"] "algebra").1
    (mkModule "3" "Linear Algebra") (by decide)

/-- C12: after inserting `ms` into an empty tree, the nodes of the tree are the
inserted modules, one node each; the root holds the first inserted module; at
every node the lower-cased names of the left subtree are strictly less than the
node's and those of the right subtree are equal to it or greater; and an
`insert` leaves every existing node at its position (the path from the root). -/
theorem insert_builds_ordered_tree (ms : List Module) :
    (preorder (buildTree ms).root).Perm ms ∧
    (∀ m rest, ms = m :: rest → moduleAt (buildTree ms).root [] = some m) ∧
    ordered (buildTree ms).root ∧
    (∀ (m x : Module) (path : List Bool),
      moduleAt (buildTree ms).root path = some x →
      moduleAt ((buildTree ms).insert m).root path = some x) := by
  refine ⟨preorder_buildTree ms, ?_, ?_, ?_⟩
  · intro m rest hms
    subst hms
    unfold buildTree
    rw [List.foldl_cons]
    apply moduleAt_foldl_insert
    rfl
  · exact ordered_foldl_insert ms ModuleSearchTree.empty trivial
  · intro m x path h
    rw [insert_root]
    exact moduleAt_insertNode _ _ _ _ h

/-- An instance of C12 on the modules of the source's test "should insert
modules correctly": the root holds "Algebra", the first module inserted. -/
theorem insert_builds_ordered_tree_witness :
    moduleAt (buildTree [mkModule "1" "Algebra", mkModule "2" "Calculus",
      mkModule "3" "Geometry"]).root [] = some (mkModule "1" "Algebra") :=
  (insert_builds_ordered_tree [mkModule "1" "Algebra", mkModule "2" "Calculus",
    mkModule "3" "Geometry"]).2.1 (mkModule "1" "Algebra")
    [mkModule "2" "Calculus", mkModule "3" "Geometry"] rfl

/-- C13: in a state with `-1 ≤ currentIndex < length` and `maxSize ≥ 1`,
`push(record)` makes the records the old records at positions
`0..currentIndex` followed by the new record, without the oldest of them when
their number exceeds `maxSize`; `currentIndex` is then the last position,
`canRedo()` is false and `canUndo()` is true. -/
theorem push_spec {α : Type} (q : OperationQueue α) (record : α)
    (h1 : -1 ≤ q.currentIndex) (h2 : q.currentIndex < (q.operations.length : Int))
    (h3 : 1 ≤ q.maxSize) :
    (q.push record).operations =
      (if (((q.operations.take (q.currentIndex + 1).toNat ++ [record]).length : Nat) : Int)
          > q.maxSize
        then (q.operations.take (q.currentIndex + 1).toNat ++ [record]).tail
        else q.operations.take (q.currentIndex + 1).toNat ++ [record]) ∧
    (q.push record).currentIndex = ((q.push record).operations.length : Int) - 1 ∧
    (q.push record).maxSize = q.maxSize ∧
    (q.push record).canRedo = false ∧
    (q.push record).canUndo = true := by
  obtain ⟨e, he⟩ : ∃ e : Nat, q.currentIndex + 1 = (e : Int) :=
    ⟨(q.currentIndex + 1).toNat, by omega⟩
  have hlen : (q.operations.take e).length = e := by
    rw [List.length_take]; omega
  have hl : (q.operations.take e ++ [record]).length = e + 1 := by
    rw [List.length_append, hlen]; rfl
  have hval : q.push record =
      if ((e + 1 : Nat) : Int) > q.maxSize then
        { q with operations := (q.operations.take e ++ [record]).tail,
                 currentIndex := (e : Int) - 1 }
      else
        { q with operations := q.operations.take e ++ [record], currentIndex := (e : Int) } := by
    unfold OperationQueue.push
    simp only [he, sliceTo_natCast, hl]
  rw [he, Int.toNat_ofNat, hval, hl]
  unfold OperationQueue.canRedo OperationQueue.canUndo
  by_cases hgt : ((e + 1 : Nat) : Int) > q.maxSize
  · rw [if_pos hgt]
    simp only [List.length_tail, hl, if_pos hgt]
    refine ⟨trivial, by omega, trivial, ?_, ?_⟩
    · simp
    · simp only [ge_iff_le, decide_eq_true_eq]
      omega
  · rw [if_neg hgt]
    simp only [hl, if_neg hgt]
    refine ⟨trivial, by omega, trivial, ?_, ?_⟩
    · simp
    · simp only [ge_iff_le, decide_eq_true_eq]
      omega

/-- An instance of C13: after `OP1, OP2` and one `undo()`, pushing `OP3`
discards `OP2`. -/
theorem push_spec_witness :
    (({ operations := ["OP1", "OP2"], maxSize := 3, currentIndex := 0 } :
        OperationQueue String).push "OP3").operations = ["OP1", "OP3"] :=
  (push_spec ({ operations := ["OP1", "OP2"], maxSize := 3, currentIndex := 0 } :
    OperationQueue String) "OP3" (by decide) (by decide) (by decide)).1

/-- C14: pushing `maxSize + k` records into a new `OperationQueue(maxSize)`,
`maxSize ≥ 1`, leaves exactly `maxSize` records, the last `maxSize` records
pushed in push order, with `currentIndex = maxSize - 1`; the next `undo()`
returns the last record pushed. -/
theorem pushAll_keeps_last_maxSize {α : Type} (n : Nat) (records : List α)
    (hn : 1 ≤ n) (hk : n ≤ records.length) :
    ((OperationQueue.new (n : Int)).pushAll records).operations
      = records.drop (records.length - n) ∧
    ((OperationQueue.new (n : Int)).pushAll records).operations.length = n ∧
    ((OperationQueue.new (n : Int)).pushAll records).currentIndex = (n : Int) - 1 ∧
    ∃ last, records.getLast? = some last ∧
      ((OperationQueue.new (n : Int)).pushAll records).undo.1 = JsValue.value last := by
  rw [pushAll_new]
  have hmin : min records.length n = n := Nat.min_eq_right hk
  refine ⟨rfl, ?_, ?_, ?_⟩
  · simp only [List.length_drop]; omega
  · simp only [hmin]
  · have hne : records ≠ [] := by
      intro h; rw [h] at hk; simp at hk; omega
    refine ⟨records.getLast hne, List.getLast?_eq_getLast _ hne, ?_⟩
    unfold OperationQueue.undo
    simp only [hmin]
    have hge : ((n : Int) - 1 ≥ 0) := by omega
    rw [if_pos hge]
    simp only
    have hidx : (n : Int) - 1 - 1 + 1 = ((n - 1 : Nat) : Int) := by omega
    rw [hidx]
    apply arrayAt_natCast
    rw [List.get?_eq_getElem?, List.getElem?_drop, List.getLast_eq_getElem,
      List.getElem?_eq_getElem (by omega)]
    congr 2
    omega

/-- Scenario C as the instance of C14: capacity 3 and pushes `OP1..OP4`. -/
theorem pushAll_keeps_last_maxSize_witness :
    ((OperationQueue.new 3).pushAll ["OP1", "OP2", "OP3", "OP4"]).operations
      = ["OP2", "OP3", "OP4"] :=
  (pushAll_keeps_last_maxSize 3 ["OP1", "OP2", "OP3", "OP4"] (by decide) (by decide)).1

/-- C15: after pushing `maxSize + k` records into a new
`OperationQueue(maxSize)`, `maxSize ≥ 1`, `maxSize` calls of `undo()` return
the retained records newest first and leave `canUndo()` false; `maxSize` calls
of `redo()` then return the retained records in push order and leave
`canRedo()` false. -/
theorem undo_all_then_redo_all {α : Type} (n : Nat) (records : List α)
    (hn : 1 ≤ n) (hk : n ≤ records.length) :
    (((OperationQueue.new (n : Int)).pushAll records).undoTimes n).1
      = ((records.drop (records.length - n)).reverse).map JsValue.value ∧
    (((OperationQueue.new (n : Int)).pushAll records).undoTimes n).2.canUndo = false ∧
    ((((OperationQueue.new (n : Int)).pushAll records).undoTimes n).2.redoTimes n).1
      = (records.drop (records.length - n)).map JsValue.value ∧
    ((((OperationQueue.new (n : Int)).pushAll records).undoTimes n).2.redoTimes n).2.canRedo
      = false ∧
    ((((OperationQueue.new (n : Int)).pushAll records).undoTimes n).2.redoTimes n).2
      = (OperationQueue.new (n : Int)).pushAll records := by
  rw [pushAll_new]
  have hmin : min records.length n = n := Nat.min_eq_right hk
  have hlen : (records.drop (records.length - n)).length = n := by
    rw [List.length_drop]; omega
  rw [hmin]
  rw [undoTimes_spec n _ rfl (by simp only [hlen]; exact le_refl _)]
  simp only
  have htake : (records.drop (records.length - n)).take n = records.drop (records.length - n) := by
    rw [List.take_of_length_le (by omega)]
  rw [htake]
  rw [redoTimes_spec n 0 _ (by simp) (by simp only [hlen]; omega)]
  simp only [List.drop_zero, hlen]
  refine ⟨trivial, ?_, trivial, ?_, trivial⟩
  · simp [OperationQueue.canUndo]
  · simp [OperationQueue.canRedo, hlen]

/-- An instance of C15: capacity 2 and pushes `OP1, OP2, OP3`. -/
theorem undo_all_then_redo_all_witness :
    (((OperationQueue.new 2).pushAll ["OP1", "OP2", "OP3"]).undoTimes 2).1
      = [JsValue.value "OP3", JsValue.value "OP2"] :=
  (undo_all_then_redo_all 2 ["OP1", "OP2", "OP3"] (by decide) (by decide)).1

/-- C16: in a state with `currentIndex < length` (the lower bound
`-1 ≤ currentIndex` of the claim is not needed), `undo()` returns the
record at the old `currentIndex` and decrements `currentIndex` when
`currentIndex ≥ 0`, and returns `null` and changes nothing when
`currentIndex = -1`; the records and `maxSize` are unchanged either way, and a
record is returned exactly when `canUndo()` was true. -/
theorem undo_spec {α : Type} (q : OperationQueue α)
    (h2 : q.currentIndex < (q.operations.length : Int)) :
    (0 ≤ q.currentIndex →
      ∃ r, q.operations.get? q.currentIndex.toNat = some r ∧
        q.undo = (JsValue.value r, { q with currentIndex := q.currentIndex - 1 })) ∧
    (q.currentIndex = -1 → q.undo = (JsValue.null, q)) ∧
    q.undo.2.operations = q.operations ∧
    q.undo.2.maxSize = q.maxSize ∧
    ((∃ r, q.undo.1 = JsValue.value r) ↔ q.canUndo = true) := by
  by_cases hge : q.currentIndex ≥ 0
  · obtain ⟨j, hj⟩ : ∃ j : Nat, q.currentIndex = (j : Int) := ⟨q.currentIndex.toNat, by omega⟩
    obtain ⟨a, ha⟩ := get?_of_lt q.operations j (by omega)
    have hundo : q.undo = (JsValue.value a, { q with currentIndex := q.currentIndex - 1 }) := by
      unfold OperationQueue.undo
      rw [if_pos hge]
      have h3 : q.currentIndex - 1 + 1 = (j : Int) := by omega
      simp only [h3, arrayAt_natCast _ _ _ ha]
    refine ⟨fun _ => ⟨a, by rw [hj, Int.toNat_ofNat]; exact ha, hundo⟩, ?_, ?_, ?_, ?_⟩
    · intro h; omega
    · rw [hundo]
    · rw [hundo]
    · rw [hundo]
      simp only [OperationQueue.canUndo, decide_eq_true_eq]
      exact ⟨fun _ => hge, fun _ => ⟨a, rfl⟩⟩
  · have hundo : q.undo = (JsValue.null, q) := by
      unfold OperationQueue.undo
      rw [if_neg hge]
    refine ⟨fun h => absurd h hge, fun _ => hundo, by rw [hundo], by rw [hundo], ?_⟩
    rw [hundo]
    simp only [OperationQueue.canUndo, decide_eq_true_eq]
    constructor
    · rintro ⟨r, hr⟩; exact absurd hr (by simp)
    · intro h; exact absurd h hge

/-- An instance of C16 on the state of the source's test "should handle
undo/redo correctly": after `OP1, OP2`, `undo()` returns `OP2`. -/
theorem undo_spec_witness :
    ∃ r, (["OP1", "OP2"] : List String).get? 1 = some r ∧
      ({ operations := ["OP1", "OP2"], maxSize := 3, currentIndex := 1 } :
          OperationQueue String).undo
        = (JsValue.value r, { operations := ["OP1", "OP2"], maxSize := 3, currentIndex := 0 }) :=
  (undo_spec ({ operations := ["OP1", "OP2"], maxSize := 3, currentIndex := 1 } :
    OperationQueue String) (by decide)).1 (by decide)

/-- C17: in a state with `0 ≤ currentIndex < length`, `undo()` followed by
`redo()` returns the same record from both calls and restores the queue to the
state before the `undo()`; in a state with `currentIndex = length - 1`,
`redo()` returns `null` and changes nothing. -/
theorem undo_then_redo {α : Type} (q : OperationQueue α) :
    (0 ≤ q.currentIndex → q.currentIndex < (q.operations.length : Int) →
      ∃ r, q.undo.1 = JsValue.value r ∧ q.undo.2.redo.1 = JsValue.value r ∧
        q.undo.2.redo.2 = q) ∧
    (q.currentIndex = (q.operations.length : Int) - 1 → q.redo = (JsValue.null, q)) := by
  constructor
  · intro h1 h2
    obtain ⟨j, hj⟩ : ∃ j : Nat, q.currentIndex = (j : Int) := ⟨q.currentIndex.toNat, by omega⟩
    obtain ⟨a, ha⟩ := get?_of_lt q.operations j (by omega)
    have hundo : q.undo = (JsValue.value a, { q with currentIndex := q.currentIndex - 1 }) := by
      unfold OperationQueue.undo
      rw [if_pos h1]
      have h3 : q.currentIndex - 1 + 1 = (j : Int) := by omega
      simp only [h3, arrayAt_natCast _ _ _ ha]
    have hredo : ({ q with currentIndex := q.currentIndex - 1 } : OperationQueue α).redo
        = (JsValue.value a, q) := by
      unfold OperationQueue.redo
      have hlt : q.currentIndex - 1 < (q.operations.length : Int) - 1 := by omega
      simp only [if_pos hlt]
      have h3 : q.currentIndex - 1 + 1 = (j : Int) := by omega
      rw [h3, arrayAt_natCast _ _ _ ha, ← hj]
    refine ⟨a, by rw [hundo], ?_, ?_⟩
    · rw [hundo]; simp only [hredo]
    · rw [hundo]; simp only [hredo]
  · intro h
    unfold OperationQueue.redo
    have : ¬ q.currentIndex < (q.operations.length : Int) - 1 := by omega
    rw [if_neg this]

/-- An instance of C17 on the state of the source's test "should handle
undo/redo correctly": `undo()` then `redo()` both return `OP2`. -/
theorem undo_then_redo_witness :
    ∃ r, ({ operations := ["OP1", "OP2"], maxSize := 3, currentIndex := 1 } :
          OperationQueue String).undo.1 = JsValue.value r ∧
      ({ operations := ["OP1", "OP2"], maxSize := 3, currentIndex := 1 } :
          OperationQueue String).undo.2.redo.1 = JsValue.value r ∧
      ({ operations := ["OP1", "OP2"], maxSize := 3, currentIndex := 1 } :
          OperationQueue String).undo.2.redo.2
        = { operations := ["OP1", "OP2"], maxSize := 3, currentIndex := 1 } :=
  (undo_then_redo ({ operations := ["OP1", "OP2"], maxSize := 3, currentIndex := 1 } :
    OperationQueue String)).1 (by decide) (by decide)

/-- C18: `enqueue(payload, p)` splits the queue into the elements before the
first one of priority strictly greater than `p` (all of priority at most `p`)
and the rest (empty, or starting with that element), and puts the new element
between them; the existing elements keep their order and `size()` grows by one.
On a queue sorted by non-decreasing priority every element after the new one
has priority greater than `p`, so the new element follows all elements of
priority at most `p`, and the queue stays sorted. -/
theorem enqueue_spec {α : Type} (q : PriorityQueue α) (m : α) (p : Int) :
    (∃ before after, q.queue = before ++ after ∧
      (∀ e ∈ before, e.priority ≤ p) ∧
      (∀ e, after.head? = some e → p < e.priority) ∧
      (q.enqueue m p).queue = before ++ { module := m, priority := p } :: after ∧
      (sortedByPriority q.queue → ∀ e ∈ after, p < e.priority)) ∧
    (q.enqueue m p).size = q.size + 1 ∧
    (sortedByPriority q.queue → sortedByPriority (q.enqueue m p).queue) := by
  have hq := enqueue_queue q m p
  have hsplit : q.queue.takeWhile (fun e => decide (e.priority ≤ p)) ++
      q.queue.dropWhile (fun e => decide (e.priority ≤ p)) = q.queue :=
    List.takeWhile_append_dropWhile _ _
  have hbefore : ∀ e ∈ q.queue.takeWhile (fun e => decide (e.priority ≤ p)),
      e.priority ≤ p := by
    intro e he
    simpa using mem_takeWhile_imp _ _ _ he
  have hhead : ∀ e, (q.queue.dropWhile (fun e => decide (e.priority ≤ p))).head? = some e →
      p < e.priority := by
    intro e he
    have := head_dropWhile_not _ _ _ he
    simp only [decide_eq_false_iff_not, not_le] at this
    exact this
  have hafter : sortedByPriority q.queue →
      ∀ e ∈ q.queue.dropWhile (fun e => decide (e.priority ≤ p)), p < e.priority := by
    intro hs e he
    unfold sortedByPriority at hs
    rw [← hsplit] at hs
    have hs2 := (List.pairwise_append.mp hs).2.1
    cases hd : q.queue.dropWhile (fun e => decide (e.priority ≤ p)) with
    | nil => rw [hd] at he; cases he
    | cons x xs =>
      have hx : p < x.priority := hhead x (by rw [hd]; rfl)
      rw [hd] at he hs2
      rcases List.mem_cons.mp he with h | h
      · rw [h]; exact hx
      · have := (List.pairwise_cons.mp hs2).1 e h
        omega
  refine ⟨⟨_, _, hsplit.symm, hbefore, hhead, hq, hafter⟩, ?_, ?_⟩
  · unfold PriorityQueue.size
    rw [hq]
    conv => rhs; rw [← hsplit]
    simp only [List.length_append, List.length_cons]
    omega
  · intro hs
    have ha := hafter hs
    unfold sortedByPriority at hs ⊢
    rw [hq]
    rw [← hsplit] at hs
    obtain ⟨h1, h2, h3⟩ := List.pairwise_append.mp hs
    rw [List.pairwise_append]
    refine ⟨h1, ?_, ?_⟩
    · rw [List.pairwise_cons]
      exact ⟨fun e he => le_of_lt (ha e he), h2⟩
    · intro a haB b hb
      rcases List.mem_cons.mp hb with h | h
      · rw [h]; exact hbefore a haB
      · exact h3 a haB b h

/-- An instance of C18: a new element of priority 2 goes after the existing
elements of priority 1 and 2 and before the element of priority 5. -/
theorem enqueue_spec_witness :
    sortedByPriority
      (({ queue := [⟨"a", 1⟩, ⟨"b", 2⟩, ⟨"c", 5⟩] } : PriorityQueue String).enqueue "d" 2).queue :=
  (enqueue_spec ({ queue := [⟨"a", 1⟩, ⟨"b", 2⟩, ⟨"c", 5⟩] } : PriorityQueue String) "d" 2).2.2
    (by unfold sortedByPriority; decide)

/-- C19: after enqueuing the pairs in order into an empty queue, the queue is
the stable sort of the enqueued elements by priority: it is the merge sort of
them, it is sorted by non-decreasing priority, it is a permutation of them, and
its elements of each priority are in enqueue order. Successive `dequeue()`
calls return the payloads in that order, each call decreasing `size()` by one,
and once the queue is empty `dequeue()` and `peek()` return `null`. -/
theorem dequeue_in_priority_order {α : Type} (pairs : List (α × Int)) :
    ((PriorityQueue.new : PriorityQueue α).enqueueAll pairs).queue
      = (pairs.map toElement).mergeSort priorityLe ∧
    sortedByPriority ((PriorityQueue.new : PriorityQueue α).enqueueAll pairs).queue ∧
    ((PriorityQueue.new : PriorityQueue α).enqueueAll pairs).queue.Perm
      (pairs.map toElement) ∧
    (∀ k, ((PriorityQueue.new : PriorityQueue α).enqueueAll pairs).queue.filter
        (fun e => e.priority == k)
      = (pairs.map toElement).filter (fun e => e.priority == k)) ∧
    (((PriorityQueue.new : PriorityQueue α).enqueueAll pairs).dequeueTimes pairs.length).1
      = ((PriorityQueue.new : PriorityQueue α).enqueueAll pairs).queue.map
          (fun e => JsValue.value e.module) ∧
    (∀ n, n ≤ pairs.length →
      (((PriorityQueue.new : PriorityQueue α).enqueueAll pairs).dequeueTimes n).2.size
        = pairs.length - n) ∧
    (((PriorityQueue.new : PriorityQueue α).enqueueAll pairs).dequeueTimes
        pairs.length).2.dequeue.1 = JsValue.null ∧
    (((PriorityQueue.new : PriorityQueue α).enqueueAll pairs).dequeueTimes
        pairs.length).2.peek = JsValue.null := by
  have hperm := enqueueAll_perm pairs
  have hlen : ((PriorityQueue.new : PriorityQueue α).enqueueAll pairs).queue.length
      = pairs.length := by
    rw [hperm.length_eq, List.length_map]
  obtain ⟨hsorted, hstable⟩ := enqueueAll_sorted_stable pairs
  refine ⟨enqueueAll_eq_mergeSort pairs, hsorted, hperm, hstable, ?_, ?_, ?_, ?_⟩
  · rw [dequeueTimes_spec _ _ (by rw [hlen]), ← hlen, List.take_length]
  · intro n hn
    rw [dequeueTimes_spec _ _ (by rw [hlen]; exact hn)]
    simp only [PriorityQueue.size, List.length_drop, hlen]
  · rw [dequeueTimes_spec _ _ (by rw [hlen]), ← hlen, List.drop_length]
    rfl
  · rw [dequeueTimes_spec _ _ (by rw [hlen]), ← hlen, List.drop_length]
    rfl

/-- Scenario D as the instance of C19: `(M3,3), (M1,1), (M2,2)` are dequeued as
`M1`, `M2`, `M3`. -/
theorem dequeue_in_priority_order_witness :
    (((PriorityQueue.new : PriorityQueue String).enqueueAll
        [("M3", 3), ("M1", 1), ("M2", 2)]).dequeueTimes 3).1
      = [JsValue.value "M1", JsValue.value "M2", JsValue.value "M3"] :=
  (dequeue_in_priority_order [("M3", (3 : Int)), ("M1", 1), ("M2", 2)]).2.2.2.2.1.trans
    (by decide)

/-- C20: `validateModule` returns all violations: the id error is present
exactly when `id` is not a non-empty string, the name error exactly when `name`
is not a string that is non-empty after trimming (so also when it is missing),
the id error precedes the name error when both are present, and `isValid` is
true exactly when the error list is empty. -/
theorem validateModule_spec (module : RawModule) :
    ("Module must have a valid string ID" ∈ (validateModule module).errors ↔
      nonEmptyString module.id = false) ∧
    ("Module must have a non-empty name" ∈ (validateModule module).errors ↔
      nonBlankString module.name = false) ∧
    ((validateModule module).errors =
      (if nonEmptyString module.id = false then ["Module must have a valid string ID"]
        else []) ++
      (if nonBlankString module.name = false then ["Module must have a non-empty name"]
        else [])) ∧
    (nonEmptyString module.id = false → nonBlankString module.name = false →
      (validateModule module).errors =
        ["Module must have a valid string ID", "Module must have a non-empty name"]) ∧
    ((validateModule module).isValid = true ↔ (validateModule module).errors = []) := by
  have herr : (validateModule module).errors =
      (if nonEmptyString module.id = false then ["Module must have a valid string ID"]
        else []) ++
      (if nonBlankString module.name = false then ["Module must have a non-empty name"]
        else []) := by
    unfold validateModule
    simp only [List.nil_append]
    rw [nameTest_eq, idTest_eq]
    cases nonEmptyString module.id <;> cases nonBlankString module.name <;> rfl
  have hvalid : (validateModule module).isValid = true ↔ (validateModule module).errors = [] := by
    have : (validateModule module).isValid = ((validateModule module).errors.length == 0) := rfl
    rw [this]
    simp [List.length_eq_zero]
  refine ⟨?_, ?_, herr, ?_, hvalid⟩
  · rw [herr]
    cases nonEmptyString module.id <;> cases nonBlankString module.name <;> simp
  · rw [herr]
    cases nonEmptyString module.id <;> cases nonBlankString module.name <;> simp
  · intro h1 h2
    rw [herr, if_pos h1, if_pos h2]
    rfl

/-- An instance of C20: the id is the empty string and the name is blank, as
in the source's test "should catch empty name"; both errors are reported, the
id error first. -/
theorem validateModule_spec_witness :
    (validateModule ⟨JsField.string "", JsField.string "   "⟩).errors
      = ["Module must have a valid string ID", "Module must have a non-empty name"] :=
  (validateModule_spec ⟨JsField.string "", JsField.string "   "⟩).2.2.2.1
    (by decide) (by decide)

/-- C21 as stated fails for a `moduleId` of white space only: it is a
non-empty string, so the four rules of the claim hold, but the source trims
`moduleId` before measuring it and reports the item invalid. -/
theorem validateItem_blank_moduleId_counterexample :
    ¬ (∀ item : RawItem,
        (validateItem item).isValid = true ↔
          (nonEmptyString item.id = true ∧
           (item.moduleId = JsField.null ∨ nonEmptyString item.moduleId = true) ∧
           nonBlankString item.name = true ∧
           (item.type = JsField.string "link" → nonEmptyString item.url = true))) := by
  intro h
  have h1 := (h ⟨JsField.string "1", JsField.string "   ", JsField.string "File Item",
    JsField.string "file", JsField.undefined⟩).mpr
    ⟨by decide, Or.inr (by decide), by decide, fun hl => absurd hl (by decide)⟩
  exact absurd h1 (by decide)

/-- C21, amended: `validateItem` reports `isValid = true` exactly when `id` is
a non-empty string, `moduleId` is `null` or a string that is non-empty after
trimming, `name` is a string that is non-empty after trimming, and, when
`type` is `"link"`, `url` is a non-empty string. The error list holds one
message for each violated rule, in this order, so several violations are all
reported. -/
theorem validateItem_spec (item : RawItem) :
    ((validateItem item).isValid = true ↔
      (nonEmptyString item.id = true ∧
       (item.moduleId = JsField.null ∨ nonBlankString item.moduleId = true) ∧
       nonBlankString item.name = true ∧
       (item.type = JsField.string "link" → nonEmptyString item.url = true))) ∧
    ((validateItem item).errors =
      (if nonEmptyString item.id = false then ["Item must have a valid string ID"] else []) ++
      ((if (item.moduleId == JsField.null || nonBlankString item.moduleId) = false then
          ["Item must have a valid module ID or null for root-level items"] else []) ++
      ((if nonBlankString item.name = false then ["Item must have a non-empty name"] else []) ++
      (if (item.type == JsField.string "link" && !nonEmptyString item.url) = true then
          ["Link items must have a valid URL"] else [])))) ∧
    ((validateItem item).isValid = true ↔ (validateItem item).errors = []) := by
  have herr := validateItem_errors item
  have hvalid : (validateItem item).isValid = true ↔ (validateItem item).errors = [] := by
    have : (validateItem item).isValid = ((validateItem item).errors.length == 0) := rfl
    rw [this]
    simp [List.length_eq_zero]
  refine ⟨?_, herr, hvalid⟩
  rw [hvalid, herr]
  have hm : (item.moduleId = JsField.null ∨ nonBlankString item.moduleId = true) ↔
      (item.moduleId == JsField.null || nonBlankString item.moduleId) = true := by
    simp
  have hu : (item.type = JsField.string "link" → nonEmptyString item.url = true) ↔
      (item.type == JsField.string "link" && !nonEmptyString item.url) = false := by
    by_cases ht : item.type = JsField.string "link"
    · simp [ht]
    · simp [ht]
  rw [hm, hu]
  cases nonEmptyString item.id <;>
    cases (item.moduleId == JsField.null || nonBlankString item.moduleId) <;>
    cases nonBlankString item.name <;>
    cases (item.type == JsField.string "link" && !nonEmptyString item.url) <;> simp

/-- An instance of amended C21 on the item of the source's test "should catch
missing URL for link items". -/
theorem validateItem_spec_witness :
    (validateItem ⟨JsField.string "1", JsField.string "module-1", JsField.string "Link Item",
        JsField.string "link", JsField.undefined⟩).errors
      = ["Link items must have a valid URL"] :=
  (validateItem_spec ⟨JsField.string "1", JsField.string "module-1",
    JsField.string "Link Item", JsField.string "link", JsField.undefined⟩).2.1.trans
    (by decide)

/-- C22: starting from an empty `ItemHashMap`, after the calls `addItem(c, x)`
for the pairs of `adds` in order, `get(c)` is the list of the items added to
container `c` in the order they were added and `getItemCount(c)` is their
number; a container never written has the empty list and count 0; and on any
map `addItem(c, x)` turns `get(c)` into the old list with `x` appended and
leaves `get(c')` as it was for every other container `c'`. -/
theorem addItem_spec (adds : List (Option String × Item)) (c : Option String) :
    (ItemHashMap.new.addAll adds).get c
      = (adds.filter (fun p => p.1 == c)).map (fun p => p.2) ∧
    (ItemHashMap.new.addAll adds).getItemCount c
      = (adds.filter (fun p => p.1 == c)).length ∧
    ((∀ p ∈ adds, p.1 ≠ c) →
      (ItemHashMap.new.addAll adds).get c = [] ∧
      (ItemHashMap.new.addAll adds).getItemCount c = 0) ∧
    (∀ (h : ItemHashMap) (x : Item),
      (h.addItem c x).get c = h.get c ++ [x] ∧
      ∀ c', c' ≠ c → (h.addItem c x).get c' = h.get c') := by
  have hget : (ItemHashMap.new.addAll adds).get c
      = (adds.filter (fun p => p.1 == c)).map (fun p => p.2) := by
    rw [get_addAll]; rfl
  refine ⟨hget, ?_, ?_, ?_⟩
  · unfold ItemHashMap.getItemCount
    rw [hget, List.length_map]
  · intro hnone
    have hnil : adds.filter (fun p => p.1 == c) = [] := by
      rw [List.filter_eq_nil_iff]
      intro p hp
      simpa using hnone p hp
    unfold ItemHashMap.getItemCount
    rw [hget, hnil]
    exact ⟨rfl, rfl⟩
  · intro h x
    exact ⟨get_addItem_self h c x, fun c' hc => get_addItem_ne h c c' x hc⟩

/-- An instance of C22 on the source's test "should store and retrieve items
by module ID": a container that was never written is empty. -/
theorem addItem_spec_witness :
    (ItemHashMap.new.addAll
        [(some "module-1", mkItem "1" (some "module-1") "Item 1"),
         (some "module-1", mkItem "2" (some "module-1") "Item 2")]).get (some "non-existent")
      = [] :=
  ((addItem_spec
    [(some "module-1", mkItem "1" (some "module-1") "Item 1"),
     (some "module-1", mkItem "2" (some "module-1") "Item 2")] (some "non-existent")).2.2.1
    (by decide)).1

/-- C23: after `removeItem(c, id)`, `get(c)` is the previous `get(c)` without
the items whose id is `id`, the others in their previous order; it is unchanged
when no item of `c` has that id (an absent `c` has the empty list before and
after); `get(c')` is unchanged for every other container `c'`; and when the id
occurs once in `c`, `getItemCount(c)` decreases by exactly one. -/
theorem removeItem_spec (h : ItemHashMap) (c : Option String) (itemId : String) :
    (h.removeItem c itemId).get c = (h.get c).filter (fun item => item.id != itemId) ∧
    ((∀ x ∈ h.get c, x.id ≠ itemId) → (h.removeItem c itemId).get c = h.get c) ∧
    (∀ c', c' ≠ c → (h.removeItem c itemId).get c' = h.get c') ∧
    ((h.get c).countP (fun item => item.id == itemId) = 1 →
      (h.removeItem c itemId).getItemCount c + 1 = h.getItemCount c) := by
  have hget := get_removeItem_self h c itemId
  refine ⟨hget, ?_, fun c' hc => get_removeItem_ne h c c' itemId hc, ?_⟩
  · intro hnone
    rw [hget]
    apply List.filter_eq_self.mpr
    intro x hx
    simpa using hnone x hx
  · intro hone
    unfold ItemHashMap.getItemCount
    rw [hget]
    have hsplit := List.length_eq_countP_add_countP (fun item : Item => item.id == itemId)
      (h.get c)
    rw [hone] at hsplit
    have hfilter : ((h.get c).filter (fun item => item.id != itemId)).length
        = (h.get c).countP (fun item => ¬ (item.id == itemId) = true) := by
      rw [List.countP_eq_length_filter]
      congr 1
      apply List.filter_congr
      intro x _
      cases hx : (x.id == itemId) <;> simp [bne, hx]
    rw [hfilter]
    omega

/-- An instance of C23 on the source's test "should remove items correctly". -/
theorem removeItem_spec_witness :
    ((ItemHashMap.new.addItem (some "module-1")
        (mkItem "1" (some "module-1") "Item 1")).removeItem (some "module-1")
        "1").getItemCount (some "module-1") + 1
      = (ItemHashMap.new.addItem (some "module-1")
        (mkItem "1" (some "module-1") "Item 1")).getItemCount (some "module-1") :=
  (removeItem_spec (ItemHashMap.new.addItem (some "module-1")
    (mkItem "1" (some "module-1") "Item 1")) (some "module-1") "1").2.2.2 (by decide)

/-- C29: on the tree built by inserting `ms` into an empty tree,
`search(term)` returns every inserted module whose lower-cased name starts with
the lower-cased term, so the left-subtree pruning never discards a match by
its beginning; `search("")` is the pre-order traversal of the tree, which holds
every inserted module exactly once. -/
theorem search_prefix_complete (ms : List Module) (term : String) :
    (∀ m ∈ ms, startsWith (toLowerCase m.name) (toLowerCase term) = true →
      m ∈ (buildTree ms).search term) ∧
    (buildTree ms).search "" = preorder (buildTree ms).root ∧
    ((buildTree ms).search "").Perm ms := by
  have ho : ordered (buildTree ms).root :=
    ordered_foldl_insert ms ModuleSearchTree.empty trivial
  have hperm := preorder_buildTree ms
  have hempty : (buildTree ms).search "" = preorder (buildTree ms).root := by
    unfold ModuleSearchTree.search
    rw [toLowerCase_empty]
    exact searchNode_empty_term _ ho
  refine ⟨?_, hempty, ?_⟩
  · intro m hm hp
    exact searchNode_prefix_complete _ _ ho m (hperm.symm.subset hm) hp
  · rw [hempty]; exact hperm

/-- An instance of C29 on the tree of the source's search test: the term
"diff" finds "Differential Equations", which the term "quations" misses. -/
theorem search_prefix_complete_witness :
    mkModule "4" "Differential Equations" ∈
      (buildTree [mkModule "1" "Advanced Algebra", mkModule "2" "Basic Calculus",
        mkModule "3" "Linear Algebra", mkModule "4" "Differential Equations"]).search "Diff" :=
  (search_prefix_complete
    [mkModule "1" "Advanced Algebra", mkModule "2" "Basic Calculus",
      mkModule "3" "Linear Algebra", mkModule "4" "Differential Equations"] "Diff").1
    (mkModule "4" "Differential Equations") (by decide) (by decide)

/-- C30: for a queue created with `maxSize ≥ 0`, after every finite sequence
of `push`, `undo` and `redo` calls the state satisfies
`-1 ≤ currentIndex ≤ length - 1` and `length ≤ maxSize`, with
`currentIndex = -1` when there are no records; no `undo()` or `redo()` of the
sequence returns `undefined`, so every record index they read is within
bounds. -/
theorem queue_always_in_bounds {α : Type} (maxSize : Int) (calls : List (QueueCall α))
    (h : 0 ≤ maxSize) :
    ((OperationQueue.new maxSize).run calls).2.inBounds ∧
    (((OperationQueue.new maxSize).run calls).2.operations = [] →
      ((OperationQueue.new maxSize).run calls).2.currentIndex = -1) ∧
    JsValue.undefined ∉ ((OperationQueue.new maxSize).run calls).1 ∧
    ((OperationQueue.new maxSize).run calls).2.maxSize = maxSize := by
  obtain ⟨h1, h2, h3⟩ := inBounds_run calls (OperationQueue.new maxSize : OperationQueue α)
    (inBounds_new maxSize h)
  refine ⟨h1, ?_, h2, h3⟩
  intro hempty
  obtain ⟨b1, b2, _⟩ := h1
  rw [hempty] at b2
  simp only [List.length_nil, Nat.cast_zero] at b2
  omega

/-- An instance of C30: capacity 0; the pushed record is dropped at once and
`undo()`, `redo()` return `null`. -/
theorem queue_always_in_bounds_witness :
    JsValue.undefined ∉
      ((OperationQueue.new 0).run
        [QueueCall.push "OP1", QueueCall.undo, QueueCall.redo, QueueCall.push "OP2",
          QueueCall.undo]).1 :=
  (queue_always_in_bounds 0
    [QueueCall.push "OP1", QueueCall.undo, QueueCall.redo, QueueCall.push "OP2",
      QueueCall.undo] (by decide)).2.2.1

/-- C25: `handleDeleteModule(m)` yields the module sequence without the modules
of id `m` and the item collection without the items whose `moduleId` is `m`,
the rest of both in their previous order (root-level items are kept); if
invariant I3 held before it holds after, and no remaining item references `m`. -/
theorem handleDeleteModule_spec (s : BuilderState) (m : String) (timestamp : Nat) :
    (handleDeleteModule s m timestamp).modules =
      s.modules.filter (fun x => decide (x.id ≠ m)) ∧
    (handleDeleteModule s m timestamp).items =
      s.items.filter (fun i => decide (i.moduleId ≠ some m)) ∧
    (∀ i ∈ s.items, i.moduleId = none → i ∈ (handleDeleteModule s m timestamp).items) ∧
    (referentialIntegrity s.modules s.items →
      referentialIntegrity (handleDeleteModule s m timestamp).modules
        (handleDeleteModule s m timestamp).items) ∧
    (∀ i ∈ (handleDeleteModule s m timestamp).items, i.moduleId ≠ some m) := by
  have hm : (handleDeleteModule s m timestamp).modules =
      s.modules.filter (fun module => module.id != m) := rfl
  have hi : (handleDeleteModule s m timestamp).items =
      s.items.filter (fun item => item.moduleId != some m) := rfl
  refine ⟨?_, ?_, ?_, ?_, ?_⟩
  · rw [hm]; congr 1; funext x
    by_cases h : x.id = m <;> simp [bne, h]
  · rw [hi]; congr 1; funext x
    by_cases h : x.moduleId = some m <;> simp [bne, h]
  · intro i hin hnone
    rw [hi, List.mem_filter]
    exact ⟨hin, by simp [hnone]⟩
  · intro hI3 i hin
    rw [hi, List.mem_filter] at hin
    obtain ⟨hin, hne⟩ := hin
    rcases hI3 i hin with h | ⟨mod, hmod, hid⟩
    · exact Or.inl h
    · refine Or.inr ⟨mod, ?_, hid⟩
      rw [hm]
      apply filter_modules_mem hmod
      intro hmm
      rw [hid, hmm] at hne
      simp at hne
  · intro i hin
    rw [hi, List.mem_filter] at hin
    simpa [bne_iff_ne] using hin.2

/-- An instance of C25: modules `1` and `2`, an item in each and one at root
level; deleting module `1` leaves referential integrity intact. -/
theorem handleDeleteModule_spec_witness :
    referentialIntegrity [mkModule "1" "Intro", mkModule "2" "Basics"]
      [mkItem "a" (some "1") "Notes", mkItem "b" none "Syllabus",
        mkItem "c" (some "2") "Slides"] ∧
    referentialIntegrity
      (handleDeleteModule (BuilderState.init [mkModule "1" "Intro", mkModule "2" "Basics"]
        [mkItem "a" (some "1") "Notes", mkItem "b" none "Syllabus",
          mkItem "c" (some "2") "Slides"]) "1" 7).modules
      (handleDeleteModule (BuilderState.init [mkModule "1" "Intro", mkModule "2" "Basics"]
        [mkItem "a" (some "1") "Notes", mkItem "b" none "Syllabus",
          mkItem "c" (some "2") "Slides"]) "1" 7).items :=
  ⟨by decide,
    (handleDeleteModule_spec (BuilderState.init [mkModule "1" "Intro", mkModule "2" "Basics"]
      [mkItem "a" (some "1") "Notes", mkItem "b" none "Syllabus",
        mkItem "c" (some "2") "Slides"]) "1" 7).2.2.2.1 (by decide)⟩

/-- C26, counterexample: with the single module `1` and the item `a` inside it,
dragging `item-a` onto the target id `module-9` is accepted and sets the
item's `moduleId` to `9`, which is the id of no module: invariant I3 held
before the gesture and does not hold after it. -/
theorem handleDragEnd_unknown_module_target_counterexample :
    referentialIntegrity [mkModule "1" "Intro"] [mkItem "a" (some "1") "Notes"] ∧
    startsWith "item-a" "item-" = true ∧
    handleDragEnd ⟨"item-a", some "module-9"⟩ [mkModule "1" "Intro"]
        [mkItem "a" (some "1") "Notes"] =
      ([mkModule "1" "Intro"], [mkItem "a" (some "9") "Notes"]) ∧
    ¬ referentialIntegrity
      (handleDragEnd ⟨"item-a", some "module-9"⟩ [mkModule "1" "Intro"]
        [mkItem "a" (some "1") "Notes"]).1
      (handleDragEnd ⟨"item-a", some "module-9"⟩ [mkModule "1" "Intro"]
        [mkItem "a" (some "1") "Notes"]).2 := by
  decide

/-- C26, amended: for a module sequence and item collection satisfying I3 and a
drag gesture with an item-tagged source whose target id, when it is
module-tagged, names after the tag `module-` a module of the module sequence,
`handleDragEnd` leaves the module sequence as it is and every non-null
`moduleId` afterwards is the id of a module of the module sequence. -/
theorem handleDragEnd_preserves_referential_integrity (event : DragEvent)
    (modules : List Module) (items : List Item)
    (hI3 : referentialIntegrity modules items)
    (hsrc : startsWith event.active "item-" = true)
    (htarget : ∀ overId, event.over = some overId → startsWith overId "module-" = true →
      ∃ m ∈ modules, removeFirst overId "module-" = m.id) :
    (handleDragEnd event modules items).1 = modules ∧
    referentialIntegrity (handleDragEnd event modules items).1
      (handleDragEnd event modules items).2 := by
  rcases handleDragEnd_item_source event modules items hsrc with h | h
  · rw [h]; exact ⟨rfl, hI3⟩
  · obtain ⟨overId, activeId, c, idx, hover, hres, h⟩ := h
    rw [h]
    refine ⟨rfl, referentialIntegrity_moveItem activeId c idx hI3 ?_⟩
    rcases resolveTarget_container hres with ⟨y, hy, hc⟩ | ⟨hm, hc⟩ | hc
    · rw [hc]; exact hI3 y hy
    · obtain ⟨m, hmem, hid⟩ := htarget overId hover hm
      exact Or.inr ⟨m, hmem, by rw [hc, hid]⟩
    · exact Or.inl hc

/-- An instance of amended C26: modules `1` and `2`, item `a` of module `1`
dropped on `module-2`; the item then references module `2`. -/
theorem handleDragEnd_preserves_referential_integrity_witness :
    referentialIntegrity [mkModule "1" "Intro", mkModule "2" "Basics"]
      [mkItem "a" (some "1") "Notes"] ∧
    referentialIntegrity
      (handleDragEnd ⟨"item-a", some "module-2"⟩ [mkModule "1" "Intro", mkModule "2" "Basics"]
        [mkItem "a" (some "1") "Notes"]).1
      (handleDragEnd ⟨"item-a", some "module-2"⟩ [mkModule "1" "Intro", mkModule "2" "Basics"]
        [mkItem "a" (some "1") "Notes"]).2 :=
  ⟨by decide,
    (handleDragEnd_preserves_referential_integrity ⟨"item-a", some "module-2"⟩
      [mkModule "1" "Intro", mkModule "2" "Basics"] [mkItem "a" (some "1") "Notes"]
      (by decide) (by decide)
      (fun overId hover _ => by
        have h : overId = "module-2" := (Option.some.inj hover).symm
        subst h
        exact ⟨mkModule "2" "Basics", by simp, by decide⟩)).2⟩

/-- C27: for a module sequence with unique ids satisfying invariant I2 and a
save request that is an edit, or a create with an id not in the sequence, the
module sequence after `handleSaveModule` satisfies I2; when the requested
name equals, after trimming and lower-casing, the name of a module with a
different id, `handleSaveModule` returns the duplicate-name error and the
whole state (module sequence, name index, history log) is unchanged. -/
theorem handleSaveModule_preserves_name_uniqueness (s : BuilderState) (module : Module)
    (timestamp createdAt : Nat)
    (hids : (s.modules.map (fun m => m.id)).Nodup)
    (hI2 : moduleNameUnique s.modules)
    (hcreate : s.currentModule = none → ∀ e ∈ s.modules, e.id ≠ module.id) :
    moduleNameUnique (handleSaveModule s module timestamp createdAt).2.modules ∧
    ((∃ e ∈ s.modules, e.id ≠ module.id ∧
        normalizedName e.name = normalizedName module.name) →
      (handleSaveModule s module timestamp createdAt).1 =
        SaveResult.error
          "A module with this name already exists. Please choose a different name." ∧
      (handleSaveModule s module timestamp createdAt).2 = s) := by
  refine ⟨?_, ?_⟩
  · rcases handleSaveModule_modules s module timestamp createdAt with h | ⟨hnew, h | h⟩
    · rw [h]; exact hI2
    · rw [h.2]
      exact moduleNameUnique_append s.modules _ hI2
        (fun e he => hnew e he (hcreate h.1 e he))
    · rw [h.2]
      exact moduleNameUnique_replace s.modules module hids hI2 hnew
  · intro hdup
    rw [handleSaveModule_duplicate s module timestamp createdAt hdup]
    exact ⟨rfl, rfl⟩

/-- An instance of C27: with the modules `Intro` and `Basics`, creating the
module `Advanced` under a new id keeps the names unique, and the module is
appended. -/
theorem handleSaveModule_preserves_name_uniqueness_witness :
    (handleSaveModule (BuilderState.init [mkModule "1" "Intro", mkModule "2" "Basics"] [])
        (mkModule "3" "Advanced") 7 8).2.modules =
      [mkModule "1" "Intro", mkModule "2" "Basics", ⟨"3", "Advanced", 8⟩] ∧
    moduleNameUnique
      (handleSaveModule (BuilderState.init [mkModule "1" "Intro", mkModule "2" "Basics"] [])
        (mkModule "3" "Advanced") 7 8).2.modules :=
  ⟨by decide,
    (handleSaveModule_preserves_name_uniqueness
      (BuilderState.init [mkModule "1" "Intro", mkModule "2" "Basics"] [])
      (mkModule "3" "Advanced") 7 8 (by decide) (by decide) (by decide)).1⟩

/-- C24: the hash map is not kept in agreement with the item collection by an
accepted item move. After mount with the modules `1`, `2` and the item `a` of
module `1` the hash map agrees with the collection for every container; after
`item-a` is dropped on `module-2` the collection has `a` in module `2`, while
`get` of the hash map still returns `a` for module `1` and nothing for module
`2`. -/
theorem onDragEnd_leaves_index_stale :
    indexConsistent
      (BuilderState.init [mkModule "1" "Intro", mkModule "2" "Basics"]
        [mkItem "a" (some "1") "Notes"]) ∧
    (onDragEnd
      (BuilderState.init [mkModule "1" "Intro", mkModule "2" "Basics"]
        [mkItem "a" (some "1") "Notes"])
      ⟨"item-a", some "module-2"⟩).items = [mkItem "a" (some "2") "Notes"] ∧
    (onDragEnd
      (BuilderState.init [mkModule "1" "Intro", mkModule "2" "Basics"]
        [mkItem "a" (some "1") "Notes"])
      ⟨"item-a", some "module-2"⟩).itemHashMap.get (some "1") =
        [mkItem "a" (some "1") "Notes"] ∧
    (onDragEnd
      (BuilderState.init [mkModule "1" "Intro", mkModule "2" "Basics"]
        [mkItem "a" (some "1") "Notes"])
      ⟨"item-a", some "module-2"⟩).itemHashMap.get (some "2") = [] ∧
    ¬ indexConsistent
      (onDragEnd
        (BuilderState.init [mkModule "1" "Intro", mkModule "2" "Basics"]
          [mkItem "a" (some "1") "Notes"])
        ⟨"item-a", some "module-2"⟩) :=
  ⟨indexConsistent_init _ _, by decide, by decide, by decide,
    fun h => absurd (h (some "2")) (by decide)⟩

/-- C28: invariant I1 is not enforced by the inline rename. With the items
`a` (named `Notes`) and `b` (a note named `Slides`) in module `1`, I1 holds
and `checkDuplicateItemInModule` reports the name `Notes` as taken for `b`;
`handleSaveEdit` of `b` with the text `Notes`, that is
`handleEditItem("b", updatedItem)`, is not blocked: the collection then has
two items named `Notes` in module `1` and the history log has the edit. -/
theorem handleSaveEdit_allows_duplicate_name :
    nameUnique
      [mkItem "a" (some "1") "Notes", { mkItem "b" (some "1") "Slides" with type := "note" }] ∧
    checkDuplicateItemInModule
      [mkItem "a" (some "1") "Notes", { mkItem "b" (some "1") "Slides" with type := "note" }]
      (some "1") "Notes" (some "b") = true ∧
    handleSaveEdit
      (BuilderState.init [mkModule "1" "Intro"]
        [mkItem "a" (some "1") "Notes", { mkItem "b" (some "1") "Slides" with type := "note" }])
      { mkItem "b" (some "1") "Slides" with type := "note" } "Notes" 7 =
    handleEditItem
      (BuilderState.init [mkModule "1" "Intro"]
        [mkItem "a" (some "1") "Notes", { mkItem "b" (some "1") "Slides" with type := "note" }])
      "b" (some { mkItem "b" (some "1") "Notes" with type := "note" }) 7 ∧
    (handleSaveEdit
      (BuilderState.init [mkModule "1" "Intro"]
        [mkItem "a" (some "1") "Notes", { mkItem "b" (some "1") "Slides" with type := "note" }])
      { mkItem "b" (some "1") "Slides" with type := "note" } "Notes" 7).items =
      [mkItem "a" (some "1") "Notes", { mkItem "b" (some "1") "Notes" with type := "note" }] ∧
    ¬ nameUnique
      (handleSaveEdit
        (BuilderState.init [mkModule "1" "Intro"]
          [mkItem "a" (some "1") "Notes", { mkItem "b" (some "1") "Slides" with type := "note" }])
        { mkItem "b" (some "1") "Slides" with type := "note" } "Notes" 7).items ∧
    (handleSaveEdit
      (BuilderState.init [mkModule "1" "Intro"]
        [mkItem "a" (some "1") "Notes", { mkItem "b" (some "1") "Slides" with type := "note" }])
      { mkItem "b" (some "1") "Slides" with type := "note" } "Notes" 7).operationQueue.operations =
      [Operation.editItem "b" { mkItem "b" (some "1") "Notes" with type := "note" } 7] := by
  decide

end CourseOutline
